import Mathlib

/-!
Verification of the tree engine in `packages/ui/src/tree.rs`.

The Rust code is shallowly embedded: `NodeId(usize)` becomes `Nat`,
`Vec<T>` becomes `List T`, `Option<NodeId>` becomes `Option Nat`.
`Tree::get_node_mut` followed by an in-place mutation is modelled by
`modify_node`, which rewrites the first record whose id matches (exactly
the record `iter_mut().find` would return) and is the identity when no
record matches (the `if let Some(..) = get_node_mut(..)` pattern).
The recursive `delete_node` is modelled with explicit fuel
(`t.nodes.length` suffices for every acyclic tree, and the top-level
`delete_node` supplies exactly that much).
-/

namespace Otzar

structure Node where
  id : Nat
  content : String
  parent : Option Nat
  children : List Nat
  is_expanded : Bool
deriving Repr, DecidableEq

/-- `Node::new` from the source: fresh node, no parent, no children, expanded. -/
def Node.new (id : Nat) (content : String) : Node :=
  { id := id, content := content, parent := none, children := [], is_expanded := true }

structure Tree where
  nodes : List Node
  root_nodes : List Nat
  next_id : Nat
deriving Repr, DecidableEq

/-- `Tree::new`. -/
def Tree.new : Tree :=
  { nodes := [], root_nodes := [], next_id := 0 }

/-- `Tree::get_node`: first record whose id matches. -/
def get_node (t : Tree) (id : Nat) : Option Node :=
  t.nodes.find? (fun n => n.id == id)

/-- A node id is live when `get_node` finds a record for it. -/
def live (t : Tree) (id : Nat) : Bool :=
  (get_node t id).isSome

/-- Model of `get_node_mut` + in-place mutation: rewrite the first record
with the given id, identity if none exists. -/
def modify_node (l : List Node) (id : Nat) (f : Node → Node) : List Node :=
  match l with
  | [] => []
  | n :: ns => if n.id = id then f n :: ns else n :: modify_node ns id f

/-- In-place update of a record's children list (the typical payload of a
`get_node_mut` mutation in the source). -/
def with_children (g : List Nat → List Nat) : Node → Node :=
  fun n => { n with children := g n.children }

/-- In-place update of a record's parent field. -/
def with_parent (p : Option Nat) : Node → Node :=
  fun n => { n with parent := p }

/-- `Tree::add_node`. Returns the mutated tree and the fresh id. -/
def add_node (t : Tree) (content : String) (parent : Option Nat) : Tree × Nat :=
  let id := t.next_id
  let node : Node := { Node.new id content with parent := parent }
  let t1 :=
    match parent with
    | some parent_id =>
        { t with nodes :=
            modify_node t.nodes parent_id (with_children (fun ch => ch ++ [id])) }
    | none => { t with root_nodes := t.root_nodes ++ [id] }
  ({ t1 with nodes := t1.nodes ++ [node], next_id := id + 1 }, id)

/-- `Tree::get_root_nodes`. -/
def get_root_nodes (t : Tree) : List Nat :=
  t.root_nodes

/-- `Tree::get_all_nodes`. -/
def get_all_nodes (t : Tree) : List Node :=
  t.nodes

/-- `Tree::toggle_expanded`. -/
def toggle_expanded (t : Tree) (id : Nat) : Tree :=
  { t with nodes := modify_node t.nodes id (fun n => { n with is_expanded := !n.is_expanded }) }

/-- `Tree::update_content`. -/
def update_content (t : Tree) (id : Nat) (content : String) : Tree :=
  { t with nodes := modify_node t.nodes id (fun n => { n with content := content }) }

/-- Body of the recursive `Tree::delete_node`, with explicit fuel.
Each unfolding mirrors the Rust body exactly: detach the id from its
parent's children (or from `root_nodes`), recursively delete the cloned
children list, then drop the record itself. -/
def delete_go : Nat → Tree → Nat → Tree
  | 0, t, _ => t
  | fuel+1, t, id =>
    match get_node t id with
    | none => t
    | some node =>
      let t1 :=
        match node.parent with
        | some parent_id =>
            { t with nodes :=
                (modify_node t.nodes parent_id
                  (with_children (fun ch => ch.filter (fun c => c != id)))) }
        | none =>
            { t with root_nodes := t.root_nodes.filter (fun r => r != id) }
      let t2 := node.children.foldl (fun acc c => delete_go fuel acc c) t1
      { t2 with nodes := t2.nodes.filter (fun n => n.id != id) }

/-- `Tree::delete_node`: the recursion depth of the Rust original on an
acyclic tree is bounded by the number of live nodes, so that much fuel
reproduces it. -/
def delete_node (t : Tree) (id : Nat) : Tree :=
  delete_go t.nodes.length t id

/-- `Tree::add_sibling`. -/
def add_sibling (t : Tree) (sibling_id : Nat) (content : String) : Tree × Nat :=
  let parent := (get_node t sibling_id).bind (fun n => n.parent)
  add_node t content parent

/-- `Vec::insert` (used by `move_node` after clamping the index). -/
def insert_at (l : List Nat) (pos : Nat) (x : Nat) : List Nat :=
  match pos, l with
  | 0, l => x :: l
  | _+1, [] => [x]
  | p+1, y :: ys => y :: insert_at ys p x

/-- `Tree::indent_node`. -/
def indent_node (t : Tree) (id : Nat) : Tree :=
  match get_node t id with
  | none => t
  | some node =>
    match node.parent with
    | none => t
    | some parent_id =>
      match get_node t parent_id with
      | none => t
      | some parent =>
        match parent.children.findIdx? (fun nid => nid == id) with
        | none => t
        | some pos =>
          if pos > 0 then
            let new_parent_id := parent.children.getD (pos - 1) 0
            let ns1 := modify_node t.nodes parent_id
              (with_children (fun ch => ch.filter (fun c => c != id)))
            let ns2 := modify_node ns1 new_parent_id
              (with_children (fun ch => ch ++ [id]))
            let ns3 := modify_node ns2 id (with_parent (some new_parent_id))
            { t with nodes := ns3 }
          else t

/-- `Tree::outdent_node`. -/
def outdent_node (t : Tree) (id : Nat) : Tree :=
  match get_node t id with
  | none => t
  | some node =>
    match node.parent with
    | none => t
    | some parent_id =>
      match (get_node t parent_id).bind (fun p => p.parent) with
      | some grandparent_id =>
        let ns1 := modify_node t.nodes parent_id
          (with_children (fun ch => ch.filter (fun c => c != id)))
        let ns2 := modify_node ns1 grandparent_id
          (with_children (fun ch => ch ++ [id]))
        let ns3 := modify_node ns2 id (with_parent (some grandparent_id))
        { t with nodes := ns3 }
      | none =>
        let ns1 := modify_node t.nodes parent_id
          (with_children (fun ch => ch.filter (fun c => c != id)))
        let ns2 := modify_node ns1 id (with_parent none)
        { t with nodes := ns2, root_nodes := t.root_nodes ++ [id] }

/-- `Tree::reorder_children`. -/
def reorder_children (t : Tree) (parent_id : Option Nat) (new_order : List Nat) : Tree :=
  match parent_id with
  | some pid => { t with nodes := modify_node t.nodes pid (with_children (fun _ => new_order)) }
  | none => { t with root_nodes := new_order }

/-- `Tree::move_node`. -/
def move_node (t : Tree) (node_id : Nat) (new_parent_id : Option Nat) (position : Nat) : Tree :=
  match get_node t node_id with
  | none => t
  | some node =>
    let t1 :=
      match node.parent with
      | some old_parent_id =>
        { t with nodes :=
            (modify_node t.nodes old_parent_id
              (with_children (fun ch => ch.filter (fun i => i != node_id)))) }
      | none =>
        { t with root_nodes := t.root_nodes.filter (fun i => i != node_id) }
    let t2 := { t1 with nodes := modify_node t1.nodes node_id (with_parent new_parent_id) }
    match new_parent_id with
    | some np =>
      { t2 with nodes :=
          (modify_node t2.nodes np
            (with_children (fun ch => insert_at ch (min position ch.length) node_id))) }
    | none =>
      { t2 with root_nodes := insert_at t2.root_nodes (min position t2.root_nodes.length) node_id }

/-! ### Lookup and first-match modification: basic lemmas -/

def findNode (l : List Node) (i : Nat) : Option Node :=
  l.find? (fun n => n.id == i)

/-! ### Occurrence counting -/

/-- Occurrence count in a list of ids. -/
def cnt (l : List Nat) (x : Nat) : Nat :=
  match l with
  | [] => 0
  | a :: l => (if a = x then 1 else 0) + cnt l x

/-- Total number of occurrences of `x` over all children lists. -/
def childOccL (l : List Node) (x : Nat) : Nat :=
  (l.map (fun n => cnt n.children x)).sum

def childOcc (t : Tree) (x : Nat) : Nat := childOccL t.nodes x

/-- Number of occurrences of `x` in the root list. -/
def rootOcc (t : Tree) (x : Nat) : Nat := cnt t.root_nodes x

/-! ### The invariants of spec section 3 -/

/-- Invariants 1-3 of the spec, together with the bookkeeping facts
(`nodup`, `bounded`) that the implementation maintains and that make the
record collection behave like a map keyed by id. -/
structure WFcore (t : Tree) : Prop where
  nodup : (t.nodes.map Node.id).Nodup
  bounded : ∀ n ∈ t.nodes, n.id < t.next_id
  parents_live : ∀ n ∈ t.nodes, ∀ p, n.parent = some p → live t p = true
  roots_live : ∀ i ∈ t.root_nodes, live t i = true
  children_live : ∀ n ∈ t.nodes, ∀ c ∈ n.children, live t c = true
  placed_root : ∀ n ∈ t.nodes, n.parent = none → rootOcc t n.id = 1 ∧ childOcc t n.id = 0
  placed_child : ∀ n ∈ t.nodes, ∀ p, n.parent = some p →
    rootOcc t n.id = 0 ∧ childOcc t n.id = 1 ∧ ∀ pn, get_node t p = some pn → n.id ∈ pn.children

/-- Invariant 4 of the spec (acyclicity), witnessed by a rank function that
strictly increases along every parent-to-child edge. -/
def Measured (t : Tree) (m : Nat → Nat) : Prop :=
  ∀ n ∈ t.nodes, ∀ p, n.parent = some p → m p < m n.id

def WF (t : Tree) : Prop := WFcore t ∧ ∃ m, Measured t m

/-! ### Subtrees (descendant id sets) -/

/-- Ids in the subtree rooted at `i`, following children lists, with fuel. -/
def subtree_go (t : Tree) : Nat → Nat → List Nat
  | 0, _ => []
  | fuel+1, i =>
    match get_node t i with
    | none => []
    | some n => i :: (n.children.map (subtree_go t fuel)).flatten

/-- Ids in the subtree rooted at `i` (the node itself plus all its
descendants); `t.nodes.length` fuel always suffices on a well-formed tree. -/
def subtree (t : Tree) (i : Nat) : List Nat :=
  subtree_go t t.nodes.length i

/-- Number of live records of rank at least `m i`: an upper bound on the
fuel `subtree_go` needs at `i` when `m` measures the tree. -/
def rankGE (t : Tree) (m : Nat → Nat) (i : Nat) : Nat :=
  (t.nodes.filter (fun n => decide (m i ≤ m n.id))).length

/-- Detach step of `delete_node`: remove `i` from its parent's children list
(when it has a parent; roots touch `root_nodes` instead). -/
def detach_nodes (l : List Node) (pid : Option Nat) (i : Nat) : List Node :=
  match pid with
  | some p => modify_node l p (with_children (fun ch => ch.filter (fun c => c != i)))
  | none => l

/-- The record stored for the fresh node. -/
def fresh_node (t : Tree) (c : String) (p : Option Nat) : Node :=
  { id := t.next_id, content := c, parent := p, children := [], is_expanded := true }

/-- A rank function for the tree after `add_node`: the fresh node ranks just
above its parent (or at 0 if it is a root). -/
def add_measure (t : Tree) (m : Nat → Nat) (p : Option Nat) : Nat → Nat :=
  fun j => if j = t.next_id then (match p with | some pid => m pid + 1 | none => 0) else m j

/-- The tree after detaching `i` from its current location and re-attaching it
under the live node `q`, with `g` the children-list insertion at `q`. This is
the shape shared by `indent_node`, `outdent_node` (to a grandparent) and
`move_node` (to a live parent). -/
def relink_parent (t : Tree) (node : Node) (i q : Nat) (g : List Nat → List Nat) : Tree :=
  { t with
    nodes := (modify_node (modify_node (detach_nodes t.nodes node.parent i) q (with_children g)) i (with_parent (some q))),
    root_nodes := (match node.parent with
      | some _ => t.root_nodes
      | none => t.root_nodes.filter (fun r => r != i)) }

/-- The tree after detaching `i` and re-attaching it at the root level, with
`h` the insertion into the root list. This is the shape shared by
`outdent_node` (to the root) and `move_node` (to `None`). -/
def relink_root (t : Tree) (node : Node) (i : Nat) (h : List Nat → List Nat) : Tree :=
  { t with
    nodes := (modify_node (detach_nodes t.nodes node.parent i) i (with_parent none)),
    root_nodes := (h (match node.parent with
      | some _ => t.root_nodes
      | none => t.root_nodes.filter (fun r => r != i))) }

/-! ### Operation sequences -/

/-- The public mutating operations of `Tree`, as a syntax of commands. -/
inductive Op where
  | add (content : String) (parent : Option Nat)
  | addSibling (sibling_id : Nat) (content : String)
  | toggle (id : Nat)
  | update (id : Nat) (content : String)
  | delete (id : Nat)
  | indent (id : Nat)
  | outdent (id : Nat)
  | reorder (parent : Option Nat) (new_order : List Nat)
  | move (id : Nat) (new_parent : Option Nat) (position : Nat)
deriving Repr, DecidableEq

def apply_op (t : Tree) : Op → Tree
  | .add c p => (add_node t c p).1
  | .addSibling s c => (add_sibling t s c).1
  | .toggle i => toggle_expanded t i
  | .update i c => update_content t i c
  | .delete i => delete_node t i
  | .indent i => indent_node t i
  | .outdent i => outdent_node t i
  | .reorder p l => reorder_children t p l
  | .move i p pos => move_node t i p pos

/-- Count-based permutation test: `a` and `b` hold every id equally often. -/
def permCnt (a b : List Nat) : Bool :=
  (a ++ b).all (fun x => cnt a x == cnt b x)

/-- Validity of an operation in a state, per the spec's side conditions:
a new node's parent must be live (or absent), a move target must be live
and not a descendant of the moved node, a reorder list must be a true
permutation of the reordered children (or root) list. -/
def valid_op (t : Tree) : Op → Bool
  | .add _ p => match p with
      | some pid => live t pid
      | none => true
  | .addSibling _ _ => true
  | .toggle _ => true
  | .update _ _ => true
  | .delete _ => true
  | .indent _ => true
  | .outdent _ => true
  | .reorder p l => match p with
      | some pid => match get_node t pid with
          | some pn => permCnt l pn.children
          | none => true
      | none => permCnt l t.root_nodes
  | .move i p _ => match p with
      | some q => live t q && !((subtree t i).contains q)
      | none => true

def exec (t : Tree) : List Op → Tree
  | [] => t
  | op :: ops => exec (apply_op t op) ops

def valid_seq (t : Tree) : List Op → Bool
  | [] => true
  | op :: ops => valid_op t op && valid_seq (apply_op t op) ops

/-- Execution that also logs the ids returned by the node-creating calls. -/
def run (t : Tree) : List Op → Tree × List Nat
  | [] => (t, [])
  | op :: ops =>
    match op with
    | .add c p =>
      let r := add_node t c p
      let rest := run r.1 ops
      (rest.1, r.2 :: rest.2)
    | .addSibling s c =>
      let r := add_sibling t s c
      let rest := run r.1 ops
      (rest.1, r.2 :: rest.2)
    | _ =>
      run (apply_op t op) ops

/-! ### Executable well-formedness check (used to certify concrete trees) -/

def WFb (t : Tree) : Bool :=
  decide ((t.nodes.map Node.id).Nodup) &&
  t.nodes.all (fun n => decide (n.id < t.next_id)) &&
  t.nodes.all (fun n => match n.parent with | some p => live t p | none => true) &&
  t.root_nodes.all (fun i => live t i) &&
  t.nodes.all (fun n => n.children.all (fun c => live t c)) &&
  t.nodes.all (fun n => match n.parent with
    | none => decide (rootOcc t n.id = 1) && decide (childOcc t n.id = 0)
    | some p => decide (rootOcc t n.id = 0) && decide (childOcc t n.id = 1) &&
        (match get_node t p with
          | some pn => pn.children.contains n.id
          | none => true))

def Measuredb (t : Tree) (m : Nat → Nat) : Bool :=
  t.nodes.all (fun n => match n.parent with
    | some p => decide (m p < m n.id)
    | none => true)

/-- Invariants 1-3 of the spec, stated directly: every referenced id is
live, and each node's id occurs exactly once in the list its parent field
designates (its parent's children, or the root list) and zero times in the
other kind of list. -/
def Inv123 (t : Tree) : Prop :=
  (∀ n ∈ t.nodes, ∀ p, n.parent = some p → live t p = true) ∧
  (∀ i ∈ t.root_nodes, live t i = true) ∧
  (∀ n ∈ t.nodes, ∀ c ∈ n.children, live t c = true) ∧
  (∀ n ∈ t.nodes, n.parent = none → rootOcc t n.id = 1 ∧ childOcc t n.id = 0) ∧
  (∀ n ∈ t.nodes, ∀ p, n.parent = some p → rootOcc t n.id = 0 ∧ childOcc t n.id = 1 ∧
    ∀ pn, get_node t p = some pn → n.id ∈ pn.children)

/-- A small concrete tree used to exercise the claims: a root `0` with one
child `1`, built through the API. -/
def sampleT : Tree := (add_node (add_node Tree.new "a" none).1 "b" (some 0)).1

/-- A deeper sample: root `0`, children `1`, `2` of `0`, child `3` of `1`. -/
def sampleT4 : Tree :=
  (add_node (add_node (add_node (add_node Tree.new "a" none).1 "b" (some 0)).1
    "c" (some 0)).1 "d" (some 1)).1

/-- The number of strict descendants of a live node: its subtree minus itself. -/
def descendants (t : Tree) (i : Nat) : Nat := (subtree t i).length - 1

theorem get_node_def (t : Tree) (i : Nat) : get_node t i = findNode t.nodes i := rfl

theorem findNode_nil (i : Nat) : findNode [] i = none := rfl

theorem findNode_cons (n : Node) (l : List Node) (i : Nat) :
    findNode (n :: l) i = if n.id = i then some n else findNode l i := by
  by_cases h : n.id = i
  · simp [findNode, List.find?_cons_of_pos, h]
  · simp [findNode, List.find?_cons_of_neg, h]

theorem findNode_some {l : List Node} {i : Nat} {n : Node}
    (h : findNode l i = some n) : n ∈ l ∧ n.id = i := by
  induction l with
  | nil => simp [findNode_nil] at h
  | cons a l ih =>
    rw [findNode_cons] at h
    by_cases ha : a.id = i
    · simp [ha] at h
      subst h
      exact ⟨List.mem_cons_self a l, ha⟩
    · simp [ha] at h
      rcases ih h with ⟨h1, h2⟩
      exact ⟨List.mem_cons_of_mem _ h1, h2⟩

theorem findNode_eq_none {l : List Node} {i : Nat} :
    findNode l i = none ↔ ∀ n ∈ l, n.id ≠ i := by
  induction l with
  | nil => simp [findNode_nil]
  | cons a l ih =>
    rw [findNode_cons]
    by_cases ha : a.id = i <;> simp [ha, ih]

theorem findNode_isSome_of_mem {l : List Node} {i : Nat} {n : Node}
    (hn : n ∈ l) (hi : n.id = i) : (findNode l i).isSome := by
  cases h : findNode l i with
  | some m => simp
  | none => exact absurd hi (findNode_eq_none.mp h n hn)

theorem findNode_of_nodup {l : List Node} {i : Nat} {n : Node}
    (hd : (l.map Node.id).Nodup) (hn : n ∈ l) (hi : n.id = i) :
    findNode l i = some n := by
  induction l with
  | nil => simp at hn
  | cons a l ih =>
    rw [findNode_cons]
    simp only [List.map_cons, List.nodup_cons] at hd
    rcases List.mem_cons.mp hn with h | h
    · subst h; simp [hi]
    · by_cases ha : a.id = i
      · exfalso
        exact hd.1 (by rw [ha, ← hi]; exact List.mem_map_of_mem Node.id h)
      · simp [ha]; exact ih hd.2 h

theorem findNode_append_left {l₁ l₂ : List Node} {i : Nat} {n : Node}
    (h : findNode l₁ i = some n) : findNode (l₁ ++ l₂) i = some n := by
  induction l₁ with
  | nil => simp [findNode_nil] at h
  | cons a l ih =>
    rw [findNode_cons] at h
    rw [List.cons_append, findNode_cons]
    by_cases ha : a.id = i <;> simp [ha] at h ⊢
    · exact h
    · exact ih h

theorem findNode_append_right {l₁ l₂ : List Node} {i : Nat}
    (h : findNode l₁ i = none) : findNode (l₁ ++ l₂) i = findNode l₂ i := by
  induction l₁ with
  | nil => simp
  | cons a l ih =>
    rw [findNode_cons] at h
    rw [List.cons_append, findNode_cons]
    by_cases ha : a.id = i <;> simp [ha] at h ⊢
    exact ih h

theorem modify_node_of_none {l : List Node} {j : Nat} (f : Node → Node)
    (h : findNode l j = none) : modify_node l j f = l := by
  induction l with
  | nil => rfl
  | cons a l ih =>
    rw [findNode_cons] at h
    by_cases ha : a.id = j
    · simp [ha] at h
    · rw [if_neg ha] at h
      simp [modify_node, ha, ih h]

theorem map_id_modify_node {l : List Node} {j : Nat} {f : Node → Node}
    (hf : ∀ n, (f n).id = n.id) :
    (modify_node l j f).map Node.id = l.map Node.id := by
  induction l with
  | nil => rfl
  | cons a l ih =>
    by_cases ha : a.id = j <;> simp [modify_node, ha, hf, ih]

theorem length_modify_node (l : List Node) (j : Nat) (f : Node → Node) :
    (modify_node l j f).length = l.length := by
  induction l with
  | nil => rfl
  | cons a l ih =>
    by_cases ha : a.id = j <;> simp [modify_node, ha, ih]

theorem findNode_modify_self {l : List Node} {j : Nat} {f : Node → Node}
    (hf : ∀ n, (f n).id = n.id) :
    findNode (modify_node l j f) j = (findNode l j).map f := by
  induction l with
  | nil => rfl
  | cons a l ih =>
    by_cases ha : a.id = j
    · simp [modify_node, ha, findNode_cons, hf]
    · simp [modify_node, ha, findNode_cons, ih]

theorem findNode_modify_ne {l : List Node} {i j : Nat} {f : Node → Node}
    (hf : ∀ n, (f n).id = n.id) (hij : i ≠ j) :
    findNode (modify_node l j f) i = findNode l i := by
  induction l with
  | nil => rfl
  | cons a l ih =>
    by_cases ha : a.id = j
    · have h1 : (f a).id ≠ i := by rw [hf, ha]; exact fun h => hij h.symm
      have h2 : a.id ≠ i := by rw [ha]; exact fun h => hij h.symm
      simp only [modify_node, if_pos ha, findNode_cons, if_neg h1, if_neg h2]
    · simp only [modify_node, if_neg ha, findNode_cons, ih]

theorem modify_node_comp {l : List Node} {j : Nat} {f g : Node → Node}
    (hf : ∀ n, (f n).id = n.id) :
    modify_node (modify_node l j f) j g = modify_node l j (fun n => g (f n)) := by
  induction l with
  | nil => rfl
  | cons a l ih =>
    by_cases ha : a.id = j
    · simp [modify_node, ha, hf]
    · simp [modify_node, ha, ih]

theorem mem_modify_node {l : List Node} {j : Nat} {f : Node → Node} {n : Node}
    (h : n ∈ modify_node l j f) :
    n ∈ l ∨ ∃ rec, findNode l j = some rec ∧ n = f rec := by
  induction l with
  | nil => simp [modify_node] at h
  | cons a l ih =>
    by_cases ha : a.id = j
    · simp [modify_node, ha] at h
      rcases h with h | h
      · exact Or.inr ⟨a, by rw [findNode_cons, if_pos ha], h⟩
      · exact Or.inl (List.mem_cons_of_mem _ h)
    · simp [modify_node, ha] at h
      rcases h with h | h
      · exact Or.inl (by simp [h])
      · rcases ih h with h | ⟨rec, h1, h2⟩
        · exact Or.inl (List.mem_cons_of_mem _ h)
        · exact Or.inr ⟨rec, by rw [findNode_cons, if_neg ha]; exact h1, h2⟩

theorem filter_modify_node {l : List Node} {j : Nat} {f : Node → Node} {Q : Nat → Bool}
    (hf : ∀ n, (f n).id = n.id) (hQ : Q j = true) :
    (modify_node l j f).filter (fun n => Q n.id) =
      modify_node (l.filter (fun n => Q n.id)) j f := by
  induction l with
  | nil => rfl
  | cons a l ih =>
    by_cases ha : a.id = j
    · have hfa : Q (f a).id = true := by rw [hf, ha, hQ]
      have haq : Q a.id = true := by rw [ha, hQ]
      rw [modify_node, if_pos ha, List.filter_cons, if_pos hfa, List.filter_cons, if_pos haq,
        modify_node, if_pos ha]
    · by_cases haq : Q a.id = true
      · rw [modify_node, if_neg ha, List.filter_cons, if_pos haq, List.filter_cons, if_pos haq,
          modify_node, if_neg ha, ih]
      · simp only [Bool.not_eq_true] at haq
        rw [modify_node, if_neg ha, List.filter_cons, List.filter_cons]
        simp only [haq, Bool.false_eq_true, if_false, ih]

theorem filter_modify_node_absorb {l : List Node} {j : Nat} {f : Node → Node} {Q : Nat → Bool}
    (hf : ∀ n, (f n).id = n.id) (hQ : Q j = false) :
    (modify_node l j f).filter (fun n => Q n.id) = l.filter (fun n => Q n.id) := by
  induction l with
  | nil => rfl
  | cons a l ih =>
    by_cases ha : a.id = j
    · have hfa : Q (f a).id = false := by rw [hf, ha, hQ]
      have haq : Q a.id = false := by rw [ha, hQ]
      rw [modify_node, if_pos ha, List.filter_cons, List.filter_cons]
      simp only [hfa, haq, Bool.false_eq_true, if_false]
    · rw [modify_node, if_neg ha, List.filter_cons, List.filter_cons, ih]

theorem cnt_nil (x : Nat) : cnt [] x = 0 := rfl

theorem cnt_cons (a x : Nat) (l : List Nat) :
    cnt (a :: l) x = (if a = x then 1 else 0) + cnt l x := rfl

theorem cnt_append (l₁ l₂ : List Nat) (x : Nat) :
    cnt (l₁ ++ l₂) x = cnt l₁ x + cnt l₂ x := by
  induction l₁ with
  | nil => simp [cnt_nil, cnt]
  | cons a l ih =>
    rw [List.cons_append, cnt_cons, cnt_cons, ih]
    omega

theorem cnt_pos_iff_mem {l : List Nat} {x : Nat} : 0 < cnt l x ↔ x ∈ l := by
  induction l with
  | nil => simp [cnt_nil]
  | cons a l ih =>
    rw [cnt_cons, List.mem_cons]
    by_cases h : a = x
    · rw [if_pos h]
      constructor
      · intro _; exact Or.inl h.symm
      · intro _; omega
    · rw [if_neg h, ← ih]
      constructor
      · intro hp; exact Or.inr (by omega)
      · rintro (he | hp)
        · exact absurd he.symm h
        · omega

theorem cnt_eq_zero_iff {l : List Nat} {x : Nat} : cnt l x = 0 ↔ x ∉ l := by
  rw [← cnt_pos_iff_mem]
  omega

theorem nodup_iff_cnt_le_one {l : List Nat} : l.Nodup ↔ ∀ x, cnt l x ≤ 1 := by
  induction l with
  | nil => simp [cnt_nil]
  | cons a l ih =>
    rw [List.nodup_cons, ih]
    constructor
    · rintro ⟨hna, hc⟩ x
      rw [cnt_cons]
      by_cases h : a = x
      · subst h
        have h0 : cnt l a = 0 := by
          by_contra hh
          exact hna (cnt_pos_iff_mem.mp (by omega))
        rw [if_pos rfl]
        omega
      · rw [if_neg h]
        have := hc x
        omega
    · intro h
      refine ⟨?_, ?_⟩
      · intro hmem
        have h1 := h a
        rw [cnt_cons, if_pos rfl] at h1
        have h2 := cnt_pos_iff_mem.mpr hmem
        omega
      · intro x
        have := h x
        rw [cnt_cons] at this
        omega

theorem cnt_filter_ne (l : List Nat) (i x : Nat) :
    cnt (l.filter (fun c => c != i)) x = if x = i then 0 else cnt l x := by
  induction l with
  | nil => by_cases h : x = i <;> simp [cnt_nil, h]
  | cons a l ih =>
    rw [List.filter_cons]
    by_cases ha : a = i
    · subst ha
      simp only [bne_self_eq_false, Bool.false_eq_true, if_false, ih, cnt_cons]
      by_cases hx : x = a
      · rw [if_pos hx, if_pos hx]
      · rw [if_neg hx, if_neg hx, if_neg (fun h => hx h.symm)]
        omega
    · have hbne : (a != i) = true := by simp [bne_iff_ne, ha]
      rw [if_pos hbne, cnt_cons, cnt_cons, ih]
      by_cases hx : x = i
      · rw [if_pos hx, if_pos hx, if_neg (by rw [hx]; exact ha)]
      · rw [if_neg hx, if_neg hx]

theorem cnt_insert_at (l : List Nat) (p x y : Nat) :
    cnt (insert_at l p x) y = cnt l y + (if x = y then 1 else 0) := by
  induction l generalizing p with
  | nil => cases p <;> simp [insert_at, cnt_cons, cnt_nil]
  | cons a l ih =>
    cases p with
    | zero =>
      rw [insert_at, cnt_cons, cnt_cons]
      omega
    | succ q =>
      rw [insert_at, cnt_cons, cnt_cons, ih]
      omega

theorem mem_insert_at {l : List Nat} {p x y : Nat} :
    y ∈ insert_at l p x ↔ y = x ∨ y ∈ l := by
  rw [← cnt_pos_iff_mem, cnt_insert_at, ← cnt_pos_iff_mem]
  by_cases h : x = y
  · rw [if_pos h]
    constructor
    · intro _; exact Or.inl h.symm
    · intro _; omega
  · rw [if_neg h]
    constructor
    · intro hp; exact Or.inr (by omega)
    · rintro (he | hp)
      · exact absurd he.symm h
      · omega

theorem childOccL_nil (x : Nat) : childOccL [] x = 0 := rfl

theorem childOccL_cons (n : Node) (l : List Node) (x : Nat) :
    childOccL (n :: l) x = cnt n.children x + childOccL l x := by
  simp [childOccL]

theorem childOccL_append (l₁ l₂ : List Node) (x : Nat) :
    childOccL (l₁ ++ l₂) x = childOccL l₁ x + childOccL l₂ x := by
  simp [childOccL]

theorem le_childOccL_of_mem {l : List Node} {n : Node} (hn : n ∈ l) (x : Nat) :
    cnt n.children x ≤ childOccL l x := by
  induction l with
  | nil => simp at hn
  | cons a l ih =>
    rw [childOccL_cons]
    rcases List.mem_cons.mp hn with h | h
    · subst h; omega
    · have := ih h; omega

theorem two_le_childOccL {l : List Node} {n₁ n₂ : Node}
    (h₁ : n₁ ∈ l) (h₂ : n₂ ∈ l) (hne : n₁ ≠ n₂) (x : Nat) :
    cnt n₁.children x + cnt n₂.children x ≤ childOccL l x := by
  induction l with
  | nil => simp at h₁
  | cons a l ih =>
    rw [childOccL_cons]
    rcases List.mem_cons.mp h₁ with e₁ | e₁
    · subst e₁
      have h₂' : n₂ ∈ l := by
        rcases List.mem_cons.mp h₂ with e | e
        · exact absurd e.symm hne
        · exact e
      have := le_childOccL_of_mem h₂' x
      omega
    · rcases List.mem_cons.mp h₂ with e₂ | e₂
      · subst e₂
        have := le_childOccL_of_mem e₁ x
        omega
      · have := ih e₁ e₂
        omega

theorem childOccL_modify {l : List Node} {j : Nat} {f : Node → Node} {rec : Node}
    (h : findNode l j = some rec) (x : Nat) :
    childOccL (modify_node l j f) x + cnt rec.children x
      = childOccL l x + cnt (f rec).children x := by
  induction l with
  | nil => simp [findNode_nil] at h
  | cons a l ih =>
    rw [findNode_cons] at h
    by_cases ha : a.id = j
    · rw [if_pos ha] at h
      injection h with h
      subst h
      simp only [modify_node, if_pos ha, childOccL_cons]
      omega
    · rw [if_neg ha] at h
      simp only [modify_node, if_neg ha, childOccL_cons]
      have := ih h
      omega

theorem childOccL_eq_zero {l : List Node} {x : Nat} (h : ∀ n ∈ l, x ∉ n.children) :
    childOccL l x = 0 := by
  induction l with
  | nil => rfl
  | cons a l ih =>
    rw [childOccL_cons, cnt_eq_zero_iff.mpr (h a (List.mem_cons_self a l)),
      ih (fun n hn => h n (List.mem_cons_of_mem _ hn))]

theorem live_iff {t : Tree} {i : Nat} :
    live t i = true ↔ ∃ n ∈ t.nodes, n.id = i := by
  unfold live
  constructor
  · intro h
    cases hg : get_node t i with
    | none => rw [hg] at h; simp at h
    | some n => exact ⟨n, findNode_some hg⟩
  · rintro ⟨n, hn, hi⟩
    have := findNode_isSome_of_mem hn hi
    exact this

theorem live_of_get {t : Tree} {i : Nat} {n : Node} (h : get_node t i = some n) :
    live t i = true := by
  unfold live; rw [h]; rfl

theorem not_live_iff {t : Tree} {i : Nat} :
    live t i = false ↔ ∀ n ∈ t.nodes, n.id ≠ i := by
  unfold live
  cases hg : get_node t i with
  | none => simpa using findNode_eq_none.mp hg
  | some n =>
    simp only [Option.isSome_some, Bool.true_eq_false, false_iff, not_forall]
    rcases findNode_some hg with ⟨hn, hi⟩
    exact ⟨n, hn, by simp [hi]⟩

theorem get_node_mem {t : Tree} {i : Nat} {n : Node} (h : get_node t i = some n) :
    n ∈ t.nodes ∧ n.id = i :=
  findNode_some h

theorem get_node_of_mem {t : Tree} (hw : WFcore t) {n : Node} (hn : n ∈ t.nodes) :
    get_node t n.id = some n :=
  findNode_of_nodup hw.nodup hn rfl

theorem live_of_mem {t : Tree} {n : Node} (hn : n ∈ t.nodes) : live t n.id = true :=
  live_iff.mpr ⟨n, hn, rfl⟩

theorem live_get {t : Tree} {i : Nat} (h : live t i = true) :
    ∃ n, get_node t i = some n ∧ n ∈ t.nodes ∧ n.id = i := by
  rcases live_iff.mp h with ⟨n, hn, hi⟩
  cases hg : get_node t i with
  | none => exact absurd hi (findNode_eq_none.mp hg n hn)
  | some n2 =>
    rcases findNode_some hg with ⟨hn2, hi2⟩
    exact ⟨n2, rfl, hn2, hi2⟩

/-- Inside a well-formed tree, a child link determines the parent field:
if `c` sits in `n.children` then the record of `c` has `parent = some n.id`. -/
theorem parent_of_child {t : Tree} (hw : WFcore t) {n : Node} (hn : n ∈ t.nodes)
    {c : Nat} (hc : c ∈ n.children) :
    ∃ cn, get_node t c = some cn ∧ cn.parent = some n.id := by
  have hlive : live t c = true := hw.children_live n hn c hc
  rcases live_get hlive with ⟨cn, hget, hcn, hcid⟩
  refine ⟨cn, hget, ?_⟩
  have hcount : 0 < cnt n.children c := cnt_pos_iff_mem.mpr hc
  cases hp : cn.parent with
  | none =>
    exfalso
    have h0 := (hw.placed_root cn hcn hp).2
    unfold childOcc at h0
    rw [hcid] at h0
    have hle := le_childOccL_of_mem hn c
    omega
  | some q =>
    congr 1
    rcases hw.placed_child cn hcn q hp with ⟨_, hocc, hmem⟩
    have hqlive := hw.parents_live cn hcn q hp
    rcases live_get hqlive with ⟨qn, hqget, hqn, hqid⟩
    have hcin : cn.id ∈ qn.children := hmem qn hqget
    by_cases hqe : qn = n
    · rw [← hqid, hqe]
    · exfalso
      have h2 := two_le_childOccL hqn hn hqe c
      have hq1 : 0 < cnt qn.children c := cnt_pos_iff_mem.mpr (hcid ▸ hcin)
      unfold childOcc at hocc
      rw [hcid] at hocc
      omega

/-- In a well-formed tree the unique occurrence of a child id is in its
parent's record; every other record's children list avoids it. -/
theorem cnt_children_eq_zero_of_ne_parent {t : Tree} (hw : WFcore t)
    {c : Nat} {cn : Node} (hget : get_node t c = some cn) {p : Nat}
    (hp : cn.parent = some p) {r : Node} (hr : r ∈ t.nodes) (hrp : r.id ≠ p) :
    cnt r.children c = 0 := by
  rcases get_node_mem hget with ⟨hcn, hcid⟩
  rw [cnt_eq_zero_iff]
  intro hmem
  rcases parent_of_child hw hr hmem with ⟨cn2, hget2, hp2⟩
  rw [hget] at hget2
  injection hget2 with he
  subst he
  rw [hp] at hp2
  injection hp2 with he2
  exact hrp he2.symm

/-- Children lists of a well-formed tree have no duplicates. -/
theorem children_nodup {t : Tree} (hw : WFcore t) {n : Node} (hn : n ∈ t.nodes) :
    n.children.Nodup := by
  rw [nodup_iff_cnt_le_one]
  intro c
  by_cases hc : c ∈ n.children
  · rcases parent_of_child hw hn hc with ⟨cn, hget, hp⟩
    rcases get_node_mem hget with ⟨hcn, hcid⟩
    have hocc := (hw.placed_child cn hcn n.id (by rw [hp])).2.1
    have hle := le_childOccL_of_mem hn c
    unfold childOcc at hocc
    rw [hcid] at hocc
    omega
  · rw [cnt_eq_zero_iff.mpr hc]
    omega

/-- The next id to be allocated is not live and occurs in no list. -/
theorem fresh_not_live {t : Tree} (hw : WFcore t) : live t t.next_id = false := by
  rw [not_live_iff]
  intro n hn
  have := hw.bounded n hn
  omega

theorem not_live_large {t : Tree} (hw : WFcore t) {i : Nat} (h : t.next_id ≤ i) :
    live t i = false := by
  rw [not_live_iff]
  intro n hn
  have := hw.bounded n hn
  omega

theorem fresh_rootOcc {t : Tree} (hw : WFcore t) {i : Nat} (h : t.next_id ≤ i) :
    rootOcc t i = 0 := by
  unfold rootOcc
  rw [cnt_eq_zero_iff]
  intro hmem
  have hlive := hw.roots_live _ hmem
  rw [not_live_large hw h] at hlive
  exact absurd hlive (by simp)

theorem fresh_childOcc {t : Tree} (hw : WFcore t) {i : Nat} (h : t.next_id ≤ i) :
    childOcc t i = 0 := by
  unfold childOcc
  apply childOccL_eq_zero
  intro n hn hmem
  have hlive := hw.children_live n hn _ hmem
  rw [not_live_large hw h] at hlive
  exact absurd hlive (by simp)

/-- A well-formed tree cannot have a node that is its own parent. -/
theorem parent_ne_self {t : Tree} {m : Nat → Nat} (hm : Measured t m)
    {n : Node} (hn : n ∈ t.nodes) {p : Nat} (hp : n.parent = some p) : p ≠ n.id := by
  intro he
  have := hm n hn p hp
  rw [he] at this
  omega

theorem not_live_get {t : Tree} {i : Nat} (h : live t i = false) : get_node t i = none := by
  unfold live at h
  cases hg : get_node t i with
  | none => rfl
  | some n => rw [hg] at h; simp at h

theorem subtree_go_dead {t : Tree} {i : Nat} (h : live t i = false) :
    ∀ fuel, subtree_go t fuel i = [] := by
  intro fuel
  cases fuel with
  | zero => rfl
  | succ f => simp [subtree_go, not_live_get h]

theorem length_filter_mono {α : Type} {l : List α} {p q : α → Bool}
    (himp : ∀ x ∈ l, p x = true → q x = true) :
    (l.filter p).length ≤ (l.filter q).length := by
  induction l with
  | nil => simp
  | cons a l ih =>
    have ih2 := ih (fun x hx => himp x (List.mem_cons_of_mem _ hx))
    rw [List.filter_cons, List.filter_cons]
    by_cases hp : p a = true
    · rw [if_pos hp, if_pos (himp a (List.mem_cons_self a l) hp)]
      simpa using ih2
    · simp only [Bool.not_eq_true] at hp
      rw [hp]
      by_cases hq : q a = true
      · rw [if_pos hq]
        simp only [Bool.false_eq_true, if_false, List.length_cons]
        omega
      · simp only [Bool.not_eq_true] at hq
        rw [hq]
        simpa using ih2

theorem length_filter_lt {α : Type} {l : List α} {p q : α → Bool}
    (himp : ∀ x ∈ l, p x = true → q x = true) {y : α} (hy : y ∈ l)
    (hqy : q y = true) (hpy : p y = false) :
    (l.filter p).length < (l.filter q).length := by
  induction l with
  | nil => simp at hy
  | cons a l ih =>
    have himp2 : ∀ x ∈ l, p x = true → q x = true :=
      fun x hx => himp x (List.mem_cons_of_mem _ hx)
    rw [List.filter_cons, List.filter_cons]
    rcases List.mem_cons.mp hy with he | hyl
    · subst he
      rw [hpy, hqy]
      simp only [Bool.false_eq_true, if_false, if_pos, List.length_cons]
      have := length_filter_mono himp2
      omega
    · have ihl := ih himp2 hyl
      by_cases hp : p a = true
      · rw [if_pos hp, if_pos (himp a (List.mem_cons_self a l) hp)]
        simpa using ihl
      · simp only [Bool.not_eq_true] at hp
        rw [hp]
        by_cases hq : q a = true
        · rw [if_pos hq]
          simp only [Bool.false_eq_true, if_false, List.length_cons]
          omega
        · simp only [Bool.not_eq_true] at hq
          rw [hq]
          simpa using ihl

theorem rankGE_le_length (t : Tree) (m : Nat → Nat) (i : Nat) :
    rankGE t m i ≤ t.nodes.length :=
  List.length_filter_le _ _

theorem rankGE_pos {t : Tree} (m : Nat → Nat) {i : Nat} (h : live t i = true) :
    0 < rankGE t m i := by
  rcases live_get h with ⟨n, _, hn, hid⟩
  unfold rankGE
  have hmem : n ∈ t.nodes.filter (fun n => decide (m i ≤ m n.id)) := by
    rw [List.mem_filter]
    exact ⟨hn, by rw [hid]; simp⟩
  exact List.length_pos_of_mem hmem

theorem measure_child_lt {t : Tree} (hw : WFcore t) {m : Nat → Nat} (hm : Measured t m)
    {n : Node} (hn : n ∈ t.nodes) {c : Nat} (hc : c ∈ n.children) :
    m n.id < m c := by
  rcases parent_of_child hw hn hc with ⟨cn, hget, hp⟩
  rcases get_node_mem hget with ⟨hcn, hcid⟩
  have := hm cn hcn n.id hp
  rw [hcid] at this
  exact this

theorem rankGE_child_lt {t : Tree} (hw : WFcore t) {m : Nat → Nat} (hm : Measured t m)
    {n : Node} (hn : n ∈ t.nodes) {c : Nat} (hc : c ∈ n.children) :
    rankGE t m c < rankGE t m n.id := by
  have hlt := measure_child_lt hw hm hn hc
  apply length_filter_lt (y := n)
  · intro x _ hpx
    simp only [decide_eq_true_eq] at hpx ⊢
    omega
  · exact hn
  · simp
  · simp only [decide_eq_false_iff_not]
    omega

theorem subtree_go_stable {t : Tree} (hw : WFcore t) {m : Nat → Nat} (hm : Measured t m) :
    ∀ k fuel₁ fuel₂ i, rankGE t m i ≤ k → rankGE t m i ≤ fuel₁ → rankGE t m i ≤ fuel₂ →
      subtree_go t fuel₁ i = subtree_go t fuel₂ i := by
  intro k
  induction k with
  | zero =>
    intro fuel₁ fuel₂ i hk _ _
    cases hl : live t i with
    | false => rw [subtree_go_dead hl, subtree_go_dead hl]
    | true =>
      exfalso
      have := rankGE_pos m hl
      omega
  | succ k ih =>
    intro fuel₁ fuel₂ i hk h1 h2
    cases hl : live t i with
    | false => rw [subtree_go_dead hl, subtree_go_dead hl]
    | true =>
      have hpos := rankGE_pos m hl
      cases fuel₁ with
      | zero => omega
      | succ f₁ =>
        cases fuel₂ with
        | zero => omega
        | succ f₂ =>
          rcases live_get hl with ⟨n, hget, hn, hid⟩
          simp only [subtree_go, hget]
          congr 1
          congr 1
          apply List.map_congr_left
          intro c hc
          have hlt : rankGE t m c < rankGE t m i := by
            have := rankGE_child_lt hw hm hn hc
            rw [hid] at this
            exact this
          exact ih f₁ f₂ c (by omega) (by omega) (by omega)

theorem subtree_go_eq_subtree {t : Tree} (hw : WFcore t) {m : Nat → Nat} (hm : Measured t m)
    {i fuel : Nat} (h : rankGE t m i ≤ fuel) :
    subtree_go t fuel i = subtree t i :=
  subtree_go_stable hw hm fuel fuel t.nodes.length i h h (rankGE_le_length t m i)

theorem mem_subtree_self {t : Tree} {i : Nat} (h : live t i = true) : i ∈ subtree t i := by
  rcases live_get h with ⟨n, hget, hn, _⟩
  have hlen : 0 < t.nodes.length := List.length_pos_of_mem hn
  obtain ⟨len, hlen2⟩ : ∃ len, t.nodes.length = len + 1 := ⟨t.nodes.length - 1, by omega⟩
  unfold subtree
  rw [hlen2]
  simp only [subtree_go, hget]
  exact List.mem_cons_self _ _

theorem subtree_go_live {t : Tree} :
    ∀ fuel i j, j ∈ subtree_go t fuel i → live t j = true := by
  intro fuel
  induction fuel with
  | zero => intro i j h; simp [subtree_go] at h
  | succ f ih =>
    intro i j h
    cases hget : get_node t i with
    | none => simp [subtree_go, hget] at h
    | some n =>
      simp only [subtree_go, hget, List.mem_cons] at h
      rcases h with h | h
      · subst h; exact live_of_get hget
      · rcases List.mem_flatten.mp h with ⟨l, hl, hjl⟩
        rcases List.mem_map.mp hl with ⟨c, _, hceq⟩
        exact ih c j (hceq ▸ hjl)

theorem subtree_live {t : Tree} {i j : Nat} (h : j ∈ subtree t i) : live t j = true :=
  subtree_go_live t.nodes.length i j h

theorem subtree_of_dead {t : Tree} {i : Nat} (h : live t i = false) : subtree t i = [] :=
  subtree_go_dead h t.nodes.length

theorem measure_le_of_mem_subtree_go {t : Tree} (hw : WFcore t) {m : Nat → Nat}
    (hm : Measured t m) :
    ∀ fuel i j, j ∈ subtree_go t fuel i → m i ≤ m j := by
  intro fuel
  induction fuel with
  | zero => intro i j h; simp [subtree_go] at h
  | succ f ih =>
    intro i j h
    cases hget : get_node t i with
    | none => simp [subtree_go, hget] at h
    | some n =>
      simp only [subtree_go, hget, List.mem_cons] at h
      rcases h with h | h
      · subst h; exact le_refl _
      · rcases List.mem_flatten.mp h with ⟨l, hl, hjl⟩
        rcases List.mem_map.mp hl with ⟨c, hc, hceq⟩
        have h1 : m c ≤ m j := ih c j (hceq ▸ hjl)
        rcases get_node_mem hget with ⟨hn, hid⟩
        have h2 := measure_child_lt hw hm hn hc
        rw [hid] at h2
        omega

theorem measure_le_of_mem_subtree {t : Tree} (hw : WFcore t) {m : Nat → Nat}
    (hm : Measured t m) {i j : Nat} (h : j ∈ subtree t i) : m i ≤ m j :=
  measure_le_of_mem_subtree_go hw hm t.nodes.length i j h

/-- The parent of `i` never lies inside the subtree of `i`. -/
theorem parent_not_mem_subtree {t : Tree} (hw : WFcore t) {m : Nat → Nat}
    (hm : Measured t m) {i : Nat} {n : Node} (hget : get_node t i = some n)
    {p : Nat} (hp : n.parent = some p) : p ∉ subtree t i := by
  intro hmem
  rcases get_node_mem hget with ⟨hn, hid⟩
  have h1 := measure_le_of_mem_subtree hw hm hmem
  have h2 := hm n hn p hp
  rw [hid] at h2
  omega

/-- Child closure: subtrees are closed under passing to children. -/
theorem children_subset_subtree_go {t : Tree} (hw : WFcore t) {m : Nat → Nat}
    (hm : Measured t m) :
    ∀ fuel i, rankGE t m i ≤ fuel → ∀ j jn c, j ∈ subtree_go t fuel i →
      get_node t j = some jn → c ∈ jn.children → c ∈ subtree_go t fuel i := by
  intro fuel
  induction fuel with
  | zero => intro i _ j jn c h; simp [subtree_go] at h
  | succ f ih =>
    intro i hrank j jn c h hj hc
    cases hget : get_node t i with
    | none => simp [subtree_go, hget] at h
    | some n =>
      rcases get_node_mem hget with ⟨hn, hid⟩
      simp only [subtree_go, hget, List.mem_cons] at h ⊢
      rcases h with h | h
      · subst h
        rw [hget] at hj
        injection hj with hj
        subst hj
        right
        have hclive : live t c = true := hw.children_live n hn c hc
        have hcrank : rankGE t m c ≤ f := by
          have := rankGE_child_lt hw hm hn hc
          rw [hid] at this
          omega
        have hcpos := rankGE_pos m hclive
        obtain ⟨f2, hf2⟩ : ∃ f2, f = f2 + 1 := ⟨f - 1, by omega⟩
        rcases live_get hclive with ⟨cn, hcget, _, _⟩
        refine List.mem_flatten.mpr ⟨subtree_go t f c, List.mem_map_of_mem _ hc, ?_⟩
        rw [hf2]
        simp only [subtree_go, hcget]
        exact List.mem_cons_self _ _
      · rcases List.mem_flatten.mp h with ⟨l, hl, hjl⟩
        rcases List.mem_map.mp hl with ⟨c2, hc2, hceq⟩
        subst hceq
        right
        have hrank2 : rankGE t m c2 ≤ f := by
          have := rankGE_child_lt hw hm hn hc2
          rw [hid] at this
          omega
        exact List.mem_flatten.mpr ⟨subtree_go t f c2, List.mem_map_of_mem _ hc2,
          ih c2 hrank2 j jn c hjl hj hc⟩

/-- Parent closure: every non-root member of the subtree has its parent in
the subtree too. -/
theorem parent_mem_subtree_go {t : Tree} (hw : WFcore t) {m : Nat → Nat}
    (hm : Measured t m) :
    ∀ fuel i j, j ∈ subtree_go t fuel i →
      j = i ∨ ∃ p jn, get_node t j = some jn ∧ jn.parent = some p ∧ p ∈ subtree_go t fuel i := by
  intro fuel
  induction fuel with
  | zero => intro i j h; simp [subtree_go] at h
  | succ f ih =>
    intro i j h
    cases hget : get_node t i with
    | none => simp [subtree_go, hget] at h
    | some n =>
      rcases get_node_mem hget with ⟨hn, hid⟩
      simp only [subtree_go, hget, List.mem_cons] at h ⊢
      rcases h with h | h
      · exact Or.inl h
      · right
        rcases List.mem_flatten.mp h with ⟨l, hl, hjl⟩
        rcases List.mem_map.mp hl with ⟨c, hc, hceq⟩
        subst hceq
        rcases ih c j hjl with he | ⟨p, jn, hjget, hjp, hpmem⟩
        · subst he
          rcases parent_of_child hw hn hc with ⟨cn, hcget, hcp⟩
          exact ⟨i, cn, hcget, by rw [hcp, hid], Or.inl rfl⟩
        · exact ⟨p, jn, hjget, hjp,
            Or.inr (List.mem_flatten.mpr ⟨subtree_go t f c, List.mem_map_of_mem _ hc, hpmem⟩)⟩

/-- Transitivity: the subtree of any member is contained in the subtree. -/
theorem subtree_subset_subtree_go {t : Tree} (hw : WFcore t) {m : Nat → Nat}
    (hm : Measured t m) :
    ∀ fuel i, rankGE t m i ≤ fuel → ∀ x, x ∈ subtree_go t fuel i →
      ∀ j, j ∈ subtree t x → j ∈ subtree_go t fuel i := by
  intro fuel
  induction fuel with
  | zero => intro i _ x h; simp [subtree_go] at h
  | succ f ih =>
    intro i hrank x hx j hj
    cases hget : get_node t i with
    | none => simp [subtree_go, hget] at hx
    | some n =>
      rcases get_node_mem hget with ⟨hn, hid⟩
      simp only [subtree_go, hget, List.mem_cons] at hx ⊢
      rcases hx with hx | hx
      · subst hx
        have he : subtree_go t (f+1) x = subtree t x := subtree_go_eq_subtree hw hm hrank
        rw [← he] at hj
        simpa only [subtree_go, hget, List.mem_cons] using hj
      · rcases List.mem_flatten.mp hx with ⟨l, hl, hxl⟩
        rcases List.mem_map.mp hl with ⟨c, hc, hceq⟩
        subst hceq
        have hrank2 : rankGE t m c ≤ f := by
          have := rankGE_child_lt hw hm hn hc
          rw [hid] at this
          omega
        exact Or.inr (List.mem_flatten.mpr ⟨subtree_go t f c, List.mem_map_of_mem _ hc,
          ih c hrank2 x hxl j hj⟩)

theorem child_mem_subtree {t : Tree} (hw : WFcore t) {m : Nat → Nat} (hm : Measured t m)
    {i : Nat} {n : Node} (hget : get_node t i = some n) {c : Nat} (hc : c ∈ n.children) :
    c ∈ subtree t i := by
  have hl : live t i = true := live_of_get hget
  exact children_subset_subtree_go hw hm t.nodes.length i (rankGE_le_length t m i)
    i n c (mem_subtree_self hl) hget hc

theorem subtree_child_subset {t : Tree} (hw : WFcore t) {m : Nat → Nat} (hm : Measured t m)
    {i : Nat} {n : Node} (hget : get_node t i = some n) {c : Nat} (hc : c ∈ n.children) :
    ∀ j, j ∈ subtree t c → j ∈ subtree t i := by
  intro j hj
  exact subtree_subset_subtree_go hw hm t.nodes.length i (rankGE_le_length t m i)
    c (child_mem_subtree hw hm hget hc) j hj

theorem parent_mem_subtree {t : Tree} (hw : WFcore t) {m : Nat → Nat} (hm : Measured t m)
    {i j : Nat} (h : j ∈ subtree t i) :
    j = i ∨ ∃ p jn, get_node t j = some jn ∧ jn.parent = some p ∧ p ∈ subtree t i :=
  parent_mem_subtree_go hw hm t.nodes.length i j h

/-- Two subtrees can only overlap if one contains the other's root. -/
theorem subtree_overlap {t : Tree} (hw : WFcore t) {m : Nat → Nat} (hm : Measured t m) :
    ∀ fuel a, rankGE t m a ≤ fuel → ∀ j, j ∈ subtree_go t fuel a →
      ∀ b, j ∈ subtree t b → a ∈ subtree t b ∨ b ∈ subtree t a := by
  intro fuel
  induction fuel with
  | zero => intro a _ j h; simp [subtree_go] at h
  | succ f ih =>
    intro a hrank j hj b hb
    cases hget : get_node t a with
    | none => simp [subtree_go, hget] at hj
    | some n =>
      rcases get_node_mem hget with ⟨hn, hid⟩
      simp only [subtree_go, hget, List.mem_cons] at hj
      rcases hj with hj | hj
      · subst hj
        exact Or.inl hb
      · rcases List.mem_flatten.mp hj with ⟨l, hl, hjl⟩
        rcases List.mem_map.mp hl with ⟨c, hc, hceq⟩
        subst hceq
        have hrank2 : rankGE t m c ≤ f := by
          have := rankGE_child_lt hw hm hn hc
          rw [hid] at this
          omega
        rcases ih c hrank2 j hjl b hb with hcb | hbc
        · rcases parent_mem_subtree hw hm hcb with he | ⟨p, cn, hcget, hcp, hpmem⟩
          · subst he
            exact Or.inr (child_mem_subtree hw hm hget hc)
          · rcases parent_of_child hw hn hc with ⟨cn2, hcget2, hcp2⟩
            rw [hcget] at hcget2
            injection hcget2 with he2
            subst he2
            rw [hcp] at hcp2
            injection hcp2 with he3
            rw [he3, hid] at hpmem
            exact Or.inl hpmem
        · exact Or.inr (subtree_child_subset hw hm hget hc b hbc)

/-- Sibling subtrees are disjoint. -/
theorem sibling_subtrees_disjoint {t : Tree} (hw : WFcore t) {m : Nat → Nat}
    (hm : Measured t m) {i : Nat} {n : Node} (hget : get_node t i = some n)
    {c₁ c₂ : Nat} (h₁ : c₁ ∈ n.children) (h₂ : c₂ ∈ n.children) (hne : c₁ ≠ c₂) :
    ∀ j, j ∈ subtree t c₁ → j ∉ subtree t c₂ := by
  rcases get_node_mem hget with ⟨hn, hid⟩
  have key : ∀ d₁ d₂, d₁ ∈ n.children → d₂ ∈ n.children → d₁ ≠ d₂ →
      d₁ ∈ subtree t d₂ → False := by
    intro d₁ d₂ hd₁ hd₂ hdne hmem
    rcases parent_mem_subtree hw hm hmem with he | ⟨p, dn, hdget, hdp, hpmem⟩
    · exact hdne he
    · rcases parent_of_child hw hn hd₁ with ⟨dn2, hdget2, hdp2⟩
      rw [hdget] at hdget2
      injection hdget2 with he2
      subst he2
      rw [hdp] at hdp2
      injection hdp2 with he3
      subst he3
      have hle := measure_le_of_mem_subtree hw hm hpmem
      have hlt := measure_child_lt hw hm hn hd₂
      omega
  intro j hj₁ hj₂
  have hrank : rankGE t m c₁ ≤ t.nodes.length := rankGE_le_length t m c₁
  rcases subtree_overlap hw hm t.nodes.length c₁ hrank j hj₁ c₂ hj₂ with h | h
  · exact key c₁ c₂ h₁ h₂ hne h
  · exact key c₂ c₁ h₂ h₁ (fun he => hne he.symm) h

/-- Subtree id lists contain no duplicates. -/
theorem subtree_go_nodup {t : Tree} (hw : WFcore t) {m : Nat → Nat} (hm : Measured t m) :
    ∀ fuel i, rankGE t m i ≤ fuel → (subtree_go t fuel i).Nodup := by
  intro fuel
  induction fuel with
  | zero => intro i _; simp [subtree_go]
  | succ f ih =>
    intro i hrank
    cases hget : get_node t i with
    | none => simp [subtree_go, hget]
    | some n =>
      rcases get_node_mem hget with ⟨hn, hid⟩
      simp only [subtree_go, hget]
      rw [List.nodup_cons]
      have hranks : ∀ c ∈ n.children, rankGE t m c ≤ f := by
        intro c hc
        have := rankGE_child_lt hw hm hn hc
        rw [hid] at this
        omega
      constructor
      · intro hmem
        rcases List.mem_flatten.mp hmem with ⟨l, hl, hil⟩
        rcases List.mem_map.mp hl with ⟨c, hc, hceq⟩
        subst hceq
        have h1 := measure_le_of_mem_subtree_go hw hm f c i hil
        have h2 := measure_child_lt hw hm hn hc
        rw [hid] at h2
        omega
      · rw [List.nodup_flatten]
        constructor
        · intro l hl
          rcases List.mem_map.mp hl with ⟨c, hc, hceq⟩
          exact hceq ▸ ih c (hranks c hc)
        · have hnd : n.children.Nodup := children_nodup hw hn
          rw [List.pairwise_map]
          refine List.Pairwise.imp_of_mem ?_ hnd
          intro c₁ c₂ hc₁ hc₂ hne j hj₁ hj₂
          rw [subtree_go_eq_subtree hw hm (hranks c₁ hc₁)] at hj₁
          rw [subtree_go_eq_subtree hw hm (hranks c₂ hc₂)] at hj₂
          exact sibling_subtrees_disjoint hw hm hget hc₁ hc₂ hne j hj₁ hj₂

theorem subtree_nodup {t : Tree} (hw : WFcore t) {m : Nat → Nat} (hm : Measured t m)
    (i : Nat) : (subtree t i).Nodup :=
  subtree_go_nodup hw hm t.nodes.length i (rankGE_le_length t m i)

/-- Unfolding of a live subtree into the root and the child subtrees. -/
theorem subtree_unfold {t : Tree} (hw : WFcore t) {m : Nat → Nat} (hm : Measured t m)
    {i : Nat} {rec : Node} (hget : get_node t i = some rec) :
    subtree t i = i :: (rec.children.map (subtree t)).flatten := by
  rcases get_node_mem hget with ⟨hn, hid⟩
  have hlen : 0 < t.nodes.length := List.length_pos_of_mem hn
  obtain ⟨len, hlen2⟩ : ∃ len, t.nodes.length = len + 1 := ⟨t.nodes.length - 1, by omega⟩
  have h0 : subtree t i = subtree_go t (len + 1) i := by
    unfold subtree
    rw [hlen2]
  rw [h0]
  simp only [subtree_go, hget]
  congr 1
  congr 1
  apply List.map_congr_left
  intro c hc
  apply subtree_go_eq_subtree hw hm
  have := rankGE_child_lt hw hm hn hc
  have h2 := rankGE_le_length t m i
  rw [hid] at this
  omega

/-! ### More list helpers used by the delete proof -/

theorem modify_node_congr {l : List Node} {j : Nat} {f g : Node → Node}
    (h : ∀ n, f n = g n) : modify_node l j f = modify_node l j g := by
  induction l with
  | nil => rfl
  | cons a l ih =>
    by_cases ha : a.id = j
    · simp only [modify_node, if_pos ha, h]
    · simp only [modify_node, if_neg ha, ih]

theorem modify_node_id {l : List Node} {j : Nat} : modify_node l j (fun n => n) = l := by
  induction l with
  | nil => rfl
  | cons a l ih =>
    by_cases ha : a.id = j
    · simp only [modify_node, if_pos ha]
    · simp only [modify_node, if_neg ha, ih]

theorem filter_chain_ne (l : List Nat) (c : Nat) (S : List Nat) :
    (l.filter (fun x => x != c)).filter (fun x => decide (x ∉ S))
      = l.filter (fun x => decide (x ∉ c :: S)) := by
  induction l with
  | nil => rfl
  | cons a l ih =>
    rw [List.filter_cons]
    by_cases hac : a = c
    · subst hac
      simp only [bne_self_eq_false, Bool.false_eq_true, if_false, ih, List.filter_cons]
      rw [if_neg (by simp [List.mem_cons])]
    · have hbne : (a != c) = true := by simp [bne_iff_ne, hac]
      rw [if_pos hbne, List.filter_cons, List.filter_cons]
      by_cases hs : a ∈ S
      · rw [if_neg (by simp [hs]), if_neg (by simp [List.mem_cons, hs]), ih]
      · rw [if_pos (by simp [hs]), if_pos (by simp [List.mem_cons, hac, hs]), ih]

theorem filterN_chain (l : List Node) (S₁ S₂ : List Nat) :
    (l.filter (fun n => decide (n.id ∉ S₁))).filter (fun n => decide (n.id ∉ S₂))
      = l.filter (fun n => decide (n.id ∉ S₁ ++ S₂)) := by
  induction l with
  | nil => rfl
  | cons a l ih =>
    rw [List.filter_cons]
    by_cases h1 : a.id ∈ S₁
    · rw [if_neg (by simp [h1]), ih, List.filter_cons,
        if_neg (by simp [List.mem_append, h1])]
    · rw [if_pos (by simp [h1]), List.filter_cons, List.filter_cons]
      by_cases h2 : a.id ∈ S₂
      · rw [if_neg (by simp [h2]), if_neg (by simp [List.mem_append, h2]), ih]
      · rw [if_pos (by simp [h2]), if_pos (by simp [List.mem_append, h1, h2]), ih]

theorem filterN_cons (l : List Node) (a : Nat) (S : List Nat) :
    (l.filter (fun n => decide (n.id ∉ S))).filter (fun n => n.id != a)
      = l.filter (fun n => decide (n.id ∉ a :: S)) := by
  induction l with
  | nil => rfl
  | cons x l ih =>
    rw [List.filter_cons]
    by_cases h1 : x.id ∈ S
    · rw [if_neg (by simp [h1]), ih, List.filter_cons,
        if_neg (by simp [List.mem_cons, h1])]
    · rw [if_pos (by simp [h1]), List.filter_cons, List.filter_cons]
      by_cases h2 : x.id = a
      · rw [if_neg (by simp [h2]), if_neg (by simp [List.mem_cons, h2]), ih]
      · have : (x.id != a) = true := by simp [bne_iff_ne, h2]
        rw [if_pos this, if_pos (by simp [List.mem_cons, h1, h2]), ih]

theorem filterN_nil (l : List Node) :
    l.filter (fun n => decide (n.id ∉ ([] : List Nat))) = l := by
  induction l with
  | nil => rfl
  | cons a l ih => rw [List.filter_cons, if_pos (by simp), ih]

theorem filter_ne_nil (l : List Nat) :
    l.filter (fun x => decide (x ∉ ([] : List Nat))) = l := by
  induction l with
  | nil => rfl
  | cons a l ih => rw [List.filter_cons, if_pos (by simp), ih]

theorem findNode_filter_keep {l : List Node} {x : Nat} {P : Node → Bool}
    (h : ∀ n, n.id = x → P n = true) : findNode (l.filter P) x = findNode l x := by
  induction l with
  | nil => rfl
  | cons a l ih =>
    rw [List.filter_cons]
    by_cases ha : a.id = x
    · rw [if_pos (h a ha), findNode_cons, findNode_cons, if_pos ha, if_pos ha]
    · by_cases hp : P a = true
      · rw [if_pos hp, findNode_cons, findNode_cons, if_neg ha, if_neg ha, ih]
      · simp only [Bool.not_eq_true] at hp
        rw [hp]
        simp only [Bool.false_eq_true, if_false]
        rw [findNode_cons, if_neg ha, ih]

theorem findNode_filter_drop {l : List Node} {x : Nat} {P : Node → Bool}
    (h : ∀ n, n.id = x → P n = false) : findNode (l.filter P) x = none := by
  induction l with
  | nil => rfl
  | cons a l ih =>
    rw [List.filter_cons]
    by_cases ha : a.id = x
    · rw [h a ha]
      simp only [Bool.false_eq_true, if_false]
      exact ih
    · by_cases hp : P a = true
      · rw [if_pos hp, findNode_cons, if_neg ha, ih]
      · simp only [Bool.not_eq_true] at hp
        rw [hp]
        simp only [Bool.false_eq_true, if_false]
        exact ih

/-! ### The delete equation -/

theorem filter_modify_keep {l : List Node} {j : Nat} {f : Node → Node} {P : Node → Bool}
    (hf : ∀ n, (f n).id = n.id) (hP : ∀ n₁ n₂, n₁.id = n₂.id → P n₁ = P n₂)
    (hPj : ∀ n, n.id = j → P n = true) :
    (modify_node l j f).filter P = modify_node (l.filter P) j f := by
  induction l with
  | nil => rfl
  | cons a l ih =>
    by_cases ha : a.id = j
    · have hpa : P a = true := hPj a ha
      have hpfa : P (f a) = true := by rw [hP (f a) a (hf a), hpa]
      rw [modify_node, if_pos ha, List.filter_cons, if_pos hpfa, List.filter_cons, if_pos hpa,
        modify_node, if_pos ha]
    · rw [modify_node, if_neg ha, List.filter_cons, List.filter_cons]
      by_cases hpa : P a = true
      · rw [if_pos hpa, if_pos hpa, modify_node, if_neg ha, ih]
      · simp only [Bool.not_eq_true] at hpa
        rw [hpa]
        simp only [Bool.false_eq_true, if_false]
        exact ih

theorem filter_modify_drop {l : List Node} {j : Nat} {f : Node → Node} {P : Node → Bool}
    (hf : ∀ n, (f n).id = n.id) (hP : ∀ n₁ n₂, n₁.id = n₂.id → P n₁ = P n₂)
    (hPj : ∀ n, n.id = j → P n = false) :
    (modify_node l j f).filter P = l.filter P := by
  induction l with
  | nil => rfl
  | cons a l ih =>
    by_cases ha : a.id = j
    · have hpa : P a = false := hPj a ha
      have hpfa : P (f a) = false := by rw [hP (f a) a (hf a), hpa]
      rw [modify_node, if_pos ha, List.filter_cons, List.filter_cons, hpa, hpfa]
      simp only [Bool.false_eq_true, if_false]
    · rw [modify_node, if_neg ha, List.filter_cons, List.filter_cons, ih]

theorem get_node_mk (L : List Node) (R : List Nat) (N x : Nat) :
    get_node { nodes := L, root_nodes := R, next_id := N } x = findNode L x := rfl

theorem tree_nodes_mk (L : List Node) (R : List Nat) (N : Nat) :
    Tree.nodes { nodes := L, root_nodes := R, next_id := N } = L := rfl

theorem tree_root_mk (L : List Node) (R : List Nat) (N : Nat) :
    Tree.root_nodes { nodes := L, root_nodes := R, next_id := N } = R := rfl

theorem tree_next_mk (L : List Node) (R : List Nat) (N : Nat) :
    Tree.next_id { nodes := L, root_nodes := R, next_id := N } = N := rfl

/-! ### Specializations of the modify lemmas to the two update shapes -/

theorem wc_id (g : List Nat → List Nat) (n : Node) : (with_children g n).id = n.id := rfl

theorem wp_id (p : Option Nat) (n : Node) : (with_parent p n).id = n.id := rfl

theorem wc_parent (g : List Nat → List Nat) (n : Node) :
    (with_children g n).parent = n.parent := rfl

theorem wc_children (g : List Nat → List Nat) (n : Node) :
    (with_children g n).children = g n.children := rfl

theorem wp_parent (p : Option Nat) (n : Node) : (with_parent p n).parent = p := rfl

theorem wp_children (p : Option Nat) (n : Node) :
    (with_parent p n).children = n.children := rfl

theorem findNode_modify_wc {l : List Node} {x j : Nat} (g : List Nat → List Nat)
    (h : x ≠ j) : findNode (modify_node l j (with_children g)) x = findNode l x :=
  findNode_modify_ne (f := with_children g) (fun _ => rfl) h

theorem findNode_modify_wp {l : List Node} {x j : Nat} (p : Option Nat)
    (h : x ≠ j) : findNode (modify_node l j (with_parent p)) x = findNode l x :=
  findNode_modify_ne (f := with_parent p) (fun _ => rfl) h

theorem findNode_modify_self_wc {l : List Node} {j : Nat} (g : List Nat → List Nat) :
    findNode (modify_node l j (with_children g)) j = (findNode l j).map (with_children g) :=
  findNode_modify_self (f := with_children g) (fun _ => rfl)

theorem findNode_modify_self_wp {l : List Node} {j : Nat} (p : Option Nat) :
    findNode (modify_node l j (with_parent p)) j = (findNode l j).map (with_parent p) :=
  findNode_modify_self (f := with_parent p) (fun _ => rfl)

theorem map_id_modify_wc {l : List Node} {j : Nat} (g : List Nat → List Nat) :
    (modify_node l j (with_children g)).map Node.id = l.map Node.id :=
  map_id_modify_node (f := with_children g) (fun _ => rfl)

theorem map_id_modify_wp {l : List Node} {j : Nat} (p : Option Nat) :
    (modify_node l j (with_parent p)).map Node.id = l.map Node.id :=
  map_id_modify_node (f := with_parent p) (fun _ => rfl)

theorem filter_modify_keep_wc {l : List Node} {j : Nat} {P : Node → Bool}
    (g : List Nat → List Nat) (hP : ∀ n₁ n₂, n₁.id = n₂.id → P n₁ = P n₂)
    (hPj : ∀ n, n.id = j → P n = true) :
    (modify_node l j (with_children g)).filter P = modify_node (l.filter P) j (with_children g) :=
  filter_modify_keep (f := with_children g) (fun _ => rfl) hP hPj

theorem filter_modify_drop_wc {l : List Node} {j : Nat} {P : Node → Bool}
    (g : List Nat → List Nat) (hP : ∀ n₁ n₂, n₁.id = n₂.id → P n₁ = P n₂)
    (hPj : ∀ n, n.id = j → P n = false) :
    (modify_node l j (with_children g)).filter P = l.filter P :=
  filter_modify_drop (f := with_children g) (fun _ => rfl) hP hPj

theorem modify_comp_wc {l : List Node} {j : Nat} (g₁ g₂ : List Nat → List Nat) :
    modify_node (modify_node l j (with_children g₁)) j (with_children g₂)
      = modify_node l j (with_children (fun ch => g₂ (g₁ ch))) :=
  modify_node_comp (f := with_children g₁) (g := with_children g₂) (fun _ => rfl)

theorem wc_congr {g₁ g₂ : List Nat → List Nat} (h : ∀ ch, g₁ ch = g₂ ch) :
    ∀ n, with_children g₁ n = with_children g₂ n := by
  intro n
  unfold with_children
  rw [h]

/-- Collapsing one processed child into the accumulated shape of the fold
inside `delete_node`. -/
theorem collapse_step (l : List Node) (i c : Nat) (cs S₁ SF : List Nat) (hiS : i ∉ S₁) :
    ((modify_node ((modify_node l i (with_children (fun ch => ch.filter (fun x => x != c)))).filter (fun n => decide (n.id ∉ S₁))) i (with_children (fun ch => ch.filter (fun x => decide (x ∉ cs))))).filter (fun n => decide (n.id ∉ SF)))
      = (modify_node l i (with_children (fun ch => ch.filter (fun x => decide (x ∉ c :: cs))))).filter (fun n => decide (n.id ∉ S₁ ++ SF)) := by
  rw [← filter_modify_keep_wc (fun ch => ch.filter (fun x => decide (x ∉ cs)))
      (fun n₁ n₂ he => by simp only [he])
      (fun n hn => by rw [hn]; simp [hiS])]
  rw [modify_comp_wc]
  rw [modify_node_congr
    (g := with_children (fun ch => ch.filter (fun x => decide (x ∉ c :: cs))))
    (wc_congr (fun ch => filter_chain_ne ch c cs))]
  rw [filterN_chain]

/-- Collapsing the final record removal of `delete_node` over the fold
result: the mutations made to the record of `i` disappear with it. -/
theorem collapse_outer (l : List Node) (i : Nat) (G : List Nat → List Nat) (SF : List Nat) :
    (((modify_node l i (with_children G)).filter (fun n => decide (n.id ∉ SF))).filter (fun n => n.id != i))
      = l.filter (fun n => decide (n.id ∉ i :: SF)) := by
  rw [filterN_cons]
  exact filter_modify_drop_wc G (fun n₁ n₂ he => by simp only [he])
    (fun n hn => by rw [hn]; simp)

/-- What one recursive call of the Rust `delete_node` does, stated against
a fixed well-formed reference tree `t₀`: it removes exactly the records of
`subtree t₀ i` and detaches `i` from its parent's list (or from
`root_nodes`). The current tree `t` may differ from `t₀` away from the
subtree, which is exactly the situation during the recursion. -/
theorem delete_go_spec {t₀ : Tree} (hw : WFcore t₀) {m : Nat → Nat} (hm : Measured t₀ m) :
    ∀ fuel t i rec,
      get_node t₀ i = some rec →
      (∀ x ∈ subtree t₀ i, get_node t x = get_node t₀ x) →
      rankGE t₀ m i ≤ fuel →
      delete_go fuel t i =
        { nodes := (detach_nodes t.nodes rec.parent i).filter
            (fun n => decide (n.id ∉ subtree t₀ i)),
          root_nodes := match rec.parent with
            | some _ => t.root_nodes
            | none => t.root_nodes.filter (fun r => r != i),
          next_id := t.next_id } := by
  intro fuel
  induction fuel with
  | zero =>
    intro t i rec hget₀ hinv hfuel
    exfalso
    have := rankGE_pos m (live_of_get hget₀)
    omega
  | succ f ih =>
    intro t i rec hget₀ hinv hfuel
    have hlive₀ : live t₀ i = true := live_of_get hget₀
    have hself : i ∈ subtree t₀ i := mem_subtree_self hlive₀
    have hget_t : get_node t i = some rec := by rw [hinv i hself, hget₀]
    rcases get_node_mem hget₀ with ⟨hrec₀, hrid⟩
    have hcs_nodup : rec.children.Nodup := children_nodup hw hrec₀
    have hx_ne_i : ∀ c ∈ rec.children, ∀ x ∈ subtree t₀ c, x ≠ i := by
      intro c hc x hx he
      subst he
      have h1 := measure_le_of_mem_subtree hw hm hx
      have h2 := measure_child_lt hw hm hrec₀ hc
      rw [hrid] at h2
      omega
    have hi_not_sub : ∀ c ∈ rec.children, i ∉ subtree t₀ c := by
      intro c hc hmemi
      exact hx_ne_i c hc i hmemi rfl
    -- Specification of the fold over the children
    have fold_spec : ∀ cs acc, cs.Nodup → (∀ c ∈ cs, c ∈ rec.children) →
        (∀ c ∈ cs, ∀ x ∈ subtree t₀ c, get_node acc x = get_node t₀ x) →
        List.foldl (fun a c => delete_go f a c) acc cs =
          { nodes := (modify_node acc.nodes i
              (with_children (fun ch => ch.filter (fun x => decide (x ∉ cs))))).filter
              (fun n => decide (n.id ∉ (cs.map (subtree t₀)).flatten)),
            root_nodes := acc.root_nodes,
            next_id := acc.next_id } := by
      intro cs
      induction cs with
      | nil =>
        intro acc _ _ _
        simp only [List.foldl_nil, List.map_nil, List.flatten_nil]
        rw [modify_node_congr (g := fun n => n)
            (fun n => by dsimp only [with_children]; rw [filter_ne_nil]),
          modify_node_id, filterN_nil]
      | cons c cs ihcs =>
        intro acc hnd hmem hinv2
        have hc_mem : c ∈ rec.children := hmem c (List.mem_cons_self _ _)
        rcases parent_of_child hw hrec₀ hc_mem with ⟨cn, hcget₀, hcp⟩
        have hcpi : cn.parent = some i := by rw [hcp, hrid]
        have hcfuel : rankGE t₀ m c ≤ f := by
          have := rankGE_child_lt hw hm hrec₀ hc_mem
          rw [hrid] at this
          omega
        have step1 := ih acc c cn hcget₀ (hinv2 c (List.mem_cons_self _ _)) hcfuel
        rw [hcpi] at step1
        simp only [detach_nodes] at step1
        have hnd2 : cs.Nodup := (List.nodup_cons.mp hnd).2
        have hcnots : c ∉ cs := (List.nodup_cons.mp hnd).1
        have hmem2 : ∀ c2 ∈ cs, c2 ∈ rec.children :=
          fun c2 h2 => hmem c2 (List.mem_cons_of_mem _ h2)
        have hdisj : ∀ c2 ∈ cs, ∀ x ∈ subtree t₀ c2, x ∉ subtree t₀ c := by
          intro c2 h2 x hx
          exact fun hxc =>
            sibling_subtrees_disjoint hw hm hget₀ (hmem2 c2 h2) hc_mem
              (fun he => hcnots (he ▸ h2)) x hx hxc
        have hinv2b : ∀ c2 ∈ cs, ∀ x ∈ subtree t₀ c2,
            get_node (delete_go f acc c) x = get_node t₀ x := by
          intro c2 h2 x hx
          rw [step1, get_node_mk]
          rw [findNode_filter_keep (fun n hn => by
            simp only [decide_eq_true_eq]
            rw [hn]
            exact hdisj c2 h2 x hx)]
          rw [findNode_modify_wc _ (hx_ne_i c2 (hmem2 c2 h2) x hx)]
          exact hinv2 c2 (List.mem_cons_of_mem _ h2) x hx
        rw [List.foldl_cons, ihcs (delete_go f acc c) hnd2 hmem2 hinv2b, step1]
        simp only [tree_nodes_mk, tree_root_mk, tree_next_mk]
        congr 1
        rw [collapse_step acc.nodes i c cs (subtree t₀ c) ((cs.map (subtree t₀)).flatten)
          (hi_not_sub c hc_mem)]
        rw [List.map_cons, List.flatten_cons]
    -- Outer body of delete_go
    cases hp : rec.parent with
    | some p =>
      have hpne : p ∉ subtree t₀ i := parent_not_mem_subtree hw hm hget₀ hp
      have hinv2 : ∀ c ∈ rec.children, ∀ x ∈ subtree t₀ c,
          get_node { nodes := modify_node t.nodes p (with_children (fun ch => ch.filter (fun c2 => c2 != i))), root_nodes := t.root_nodes, next_id := t.next_id } x = get_node t₀ x := by
        intro c hc x hx
        have hxin : x ∈ subtree t₀ i := subtree_child_subset hw hm hget₀ hc x hx
        rw [get_node_mk]
        rw [findNode_modify_wc _ (fun he => hpne (by rw [← he]; exact hxin))]
        exact hinv x hxin
      simp only [delete_go, hget_t, hp, detach_nodes]
      rw [fold_spec rec.children _ hcs_nodup (fun c h => h) hinv2]
      simp only [tree_nodes_mk, tree_root_mk, tree_next_mk]
      congr 1
      rw [collapse_outer]
      rw [← subtree_unfold hw hm hget₀]
    | none =>
      have hinv2 : ∀ c ∈ rec.children, ∀ x ∈ subtree t₀ c,
          get_node { nodes := t.nodes, root_nodes := t.root_nodes.filter (fun r => r != i), next_id := t.next_id } x = get_node t₀ x := by
        intro c hc x hx
        rw [get_node_mk]
        exact hinv x (subtree_child_subset hw hm hget₀ hc x hx)
      simp only [delete_go, hget_t, hp, detach_nodes]
      rw [fold_spec rec.children _ hcs_nodup (fun c h => h) hinv2]
      simp only [tree_nodes_mk, tree_root_mk, tree_next_mk]
      congr 1
      rw [collapse_outer]
      rw [← subtree_unfold hw hm hget₀]

/-- `delete_node` on a live id of a well-formed tree: the exact result. -/
theorem delete_node_spec {t : Tree} (hw : WFcore t) {m : Nat → Nat} (hm : Measured t m)
    {i : Nat} {rec : Node} (hget : get_node t i = some rec) :
    delete_node t i =
      { nodes := (detach_nodes t.nodes rec.parent i).filter
          (fun n => decide (n.id ∉ subtree t i)),
        root_nodes := match rec.parent with
          | some _ => t.root_nodes
          | none => t.root_nodes.filter (fun r => r != i),
        next_id := t.next_id } :=
  delete_go_spec hw hm t.nodes.length t i rec hget (fun x _ => rfl) (rankGE_le_length t m i)

/-- `delete_node` on an id that names no live node leaves the tree unchanged. -/
theorem delete_node_dead {t : Tree} {i : Nat} (h : live t i = false) :
    delete_node t i = t := by
  unfold delete_node
  cases hl : t.nodes.length with
  | zero => rfl
  | succ len => simp [delete_go, not_live_get h]

/-! ### Counting removed records -/

theorem length_filter_split {α : Type} (l : List α) (P : α → Bool) :
    (l.filter P).length + (l.filter (fun a => !(P a))).length = l.length := by
  induction l with
  | nil => rfl
  | cons a l ih =>
    rw [List.filter_cons, List.filter_cons]
    by_cases hp : P a = true
    · rw [if_pos hp, hp]
      simp only [Bool.not_true, Bool.false_eq_true, if_false, List.length_cons]
      omega
    · simp only [Bool.not_eq_true] at hp
      rw [hp]
      simp only [Bool.not_false, Bool.false_eq_true, if_false, if_pos, List.length_cons]
      omega

theorem length_filter_mem_nodup : ∀ (L S : List Nat), L.Nodup → S.Nodup →
    (∀ x ∈ S, x ∈ L) → (L.filter (fun x => decide (x ∈ S))).length = S.length := by
  intro L
  induction L with
  | nil =>
    intro S _ _ hsub
    cases S with
    | nil => rfl
    | cons a S => exact absurd (hsub a (List.mem_cons_self a S)) (List.not_mem_nil a)
  | cons a L ih =>
    intro S hL hS hsub
    have hLtail : L.Nodup := (List.nodup_cons.mp hL).2
    have haL : a ∉ L := (List.nodup_cons.mp hL).1
    rw [List.filter_cons]
    by_cases ha : a ∈ S
    · rw [if_pos (by simpa using ha)]
      have hS2 : (S.erase a).Nodup := hS.erase a
      have hsub2 : ∀ x ∈ S.erase a, x ∈ L := by
        intro x hx
        have hxS : x ∈ S := List.mem_of_mem_erase hx
        have hxa : x ≠ a := (List.Nodup.mem_erase_iff hS).mp hx |>.1
        rcases List.mem_cons.mp (hsub x hxS) with he | he
        · exact absurd he hxa
        · exact he
      have hcong : L.filter (fun x => decide (x ∈ S)) = L.filter (fun x => decide (x ∈ S.erase a)) := by
        apply List.filter_congr
        intro x hx
        have hxa : x ≠ a := fun he => haL (he ▸ hx)
        simp only [decide_eq_decide]
        rw [List.Nodup.mem_erase_iff hS]
        exact ⟨fun h => ⟨hxa, h⟩, fun h => h.2⟩
      rw [List.length_cons, hcong, ih (S.erase a) hLtail hS2 hsub2,
        List.length_erase_of_mem ha]
      have : 0 < S.length := List.length_pos_of_mem ha
      omega
    · rw [if_neg (by simpa using ha)]
      apply ih S hLtail hS
      intro x hx
      rcases List.mem_cons.mp (hsub x hx) with he | he
      · exact absurd (he ▸ hx) ha
      · exact he

theorem map_id_filter_notmem (l : List Node) (S : List Nat) :
    (l.filter (fun n => decide (n.id ∉ S))).map Node.id
      = (l.map Node.id).filter (fun x => decide (x ∉ S)) := by
  induction l with
  | nil => rfl
  | cons a l ih =>
    rw [List.filter_cons, List.map_cons, List.filter_cons]
    by_cases h : a.id ∈ S
    · rw [if_neg (by simpa using h), if_neg (by simpa using h), ih]
    · rw [if_pos (by simpa using h), if_pos (by simpa using h), List.map_cons, ih]

theorem detach_map_id (l : List Node) (pid : Option Nat) (i : Nat) :
    (detach_nodes l pid i).map Node.id = l.map Node.id := by
  cases pid with
  | some p => exact map_id_modify_wc _
  | none => rfl

/-- The ids surviving a delete are exactly the previous ids outside the
deleted subtree. -/
theorem delete_node_ids {t : Tree} (hw : WFcore t) {m : Nat → Nat} (hm : Measured t m)
    {i : Nat} {rec : Node} (hget : get_node t i = some rec) :
    (delete_node t i).nodes.map Node.id
      = (t.nodes.map Node.id).filter (fun x => decide (x ∉ subtree t i)) := by
  rw [delete_node_spec hw hm hget, tree_nodes_mk, map_id_filter_notmem, detach_map_id]

/-- Deleting a live node removes exactly `(subtree t i).length` records. -/
theorem delete_node_count {t : Tree} (hw : WFcore t) {m : Nat → Nat} (hm : Measured t m)
    {i : Nat} {rec : Node} (hget : get_node t i = some rec) :
    (delete_node t i).nodes.length + (subtree t i).length = t.nodes.length := by
  have hids := delete_node_ids hw hm hget
  have hlen : (delete_node t i).nodes.length
      = ((t.nodes.map Node.id).filter (fun x => decide (x ∉ subtree t i))).length := by
    rw [← List.length_map (delete_node t i).nodes Node.id, hids]
  have hsplit := length_filter_split (t.nodes.map Node.id)
    (fun x => decide (x ∈ subtree t i))
  have hnotc : (t.nodes.map Node.id).filter (fun x => !(decide (x ∈ subtree t i)))
      = (t.nodes.map Node.id).filter (fun x => decide (x ∉ subtree t i)) := by
    apply List.filter_congr
    intro x _
    by_cases hx : x ∈ subtree t i <;> simp [hx]
  have hmem : ((t.nodes.map Node.id).filter (fun x => decide (x ∈ subtree t i))).length
      = (subtree t i).length := by
    apply length_filter_mem_nodup _ _ hw.nodup (subtree_nodup hw hm i)
    intro x hx
    rcases live_get (subtree_live hx) with ⟨n, _, hn, hid⟩
    exact hid ▸ List.mem_map_of_mem Node.id hn
  rw [hlen, ← hnotc]
  rw [← List.length_map t.nodes Node.id]
  omega

/-! ### Survivor characterizations -/

theorem live_iff_mem_map {t : Tree} {x : Nat} :
    live t x = true ↔ x ∈ t.nodes.map Node.id := by
  rw [live_iff]
  constructor
  · rintro ⟨n, hn, hid⟩
    exact hid ▸ List.mem_map_of_mem Node.id hn
  · intro h
    rcases List.mem_map.mp h with ⟨n, hn, hid⟩
    exact ⟨n, hn, hid⟩

theorem mem_modify_node_ne {l : List Node} {j : Nat} {f : Node → Node} {n : Node}
    (hf : ∀ q, (f q).id = q.id) (h : n ∈ modify_node l j f) (hne : n.id ≠ j) : n ∈ l := by
  induction l with
  | nil => simpa [modify_node] using h
  | cons a l ih =>
    by_cases ha : a.id = j
    · rw [modify_node, if_pos ha] at h
      rcases List.mem_cons.mp h with he | he
      · exfalso
        apply hne
        rw [he, hf, ha]
      · exact List.mem_cons_of_mem _ he
    · rw [modify_node, if_neg ha] at h
      rcases List.mem_cons.mp h with he | he
      · exact he ▸ List.mem_cons_self _ _
      · exact List.mem_cons_of_mem _ (ih he)

theorem mem_modify_node_self {l : List Node} {j : Nat} {f : Node → Node} {n : Node}
    (hf : ∀ q, (f q).id = q.id) (hnd : (l.map Node.id).Nodup)
    (h : n ∈ modify_node l j f) (hid : n.id = j) :
    ∃ rec, findNode l j = some rec ∧ n = f rec := by
  induction l with
  | nil => simpa [modify_node] using h
  | cons a l ih =>
    have hnd2 : (l.map Node.id).Nodup := (List.nodup_cons.mp (by simpa using hnd)).2
    have hana : a.id ∉ l.map Node.id := (List.nodup_cons.mp (by simpa using hnd)).1
    by_cases ha : a.id = j
    · rw [modify_node, if_pos ha] at h
      rcases List.mem_cons.mp h with he | he
      · exact ⟨a, by rw [findNode_cons, if_pos ha], he⟩
      · exfalso
        apply hana
        rw [ha, ← hid]
        exact List.mem_map_of_mem Node.id he
    · rw [modify_node, if_neg ha] at h
      rcases List.mem_cons.mp h with he | he
      · exact absurd (by rw [← he, hid]) ha
      · rcases ih hnd2 he with ⟨rec, h1, h2⟩
        exact ⟨rec, by rw [findNode_cons, if_neg ha]; exact h1, h2⟩

theorem mem_modify_wc_ne {l : List Node} {j : Nat} {n : Node} (g : List Nat → List Nat)
    (h : n ∈ modify_node l j (with_children g)) (hne : n.id ≠ j) : n ∈ l :=
  mem_modify_node_ne (f := with_children g) (fun _ => rfl) h hne

theorem mem_modify_wp_ne {l : List Node} {j : Nat} {n : Node} (p : Option Nat)
    (h : n ∈ modify_node l j (with_parent p)) (hne : n.id ≠ j) : n ∈ l :=
  mem_modify_node_ne (f := with_parent p) (fun _ => rfl) h hne

theorem mem_modify_wc_self {l : List Node} {j : Nat} {n : Node} (g : List Nat → List Nat)
    (hnd : (l.map Node.id).Nodup) (h : n ∈ modify_node l j (with_children g))
    (hid : n.id = j) : ∃ rec, findNode l j = some rec ∧ n = with_children g rec :=
  mem_modify_node_self (f := with_children g) (fun _ => rfl) hnd h hid

theorem mem_modify_wp_self {l : List Node} {j : Nat} {n : Node} (p : Option Nat)
    (hnd : (l.map Node.id).Nodup) (h : n ∈ modify_node l j (with_parent p))
    (hid : n.id = j) : ∃ rec, findNode l j = some rec ∧ n = with_parent p rec :=
  mem_modify_node_self (f := with_parent p) (fun _ => rfl) hnd h hid

theorem childOccL_filter_eq {l : List Node} {P : Node → Bool} {x : Nat}
    (h : ∀ n ∈ l, P n = false → cnt n.children x = 0) :
    childOccL (l.filter P) x = childOccL l x := by
  induction l with
  | nil => rfl
  | cons a l ih =>
    have ih2 := ih (fun n hn => h n (List.mem_cons_of_mem _ hn))
    rw [List.filter_cons, childOccL_cons]
    by_cases hp : P a = true
    · rw [if_pos hp, childOccL_cons, ih2]
    · simp only [Bool.not_eq_true] at hp
      rw [hp]
      simp only [Bool.false_eq_true, if_false]
      rw [ih2, h a (List.mem_cons_self _ _) hp]
      omega

theorem childOccL_filter_zero {l : List Node} {P : Node → Bool} {x : Nat}
    (h : ∀ n ∈ l, P n = true → cnt n.children x = 0) :
    childOccL (l.filter P) x = 0 := by
  induction l with
  | nil => rfl
  | cons a l ih =>
    have ih2 := ih (fun n hn => h n (List.mem_cons_of_mem _ hn))
    rw [List.filter_cons]
    by_cases hp : P a = true
    · rw [if_pos hp, childOccL_cons, ih2, h a (List.mem_cons_self _ _) hp]
    · simp only [Bool.not_eq_true] at hp
      rw [hp]
      simp only [Bool.false_eq_true, if_false]
      exact ih2

/-- The unique child occurrence of a live parented node sits at its
parent's record: every other record, and the parent record once filtered,
contains no trace of it. -/
theorem cnt_children_parent {t : Tree} (hw : WFcore t) {x : Nat} {xn : Node}
    (hget : get_node t x = some xn) {p : Nat} (hp : xn.parent = some p)
    {pn : Node} (hpget : get_node t p = some pn) : cnt pn.children x = 1 := by
  rcases get_node_mem hget with ⟨hxn, hxid⟩
  rcases get_node_mem hpget with ⟨hpn, hpid⟩
  rcases hw.placed_child xn hxn p hp with ⟨_, hocc, hmem⟩
  have hin : x ∈ pn.children := by
    have := hmem pn hpget
    rwa [hxid] at this
  have h1 : 0 < cnt pn.children x := cnt_pos_iff_mem.mpr hin
  have h2 : cnt pn.children x ≤ childOcc t x := by
    have := le_childOccL_of_mem hpn x
    exact this
  unfold childOcc at hocc
  rw [hxid] at hocc
  unfold childOcc at h2
  omega

theorem parented_of_mem_subtree {t : Tree} (hw : WFcore t) {m : Nat → Nat}
    (hm : Measured t m) {i x : Nat} (hx : x ∈ subtree t i) (hne : x ≠ i) :
    ∃ xn q, get_node t x = some xn ∧ xn.parent = some q ∧ q ∈ subtree t i := by
  rcases parent_mem_subtree hw hm hx with he | ⟨q, xn, h1, h2, h3⟩
  · exact absurd he hne
  · exact ⟨xn, q, h1, h2, h3⟩

theorem delete_live {t : Tree} (hw : WFcore t) {m : Nat → Nat} (hm : Measured t m)
    {i : Nat} {rec : Node} (hget : get_node t i = some rec) (x : Nat) :
    live (delete_node t i) x = true ↔ live t x = true ∧ x ∉ subtree t i := by
  rw [live_iff_mem_map, live_iff_mem_map, delete_node_ids hw hm hget, List.mem_filter,
    decide_eq_true_eq]

theorem delete_get_other {t : Tree} (hw : WFcore t) {m : Nat → Nat} (hm : Measured t m)
    {i : Nat} {rec : Node} (hget : get_node t i = some rec) {x : Nat}
    (hxs : x ∉ subtree t i) (hxp : ∀ p, rec.parent = some p → x ≠ p) :
    get_node (delete_node t i) x = get_node t x := by
  rw [delete_node_spec hw hm hget, get_node_mk,
    findNode_filter_keep (fun n hn => by rw [hn]; simp [hxs])]
  cases hp : rec.parent with
  | some p =>
    simp only [detach_nodes]
    exact findNode_modify_wc _ (hxp p hp)
  | none => rfl

theorem delete_get_parent {t : Tree} (hw : WFcore t) {m : Nat → Nat} (hm : Measured t m)
    {i : Nat} {rec : Node} (hget : get_node t i = some rec) {p : Nat}
    (hp : rec.parent = some p) :
    get_node (delete_node t i) p
      = (get_node t p).map (with_children (fun ch => ch.filter (fun c => c != i))) := by
  have hpne : p ∉ subtree t i := parent_not_mem_subtree hw hm hget hp
  rw [delete_node_spec hw hm hget, get_node_mk,
    findNode_filter_keep (fun n hn => by rw [hn]; simp [hpne]), hp]
  simp only [detach_nodes]
  exact findNode_modify_self_wc _

theorem delete_childOcc {t : Tree} (hw : WFcore t) {m : Nat → Nat} (hm : Measured t m)
    {i : Nat} {rec : Node} (hget : get_node t i = some rec) (x : Nat) :
    childOcc (delete_node t i) x
      = if x ∈ subtree t i then 0 else childOcc t x := by
  rcases get_node_mem hget with ⟨hrec, hrid⟩
  have hlive : live t i = true := live_of_get hget
  have hiS : i ∈ subtree t i := mem_subtree_self hlive
  have pieceA : childOccL (detach_nodes t.nodes rec.parent i) x
      = if x = i then 0 else childOcc t x := by
    cases hp : rec.parent with
    | some p =>
      have hplive := hw.parents_live rec hrec p hp
      rcases live_get hplive with ⟨pn, hpget, hpn, hpid⟩
      simp only [detach_nodes]
      have hadd := childOccL_modify (f := with_children (fun ch => ch.filter (fun c => c != i)))
        hpget x
      rw [wc_children] at hadd
      rw [cnt_filter_ne] at hadd
      by_cases hx : x = i
      · rw [if_pos hx] at hadd ⊢
        have h1 : cnt pn.children i = 1 := cnt_children_parent hw hget hp hpget
        have h2 : childOcc t i = 1 := by
          have := (hw.placed_child rec hrec p hp).2.1
          rwa [hrid] at this
        subst hx
        unfold childOcc at h2
        omega
      · rw [if_neg hx] at hadd ⊢
        unfold childOcc
        omega
    | none =>
      simp only [detach_nodes]
      by_cases hx : x = i
      · rw [if_pos hx]
        have h2 : childOcc t i = 0 := by
          have := (hw.placed_root rec hrec hp).2
          rwa [hrid] at this
        subst hx
        unfold childOcc at h2
        rw [h2]
      · rw [if_neg hx]
        rfl
  have hsurv_orig : ∀ n ∈ detach_nodes t.nodes rec.parent i, n.id ∉ subtree t i → n ∈ t.nodes ∨
      (∃ pn, get_node t n.id = some pn ∧ n = with_children (fun ch => ch.filter (fun c => c != i)) pn) := by
    intro n hn _
    cases hp : rec.parent with
    | some p =>
      rw [hp] at hn
      simp only [detach_nodes] at hn
      by_cases hnp : n.id = p
      · rcases mem_modify_wc_self _ hw.nodup hn hnp with ⟨pn, h1, h2⟩
        right
        exact ⟨pn, by rw [hnp]; exact h1, h2⟩
      · exact Or.inl (mem_modify_wc_ne _ hn hnp)
    | none =>
      rw [hp] at hn
      exact Or.inl hn
  rw [delete_node_spec hw hm hget, tree_nodes_mk]
  by_cases hxs : x ∈ subtree t i
  · rw [if_pos hxs]
    unfold childOcc
    apply childOccL_filter_zero
    intro n hn hP
    simp only [decide_eq_true_eq] at hP
    rw [cnt_eq_zero_iff]
    intro hxc
    rcases hsurv_orig n hn hP with horig | ⟨pn, hpget, hne⟩
    · rcases parent_of_child hw horig hxc with ⟨xn, hxget, hxp⟩
      by_cases hxi : x = i
      · subst hxi
        rw [hget] at hxget
        injection hxget with he
        subst he
        cases hp : rec.parent with
        | some p =>
          rw [hp] at hxp
          injection hxp with he2
          -- n.id = p, but then n is the modified record case, contradiction with horig?
          -- Instead: p ∉ subtree, yet n.id = p means the record holding i survives
          -- unfiltered, which cannot happen: the modify replaced the first p record.
          -- Use uniqueness: the only record with id p in the detach list is filtered.
          exfalso
          rw [hp] at hn
          simp only [detach_nodes] at hn
          have hplive := hw.parents_live rec hrec p hp
          rcases live_get hplive with ⟨pn, hpget, hpn, hpid⟩
          rcases mem_modify_wc_self _ hw.nodup hn he2.symm with ⟨rec2, hr1, hr2⟩
          have hre : get_node t p = some rec2 := hr1
          rw [hpget] at hre
          injection hre with he3
          subst he3
          rw [hr2, wc_children] at hxc
          rw [List.mem_filter] at hxc
          rcases hxc with ⟨_, hbne⟩
          simp at hbne
        | none =>
          rw [hp] at hxp
          exact Option.noConfusion hxp
      · rcases parented_of_mem_subtree hw hm hxs hxi with ⟨xn2, q, hxget2, hxp2, hqS⟩
        rw [hxget] at hxget2
        injection hxget2 with he
        subst he
        rw [hxp] at hxp2
        injection hxp2 with he2
        exact hP (he2 ▸ hqS)
    · rw [hne, wc_children] at hxc
      rw [List.mem_filter] at hxc
      rcases hxc with ⟨hxc, hxbne⟩
      have hxi : x ≠ i := by
        intro he
        rw [he] at hxbne
        simp at hxbne
      rcases get_node_mem hpget with ⟨hpn2, hpid2⟩
      rcases parent_of_child hw hpn2 hxc with ⟨xn, hxget, hxp⟩
      rcases parented_of_mem_subtree hw hm hxs hxi with ⟨xn2, q, hxget2, hxp2, hqS⟩
      rw [hxget] at hxget2
      injection hxget2 with he
      subst he
      rw [hxp] at hxp2
      injection hxp2 with he2
      rw [hpid2] at he2
      exact hP (he2 ▸ hqS)
  · rw [if_neg hxs]
    unfold childOcc
    rw [childOccL_filter_eq]
    · have hxi : x ≠ i := fun he => hxs (he ▸ hiS)
      rw [pieceA, if_neg hxi]
      rfl
    · intro n hn hP
      simp only [decide_eq_false_iff_not, Decidable.not_not] at hP
      rw [cnt_eq_zero_iff]
      intro hxc
      -- a deleted record cannot contain the surviving x among its children
      have hnp : ∀ p, rec.parent = some p → n.id ≠ p := by
        intro p hp he
        exact (parent_not_mem_subtree hw hm hget hp) (he ▸ hP)
      have horig : n ∈ t.nodes := by
        cases hp : rec.parent with
        | some p =>
          rw [hp] at hn
          simp only [detach_nodes] at hn
          exact mem_modify_wc_ne _ hn (hnp p hp)
        | none =>
          rw [hp] at hn
          exact hn
      have := children_subset_subtree_go hw hm t.nodes.length i (rankGE_le_length t m i)
        n.id
      rcases live_get (live_of_mem horig) with ⟨n2, hget2, _, _⟩
      have hn2 : n2 = n := by
        have := get_node_of_mem hw horig
        rw [this] at hget2
        injection hget2 with he
        exact he.symm
      subst hn2
      exact hxs (this n2 x hP hget2 hxc)

theorem rootOcc_zero_of_parented {t : Tree} (hw : WFcore t) {x : Nat} {xn : Node}
    (hget : get_node t x = some xn) {q : Nat} (hq : xn.parent = some q) :
    rootOcc t x = 0 := by
  rcases get_node_mem hget with ⟨hxn, hxid⟩
  have := (hw.placed_child xn hxn q hq).1
  rwa [hxid] at this

theorem delete_rootOcc {t : Tree} (hw : WFcore t) {m : Nat → Nat} (hm : Measured t m)
    {i : Nat} {rec : Node} (hget : get_node t i = some rec) (x : Nat) :
    rootOcc (delete_node t i) x = if x ∈ subtree t i then 0 else rootOcc t x := by
  rcases get_node_mem hget with ⟨hrec, hrid⟩
  have hzero : x ∈ subtree t i → x ≠ i → rootOcc t x = 0 := by
    intro hxS hxi
    rcases parented_of_mem_subtree hw hm hxS hxi with ⟨xn, q, h1, h2, _⟩
    exact rootOcc_zero_of_parented hw h1 h2
  have hiS : i ∈ subtree t i := mem_subtree_self (live_of_get hget)
  cases hp : rec.parent with
  | some p =>
    have hroot : (delete_node t i).root_nodes = t.root_nodes := by
      rw [delete_node_spec hw hm hget, hp]
    unfold rootOcc
    rw [hroot]
    by_cases hxS : x ∈ subtree t i
    · rw [if_pos hxS]
      by_cases hxi : x = i
      · subst hxi
        have := (hw.placed_child rec hrec p hp).1
        unfold rootOcc at this
        rwa [hrid] at this
      · exact hzero hxS hxi
    · rw [if_neg hxS]
  | none =>
    have hroot : (delete_node t i).root_nodes = t.root_nodes.filter (fun r => r != i) := by
      rw [delete_node_spec hw hm hget, hp]
    unfold rootOcc
    rw [hroot, cnt_filter_ne]
    by_cases hxS : x ∈ subtree t i
    · rw [if_pos hxS]
      by_cases hxi : x = i
      · rw [if_pos hxi]
      · rw [if_neg hxi]
        exact hzero hxS hxi
    · have hxi : x ≠ i := fun he => hxS (by rw [he]; exact hiS)
      rw [if_neg hxi, if_neg hxS]

/-- Deleting preserves all the invariants. -/
theorem wf_delete {t : Tree} (hw : WFcore t) {m : Nat → Nat} (hm : Measured t m)
    (i : Nat) : WFcore (delete_node t i) ∧ Measured (delete_node t i) m := by
  cases hl : live t i with
  | false =>
    rw [delete_node_dead hl]
    exact ⟨hw, hm⟩
  | true =>
    rcases live_get hl with ⟨rec, hget, hrec, hrid⟩
    have hiS : i ∈ subtree t i := mem_subtree_self hl
    have hnext : (delete_node t i).next_id = t.next_id := by
      rw [delete_node_spec hw hm hget]
    have hids := delete_node_ids hw hm hget
    have shape : ∀ n ∈ (delete_node t i).nodes, n.id ∉ subtree t i ∧
        ∃ n₀ ∈ t.nodes, n.id = n₀.id ∧ n.parent = n₀.parent ∧
          ((n.children = n₀.children ∧ ∀ p, rec.parent = some p → n.id ≠ p) ∨
           (n.children = n₀.children.filter (fun c => c != i) ∧ rec.parent = some n.id)) := by
      rw [delete_node_spec hw hm hget, tree_nodes_mk]
      intro n hn
      rw [List.mem_filter] at hn
      rcases hn with ⟨hdet, hP⟩
      simp only [decide_eq_true_eq] at hP
      refine ⟨hP, ?_⟩
      cases hp : rec.parent with
      | some p =>
        rw [hp] at hdet
        simp only [detach_nodes] at hdet
        by_cases hnp : n.id = p
        · rcases mem_modify_wc_self _ hw.nodup hdet hnp with ⟨pn, h1, h2⟩
          rcases findNode_some h1 with ⟨hpn, hpid⟩
          refine ⟨pn, hpn, ?_, ?_, Or.inr ⟨?_, ?_⟩⟩
          · rw [h2]; rfl
          · rw [h2]; rfl
          · rw [h2]; rfl
          · rw [hnp]
        · refine ⟨n, mem_modify_wc_ne _ hdet hnp, rfl, rfl, Or.inl ⟨rfl, ?_⟩⟩
          intro q hq
          injection hq with he
          rw [← he]
          exact hnp
      | none =>
        rw [hp] at hdet
        simp only [detach_nodes] at hdet
        exact ⟨n, hdet, rfl, rfl, Or.inl ⟨rfl, fun p hp2 => Option.noConfusion hp2⟩⟩
    have child_not_S : ∀ n ∈ (delete_node t i).nodes, ∀ c ∈ n.children,
        c ∈ t.nodes.map Node.id ∧ c ∉ subtree t i := by
      intro n hn c hc
      rcases shape n hn with ⟨hPn, n₀, hn₀, hid, hpar, hch⟩
      have hcn₀ : c ∈ n₀.children := by
        rcases hch with ⟨he, _⟩ | ⟨he, _⟩
        · rw [he] at hc; exact hc
        · rw [he] at hc; exact List.mem_of_mem_filter hc
      have hclive : live t c = true := hw.children_live n₀ hn₀ c hcn₀
      refine ⟨live_iff_mem_map.mp hclive, ?_⟩
      intro hcS
      rcases parent_of_child hw hn₀ hcn₀ with ⟨cn, hcget, hcp⟩
      by_cases hci : c = i
      · subst hci
        rw [hget] at hcget
        injection hcget with he
        subst he
        rcases hch with ⟨hech, hne⟩ | ⟨hech, hpe⟩
        · exact hne n₀.id hcp hid
        · rw [hech] at hc
          rw [List.mem_filter] at hc
          rcases hc with ⟨_, hbne⟩
          simp at hbne
      · rcases parented_of_mem_subtree hw hm hcS hci with ⟨cn2, q, hcget2, hcp2, hqS⟩
        rw [hcget] at hcget2
        injection hcget2 with he
        subst he
        rw [hcp] at hcp2
        injection hcp2 with he2
        apply hPn
        rw [hid, he2]
        exact hqS
    constructor
    · constructor
      · rw [hids]
        exact hw.nodup.filter _
      · intro n hn
        rcases shape n hn with ⟨_, n₀, hn₀, hid, _, _⟩
        rw [hnext, hid]
        exact hw.bounded n₀ hn₀
      · intro n hn q hq
        rcases shape n hn with ⟨hPn, n₀, hn₀, hid, hpar, hch⟩
        rw [hpar] at hq
        have hqlive : live t q = true := hw.parents_live n₀ hn₀ q hq
        have hqS : q ∉ subtree t i := by
          intro hqS
          rcases live_get hqlive with ⟨qn, hqget, hqn, hqid⟩
          have hmemq : n₀.id ∈ qn.children := by
            rcases hw.placed_child n₀ hn₀ q hq with ⟨_, _, hmem⟩
            exact hmem qn hqget
          have := children_subset_subtree_go hw hm t.nodes.length i
            (rankGE_le_length t m i) q qn n₀.id hqS hqget hmemq
          exact hPn (hid ▸ this)
        exact (delete_live hw hm hget q).mpr ⟨hqlive, hqS⟩
      · intro j hj
        have hjr : 0 < rootOcc (delete_node t i) j := by
          unfold rootOcc
          exact cnt_pos_iff_mem.mpr hj
        rw [delete_rootOcc hw hm hget] at hjr
        by_cases hjS : j ∈ subtree t i
        · rw [if_pos hjS] at hjr; omega
        · rw [if_neg hjS] at hjr
          have hjmem : j ∈ t.root_nodes := by
            unfold rootOcc at hjr
            exact cnt_pos_iff_mem.mp hjr
          exact (delete_live hw hm hget j).mpr ⟨hw.roots_live j hjmem, hjS⟩
      · intro n hn c hc
        rcases child_not_S n hn c hc with ⟨h1, h2⟩
        exact (delete_live hw hm hget c).mpr ⟨live_iff_mem_map.mpr h1, h2⟩
      · intro n hn hpar0
        rcases shape n hn with ⟨hPn, n₀, hn₀, hid, hpar, _⟩
        rw [hpar] at hpar0
        rw [delete_rootOcc hw hm hget, delete_childOcc hw hm hget, if_neg hPn, if_neg hPn,
          hid]
        exact hw.placed_root n₀ hn₀ hpar0
      · intro n hn q hq
        rcases shape n hn with ⟨hPn, n₀, hn₀, hid, hpar, _⟩
        rw [hpar] at hq
        rw [delete_rootOcc hw hm hget, delete_childOcc hw hm hget, if_neg hPn, if_neg hPn,
          hid]
        rcases hw.placed_child n₀ hn₀ q hq with ⟨h1, h2, h3⟩
        refine ⟨h1, h2, ?_⟩
        intro pn' hpn'
        have hqS : q ∉ subtree t i := by
          intro hqS
          rcases live_get (hw.parents_live n₀ hn₀ q hq) with ⟨qn, hqget, hqn, hqid⟩
          have hmemq : n₀.id ∈ qn.children := h3 qn hqget
          have := children_subset_subtree_go hw hm t.nodes.length i
            (rankGE_le_length t m i) q qn n₀.id hqS hqget hmemq
          exact hPn (hid ▸ this)
        by_cases hqp : ∃ p, rec.parent = some p ∧ q = p
        · rcases hqp with ⟨p, hp, he⟩
          subst he
          rw [delete_get_parent hw hm hget hp] at hpn'
          rcases live_get (hw.parents_live n₀ hn₀ q hq) with ⟨qn, hqget, hqn, hqid⟩
          rw [hqget] at hpn'
          injection hpn' with he2
          rw [← he2, wc_children, List.mem_filter]
          have hni : n₀.id ≠ i := fun he3 => hPn (hid ▸ he3 ▸ hiS)
          exact ⟨h3 qn hqget, by simp [bne_iff_ne, hni]⟩
        · have hq2 : ∀ p, rec.parent = some p → q ≠ p := by
            intro p hp he
            exact hqp ⟨p, hp, he⟩
          rw [delete_get_other hw hm hget hqS hq2] at hpn'
          exact h3 pn' hpn'
    · intro n hn q hq
      rcases shape n hn with ⟨_, n₀, hn₀, hid, hpar, _⟩
      rw [hpar] at hq
      rw [hid]
      exact hm n₀ hn₀ q hq

/-! ### Effects of add_node -/

theorem add_node_ret (t : Tree) (c : String) (p : Option Nat) :
    (add_node t c p).2 = t.next_id := by
  cases p <;> rfl

theorem add_node_next (t : Tree) (c : String) (p : Option Nat) :
    (add_node t c p).1.next_id = t.next_id + 1 := by
  cases p <;> rfl

theorem add_node_nodes (t : Tree) (c : String) (p : Option Nat) :
    (add_node t c p).1.nodes =
      (match p with
        | some pid => modify_node t.nodes pid (with_children (fun ch => ch ++ [t.next_id]))
        | none => t.nodes) ++ [fresh_node t c p] := by
  cases p <;> rfl

theorem add_node_root (t : Tree) (c : String) (p : Option Nat) :
    (add_node t c p).1.root_nodes =
      (match p with
        | some _ => t.root_nodes
        | none => t.root_nodes ++ [t.next_id]) := by
  cases p <;> rfl

theorem add_node_ids (t : Tree) (c : String) (p : Option Nat) :
    (add_node t c p).1.nodes.map Node.id = t.nodes.map Node.id ++ [t.next_id] := by
  rw [add_node_nodes, List.map_append]
  cases p with
  | some pid => rw [map_id_modify_wc]; rfl
  | none => rfl

theorem add_live {t : Tree} (c : String) (p : Option Nat) (x : Nat) :
    live (add_node t c p).1 x = true ↔ live t x = true ∨ x = t.next_id := by
  rw [live_iff_mem_map, live_iff_mem_map, add_node_ids, List.mem_append]
  simp only [List.mem_singleton]

theorem add_get_new {t : Tree} (hw : WFcore t) (c : String) (p : Option Nat) :
    get_node (add_node t c p).1 t.next_id = some (fresh_node t c p) := by
  have hnone : findNode (match p with
      | some pid => modify_node t.nodes pid (with_children (fun ch => ch ++ [t.next_id]))
      | none => t.nodes) t.next_id = none := by
    rw [findNode_eq_none]
    intro n hn
    have hmem : n.id ∈ t.nodes.map Node.id := by
      cases p with
      | some pid =>
        simp only at hn
        rw [← map_id_modify_wc (l := t.nodes) (j := pid) (fun ch => ch ++ [t.next_id])]
        exact List.mem_map_of_mem Node.id hn
      | none =>
        exact List.mem_map_of_mem Node.id hn
    rcases List.mem_map.mp hmem with ⟨n₀, hn₀, hid⟩
    have := hw.bounded n₀ hn₀
    omega
  show findNode _ t.next_id = _
  rw [add_node_nodes, findNode_append_right hnone, findNode_cons,
    if_pos (show (fresh_node t c p).id = t.next_id from rfl)]

theorem add_get_old {t : Tree} (c : String) (p : Option Nat) {x : Nat}
    (hx : x ≠ t.next_id) (hxp : ∀ pid, p = some pid → x ≠ pid) :
    get_node (add_node t c p).1 x = get_node t x := by
  have h1 : findNode [fresh_node t c p] x = none := by
    rw [findNode_eq_none]
    intro n hn
    rw [List.mem_singleton] at hn
    rw [hn]
    exact fun he => hx he.symm
  show findNode _ x = _
  rw [add_node_nodes]
  cases p with
  | some pid =>
    simp only
    cases hfind : findNode (modify_node t.nodes pid
        (with_children (fun ch => ch ++ [t.next_id]))) x with
    | some n =>
      rw [findNode_append_left hfind]
      rw [findNode_modify_wc _ (hxp pid rfl)] at hfind
      rw [get_node_def, hfind]
    | none =>
      rw [findNode_append_right hfind, h1]
      rw [findNode_modify_wc _ (hxp pid rfl)] at hfind
      rw [get_node_def, hfind]
  | none =>
    simp only
    cases hfind : findNode t.nodes x with
    | some n =>
      rw [findNode_append_left hfind, get_node_def, hfind]
    | none =>
      rw [findNode_append_right hfind, h1, get_node_def, hfind]

theorem add_get_parent {t : Tree} (hw : WFcore t) (c : String) {pid : Nat}
    (hlive : live t pid = true) :
    get_node (add_node t c (some pid)).1 pid
      = (get_node t pid).map (with_children (fun ch => ch ++ [t.next_id])) := by
  rcases live_get hlive with ⟨pn, hpget, hpn, hpid⟩
  show findNode _ pid = _
  rw [add_node_nodes]
  simp only
  have hfind : findNode (modify_node t.nodes pid (with_children (fun ch => ch ++ [t.next_id]))) pid
      = some (with_children (fun ch => ch ++ [t.next_id]) pn) := by
    rw [findNode_modify_self_wc]
    have hp2 : findNode t.nodes pid = some pn := hpget
    rw [hp2]
    rfl
  rw [findNode_append_left hfind, hpget]
  rfl

theorem add_childOcc {t : Tree} (c : String) (p : Option Nat) (hp : ∀ pid, p = some pid → live t pid = true) (x : Nat) :
    childOcc (add_node t c p).1 x = childOcc t x + (if x = t.next_id ∧ p.isSome then 1 else 0) := by
  unfold childOcc
  rw [add_node_nodes, childOccL_append]
  have hfresh : childOccL [fresh_node t c p] x = 0 := by
    simp [childOccL, fresh_node, cnt_nil]
  rw [hfresh]
  cases p with
  | none =>
    simp only [Option.isSome_none, Bool.false_eq_true, and_false, if_false]
  | some pid =>
    rcases live_get (hp pid rfl) with ⟨pn, hpget, hpn, hpid2⟩
    have hadd := childOccL_modify (f := with_children (fun ch => ch ++ [t.next_id]))
      hpget x
    rw [wc_children, cnt_append] at hadd
    simp only [Option.isSome_some, and_true]
    by_cases hx : x = t.next_id
    · subst hx
      rw [if_pos rfl]
      have hone : cnt [t.next_id] t.next_id = 1 := by
        rw [cnt_cons, cnt_nil, if_pos rfl]
      rw [hone] at hadd
      omega
    · rw [if_neg hx]
      have hone : cnt [t.next_id] x = 0 := by
        rw [cnt_eq_zero_iff, List.mem_singleton]
        exact hx
      rw [hone] at hadd
      omega

theorem add_rootOcc (t : Tree) (c : String) (p : Option Nat) (x : Nat) :
    rootOcc (add_node t c p).1 x
      = rootOcc t x + (if x = t.next_id ∧ p = none then 1 else 0) := by
  unfold rootOcc
  rw [add_node_root]
  cases p with
  | some pid =>
    simp only [reduceCtorEq, and_false, if_false, Nat.add_zero]
  | none =>
    rw [cnt_append, cnt_cons, cnt_nil]
    simp only [and_true]
    by_cases hx : x = t.next_id
    · rw [if_pos hx, if_pos hx.symm]
    · rw [if_neg hx, if_neg (fun he => hx he.symm)]

theorem add_shape {t : Tree} (c : String) (p : Option Nat)
    (hnd : (t.nodes.map Node.id).Nodup) :
    ∀ n ∈ (add_node t c p).1.nodes, n = fresh_node t c p ∨
      ∃ n₀ ∈ t.nodes, n.id = n₀.id ∧ n.parent = n₀.parent ∧
        (n.children = n₀.children ∨ (p = some n.id ∧ n.children = n₀.children ++ [t.next_id])) := by
  intro n hn
  rw [add_node_nodes] at hn
  rcases List.mem_append.mp hn with hn | hn
  · right
    cases p with
    | some pid =>
      simp only at hn
      by_cases hnp : n.id = pid
      · rcases mem_modify_wc_self _ hnd hn hnp with ⟨rec, h1, h2⟩
        · rcases findNode_some h1 with ⟨hrec, hrid⟩
          exact ⟨rec, hrec, by rw [h2]; rfl, by rw [h2]; rfl,
            Or.inr ⟨by rw [hnp], by rw [h2]; rfl⟩⟩
      · exact ⟨n, mem_modify_wc_ne _ hn hnp, rfl, rfl, Or.inl rfl⟩
    | none =>
      exact ⟨n, hn, rfl, rfl, Or.inl rfl⟩
  · left
    rw [List.mem_singleton] at hn
    exact hn

theorem live_lt {t : Tree} (hw : WFcore t) {q : Nat} (h : live t q = true) :
    q < t.next_id := by
  rcases live_get h with ⟨qn, _, hmem, hid⟩
  have := hw.bounded qn hmem
  omega

theorem add_measure_old (t : Tree) (m : Nat → Nat) (p : Option Nat) {j : Nat}
    (h : j ≠ t.next_id) : add_measure t m p j = m j := if_neg h

theorem add_measure_new (t : Tree) (m : Nat → Nat) {pid : Nat} :
    add_measure t m (some pid) t.next_id = m pid + 1 := if_pos rfl

theorem wf_add {t : Tree} {m : Nat → Nat} (hw : WFcore t) (hm : Measured t m)
    (c : String) (p : Option Nat) (hp : ∀ pid, p = some pid → live t pid = true) :
    WFcore (add_node t c p).1 ∧ Measured (add_node t c p).1 (add_measure t m p) := by
  have shape := add_shape c p hw.nodup
  have hnext := add_node_next t c p
  constructor
  · constructor
    · rw [add_node_ids]
      refine hw.nodup.append (List.nodup_singleton _) ?_
      intro a ha hb
      rw [List.mem_singleton] at hb
      rcases List.mem_map.mp ha with ⟨n₀, hn₀, hid⟩
      have := hw.bounded n₀ hn₀
      omega
    · intro n hn
      rw [hnext]
      rcases shape n hn with h | ⟨n₀, hn₀, hid, _, _⟩
      · rw [h]; exact Nat.lt_succ_self _
      · have := hw.bounded n₀ hn₀
        omega
    · intro n hn q hq
      rcases shape n hn with h | ⟨n₀, hn₀, _, hpar, _⟩
      · rw [h] at hq
        exact (add_live c p q).mpr (Or.inl (hp q hq))
      · exact (add_live c p q).mpr
          (Or.inl (hw.parents_live n₀ hn₀ q (by rw [← hpar]; exact hq)))
    · intro i hi
      rw [add_node_root] at hi
      cases p with
      | some pid =>
        exact (add_live c _ i).mpr (Or.inl (hw.roots_live i hi))
      | none =>
        rcases List.mem_append.mp hi with hi | hi
        · exact (add_live c _ i).mpr (Or.inl (hw.roots_live i hi))
        · rw [List.mem_singleton] at hi
          exact (add_live c _ i).mpr (Or.inr hi)
    · intro n hn c' hc'
      rcases shape n hn with h | ⟨n₀, hn₀, _, _, hch⟩
      · rw [h] at hc'
        exact absurd hc' (List.not_mem_nil c')
      · rcases hch with hch | ⟨_, hch⟩
        · rw [hch] at hc'
          exact (add_live c p c').mpr (Or.inl (hw.children_live n₀ hn₀ c' hc'))
        · rw [hch] at hc'
          rcases List.mem_append.mp hc' with hc' | hc'
          · exact (add_live c p c').mpr (Or.inl (hw.children_live n₀ hn₀ c' hc'))
          · rw [List.mem_singleton] at hc'
            exact (add_live c p c').mpr (Or.inr hc')
    · intro n hn hpn
      rcases shape n hn with h | ⟨n₀, hn₀, hid, hpar, _⟩
      · have hpnone : p = none := by rw [h] at hpn; exact hpn
        have hid' : n.id = t.next_id := by rw [h]; rfl
        subst hpnone
        rw [hid', add_rootOcc, add_childOcc c none (by intro pid h0; cases h0)]
        rw [fresh_rootOcc hw (Nat.le_refl _), fresh_childOcc hw (Nat.le_refl _)]
        simp only [and_true, if_pos rfl]
        constructor
        · rfl
        · simp
      · have hne : n.id ≠ t.next_id := by
          have := hw.bounded n₀ hn₀
          omega
        have h0 := hw.placed_root n₀ hn₀ (by rw [← hpar]; exact hpn)
        rw [add_rootOcc, add_childOcc c p hp]
        rw [if_neg (fun hh => hne hh.1), if_neg (fun hh => hne hh.1), hid]
        exact ⟨by rw [h0.1], by rw [h0.2]⟩
    · intro n hn q hq
      rcases shape n hn with h | ⟨n₀, hn₀, hid, hpar, _⟩
      · have hpq : p = some q := by rw [h] at hq; exact hq
        have hid' : n.id = t.next_id := by rw [h]; rfl
        have hqlive := hp q hpq
        rw [hid', add_rootOcc, add_childOcc c p hp]
        rw [fresh_rootOcc hw (Nat.le_refl _), fresh_childOcc hw (Nat.le_refl _)]
        rw [if_neg (fun hh => by rw [hpq] at hh; exact Option.noConfusion hh.2)]
        rw [if_pos ⟨rfl, by rw [hpq]; rfl⟩]
        refine ⟨rfl, rfl, ?_⟩
        intro pn' hpn'
        rw [hpq] at hpn'
        rw [add_get_parent hw c hqlive] at hpn'
        rcases live_get hqlive with ⟨qn, hqget, _, _⟩
        rw [hqget] at hpn'
        have hpn2 : pn' = with_children (fun ch => ch ++ [t.next_id]) qn :=
          (Option.some_injective _ hpn').symm
        rw [hpn2, wc_children, List.mem_append, List.mem_singleton]
        exact Or.inr rfl
      · have hne : n.id ≠ t.next_id := by
          have := hw.bounded n₀ hn₀
          omega
        have hq0 : n₀.parent = some q := by rw [← hpar]; exact hq
        have h0 := hw.placed_child n₀ hn₀ q hq0
        have hqlive := hw.parents_live n₀ hn₀ q hq0
        have hqlt := live_lt hw hqlive
        rcases live_get hqlive with ⟨qn, hqget, hqmem, hqid⟩
        rw [add_rootOcc, add_childOcc c p hp]
        rw [if_neg (fun hh => hne hh.1), if_neg (fun hh => hne hh.1), hid]
        refine ⟨by rw [h0.1], by rw [h0.2.1], ?_⟩
        intro pn' hpn'
        have hmem0 : n₀.id ∈ qn.children := h0.2.2 qn hqget
        cases p with
        | some pid =>
          by_cases hqp : q = pid
          · subst hqp
            rw [add_get_parent hw c hqlive, hqget] at hpn'
            have hpn2 : pn' = with_children (fun ch => ch ++ [t.next_id]) qn :=
              (Option.some_injective _ hpn').symm
            rw [hpn2, wc_children, List.mem_append]
            exact Or.inl hmem0
          · rw [add_get_old c _ (fun hh => by omega) (fun pid2 hh2 =>
              by rw [Option.some_injective _ hh2] at hqp; exact hqp), hqget] at hpn'
            have hpn2 : pn' = qn := (Option.some_injective _ hpn').symm
            rw [hpn2]
            exact hmem0
        | none =>
          rw [add_get_old c _ (fun hh => by omega) (fun pid2 hh2 => by cases hh2),
            hqget] at hpn'
          have hpn2 : pn' = qn := (Option.some_injective _ hpn').symm
          rw [hpn2]
          exact hmem0
  · intro n hn q hq
    rcases shape n hn with h | ⟨n₀, hn₀, hid, hpar, _⟩
    · have hpq : p = some q := by rw [h] at hq; exact hq
      have hid' : n.id = t.next_id := by rw [h]; rfl
      have hqlt := live_lt hw (hp q hpq)
      rw [hid', hpq, add_measure_new, add_measure_old t m _ (by omega)]
      exact Nat.lt_succ_self _
    · have hne : n.id ≠ t.next_id := by
        have := hw.bounded n₀ hn₀
        omega
      have hq0 : n₀.parent = some q := by rw [← hpar]; exact hq
      have hqlt := live_lt hw (hw.parents_live n₀ hn₀ q hq0)
      rw [add_measure_old t m p (by omega), add_measure_old t m p hne, hid]
      exact hm n₀ hn₀ q hq0

/-! ### Re-linking a node under a new parent: the common core of
`indent_node`, `outdent_node` and `move_node` -/

theorem modify_node_comm {l : List Node} {i j : Nat} (hne : i ≠ j)
    {f g : Node → Node} (hf : ∀ n, (f n).id = n.id) (hg : ∀ n, (g n).id = n.id) :
    modify_node (modify_node l i f) j g = modify_node (modify_node l j g) i f := by
  induction l with
  | nil => rfl
  | cons a l ih =>
    by_cases hai : a.id = i
    · rw [modify_node, if_pos hai, modify_node, if_neg (by rw [hf]; rw [hai]; exact hne),
        modify_node, if_neg (by rw [hai]; exact hne), modify_node, if_pos hai]
    · by_cases haj : a.id = j
      · rw [modify_node, if_neg hai, modify_node, if_pos haj, modify_node, if_pos haj,
          modify_node, if_neg (by rw [hg]; exact hai)]
      · rw [modify_node, if_neg hai, modify_node, if_neg haj, modify_node, if_neg haj,
          modify_node, if_neg hai, ih]

theorem findNode_detach (l : List Node) (p : Option Nat) (i x : Nat) :
    findNode (detach_nodes l p i) x =
      (match p with
      | some pid =>
          if x = pid
          then (findNode l x).map (with_children (fun ch => ch.filter (fun c => c != i)))
          else findNode l x
      | none => findNode l x) := by
  cases p with
  | none => rfl
  | some pid =>
    simp only
    by_cases hx : x = pid
    · subst hx
      rw [if_pos rfl]
      exact findNode_modify_self_wc _
    · rw [if_neg hx]
      exact findNode_modify_wc _ hx

theorem childOccL_modify_wp (l : List Node) (i : Nat) (p : Option Nat) (x : Nat) :
    childOccL (modify_node l i (with_parent p)) x = childOccL l x := by
  cases hf : findNode l i with
  | none => rw [modify_node_of_none _ hf]
  | some rec =>
    have h := childOccL_modify (f := with_parent p) hf x
    rw [wp_children] at h
    omega

theorem childOcc_detach {t : Tree} (hw : WFcore t) {i : Nat} {node : Node}
    (hget : get_node t i = some node) (x : Nat) :
    childOccL (detach_nodes t.nodes node.parent i) x
      + (if x = i ∧ node.parent.isSome then 1 else 0) = childOcc t x := by
  cases hp : node.parent with
  | none =>
    simp only [detach_nodes, Option.isSome_none, Bool.false_eq_true, and_false, if_false,
      Nat.add_zero]
    rfl
  | some pid =>
    have hplive : live t pid = true :=
      hw.parents_live node (get_node_mem hget).1 pid hp
    rcases live_get hplive with ⟨pn, hpget, _, _⟩
    have hpn2 : findNode t.nodes pid = some pn := hpget
    have h := childOccL_modify
      (f := with_children (fun ch => ch.filter (fun c => c != i))) hpn2 x
    rw [wc_children, cnt_filter_ne] at h
    simp only [detach_nodes, Option.isSome_some, and_true]
    by_cases hx : x = i
    · subst hx
      rw [if_pos rfl] at h ⊢
      have hone : cnt pn.children x = 1 := cnt_children_parent hw hget hp hpget
      unfold childOcc
      omega
    · rw [if_neg hx] at h ⊢
      unfold childOcc
      omega

theorem relink_parent_ids (t : Tree) (node : Node) (i q : Nat) (g : List Nat → List Nat) :
    (relink_parent t node i q g).nodes.map Node.id = t.nodes.map Node.id := by
  unfold relink_parent
  rw [tree_nodes_mk, map_id_modify_wp, map_id_modify_wc, detach_map_id]

theorem relink_root_ids (t : Tree) (node : Node) (i : Nat) (h : List Nat → List Nat) :
    (relink_root t node i h).nodes.map Node.id = t.nodes.map Node.id := by
  unfold relink_root
  rw [tree_nodes_mk, map_id_modify_wp, detach_map_id]

theorem relink_parent_get {t : Tree} {m : Nat → Nat} (hm : Measured t m)
    {i : Nat} {node : Node} (hget : get_node t i = some node)
    {q : Nat} (hqi : q ≠ i) (g : List Nat → List Nat) (x : Nat) :
    get_node (relink_parent t node i q g) x =
      (if x = i then some (with_parent (some q) node)
      else if x = q
      then (findNode (detach_nodes t.nodes node.parent i) q).map (with_children g)
      else findNode (detach_nodes t.nodes node.parent i) x) := by
  show findNode _ x = _
  unfold relink_parent
  rw [tree_nodes_mk]
  by_cases hxi : x = i
  · subst hxi
    rw [if_pos rfl, findNode_modify_self_wp, findNode_modify_wc _ hqi.symm]
    have hDi : findNode (detach_nodes t.nodes node.parent x) x = some node := by
      rw [findNode_detach]
      cases hp : node.parent with
      | none => exact hget
      | some pid =>
        have hne : x ≠ pid :=
          fun he => (parent_ne_self hm (get_node_mem hget).1 hp)
            (by rw [← he, (get_node_mem hget).2])
        dsimp only
        rw [if_neg hne]
        exact hget
    rw [hDi]
    rfl
  · rw [if_neg hxi, findNode_modify_wp _ hxi]
    by_cases hxq : x = q
    · subst hxq
      rw [if_pos rfl, findNode_modify_self_wc]
    · rw [if_neg hxq, findNode_modify_wc _ hxq]

theorem relink_root_get {t : Tree} {m : Nat → Nat} (hm : Measured t m)
    {i : Nat} {node : Node} (hget : get_node t i = some node)
    (h : List Nat → List Nat) (x : Nat) :
    get_node (relink_root t node i h) x =
      (if x = i then some (with_parent none node)
      else findNode (detach_nodes t.nodes node.parent i) x) := by
  show findNode _ x = _
  unfold relink_root
  rw [tree_nodes_mk]
  by_cases hxi : x = i
  · subst hxi
    rw [if_pos rfl, findNode_modify_self_wp]
    have hDi : findNode (detach_nodes t.nodes node.parent x) x = some node := by
      rw [findNode_detach]
      cases hp : node.parent with
      | none => exact hget
      | some pid =>
        have hne : x ≠ pid :=
          fun he => (parent_ne_self hm (get_node_mem hget).1 hp)
            (by rw [← he, (get_node_mem hget).2])
        dsimp only
        rw [if_neg hne]
        exact hget
    rw [hDi]
    rfl
  · rw [if_neg hxi, findNode_modify_wp _ hxi]

theorem wf_relink_parent {t : Tree} {m : Nat → Nat} (hw : WFcore t) (hm : Measured t m)
    {i : Nat} {node : Node} (hget : get_node t i = some node)
    {q : Nat} (hq : live t q = true) (hqi : q ≠ i) (hqsub : q ∉ subtree t i)
    (g : List Nat → List Nat)
    (hgi : ∀ ch, cnt (g ch) i = cnt ch i + 1)
    (hgx : ∀ ch y, y ≠ i → cnt (g ch) y = cnt ch y) :
    WFcore (relink_parent t node i q g) ∧
      Measured (relink_parent t node i q g)
        (fun j => if j ∈ subtree t i then m j + m q + 1 else m j) := by
  have hid : node.id = i := (get_node_mem hget).2
  have hmem : node ∈ t.nodes := (get_node_mem hget).1
  have hlivei : live t i = true := live_of_get hget
  rcases live_get hq with ⟨qn, hqget, hqmem, hqid⟩
  obtain ⟨qd, hqd, hqdid, hqdpar, hqdcnt⟩ :
      ∃ qd, findNode (detach_nodes t.nodes node.parent i) q = some qd ∧
        qd.id = q ∧ qd.parent = qn.parent ∧
        ∀ y, y ≠ i → cnt qd.children y = cnt qn.children y := by
    rw [findNode_detach]
    cases hp : node.parent with
    | none => exact ⟨qn, hqget, hqid, rfl, fun y _ => rfl⟩
    | some pid =>
      dsimp only
      by_cases hqp : q = pid
      · rw [if_pos hqp]
        have hq2 : findNode t.nodes q = some qn := hqget
        rw [hq2]
        refine ⟨_, rfl, hqid, rfl, ?_⟩
        intro y hy
        rw [wc_children, cnt_filter_ne, if_neg hy]
      · rw [if_neg hqp]
        exact ⟨qn, hqget, hqid, rfl, fun y _ => rfl⟩
  have hids := relink_parent_ids t node i q g
  have hrnd : ((relink_parent t node i q g).nodes.map Node.id).Nodup := by
    rw [hids]; exact hw.nodup
  have hliveiff : ∀ x, live (relink_parent t node i q g) x = true ↔ live t x = true := by
    intro x
    rw [live_iff_mem_map, live_iff_mem_map, hids]
  have hrget := relink_parent_get hm hget hqi g
  have hrroot : (relink_parent t node i q g).root_nodes =
      (match node.parent with
        | some _ => t.root_nodes
        | none => t.root_nodes.filter (fun r => r != i)) := rfl
  have hchild : ∀ x, childOcc (relink_parent t node i q g) x
      = childOccL (detach_nodes t.nodes node.parent i) x + (if x = i then 1 else 0) := by
    intro x
    unfold childOcc relink_parent
    rw [tree_nodes_mk, childOccL_modify_wp]
    have h := childOccL_modify (f := with_children g) hqd x
    rw [wc_children] at h
    by_cases hx : x = i
    · subst hx
      rw [if_pos rfl]
      have := hgi qd.children
      omega
    · rw [if_neg hx]
      have := hgx qd.children x hx
      omega
  have hdet := childOcc_detach hw hget
  have hrootx : ∀ x, x ≠ i → rootOcc (relink_parent t node i q g) x = rootOcc t x := by
    intro x hx
    unfold rootOcc
    rw [hrroot]
    cases node.parent with
    | some _ => rfl
    | none =>
      dsimp only
      rw [cnt_filter_ne, if_neg hx]
  have hocc : childOcc t i = (if node.parent.isSome then 1 else 0) := by
    cases hp : node.parent with
    | some pid =>
      simp only [Option.isSome_some, if_pos]
      exact hid ▸ (hw.placed_child node hmem pid hp).2.1
    | none =>
      simp only [Option.isSome_none, Bool.false_eq_true, if_false]
      exact hid ▸ (hw.placed_root node hmem hp).2
  have hchildi : childOcc (relink_parent t node i q g) i = 1 := by
    have h1 := hchild i
    have h2 := hdet i
    rw [if_pos rfl] at h1
    simp only [true_and] at h2
    cases hs : node.parent.isSome with
    | true => rw [hs] at h2; simp only [if_pos] at h2; rw [hs] at hocc; simp only [if_pos] at hocc; omega
    | false => rw [hs] at h2; simp only [Bool.false_eq_true, if_false] at h2; rw [hs] at hocc; simp only [Bool.false_eq_true, if_false] at hocc; omega
  have hchildx : ∀ x, x ≠ i → childOcc (relink_parent t node i q g) x = childOcc t x := by
    intro x hx
    have h1 := hchild x
    have h2 := hdet x
    rw [if_neg hx] at h1
    rw [if_neg (fun hh => hx hh.1)] at h2
    omega
  have hrooti : rootOcc (relink_parent t node i q g) i = 0 := by
    unfold rootOcc
    rw [hrroot]
    cases hp : node.parent with
    | some pid =>
      dsimp only
      exact hid ▸ (hw.placed_child node hmem pid hp).1
    | none =>
      dsimp only
      rw [cnt_filter_ne, if_pos rfl]
  have hclose : ∀ w x, w ∈ subtree t i → ∀ wn, get_node t w = some wn →
      x ∈ wn.children → x ∈ subtree t i := by
    intro w x hwmem wn hwget hx
    exact children_subset_subtree_go hw hm t.nodes.length i (rankGE_le_length t m i)
      w wn x hwmem hwget hx
  have htrans : ∀ (x w : Nat), x ≠ i →
      (∀ pn0, get_node t w = some pn0 → x ∈ pn0.children) →
      ∀ pn', get_node (relink_parent t node i q g) w = some pn' → x ∈ pn'.children := by
    intro x w hxne hold pn' hpn'
    rw [hrget w] at hpn'
    by_cases hwi : w = i
    · subst hwi
      rw [if_pos rfl] at hpn'
      have hpn2 : pn' = with_parent (some q) node := (Option.some_injective _ hpn').symm
      rw [hpn2, wp_children]
      exact hold node hget
    · rw [if_neg hwi] at hpn'
      by_cases hwq : w = q
      · subst hwq
        rw [if_pos rfl, hqd] at hpn'
        have hpn2 : pn' = with_children g qd := (Option.some_injective _ hpn').symm
        rw [hpn2, wc_children, ← cnt_pos_iff_mem, hgx qd.children x hxne,
          hqdcnt x hxne, cnt_pos_iff_mem]
        exact hold qn hqget
      · rw [if_neg hwq, findNode_detach] at hpn'
        cases hp : node.parent with
        | none =>
          simp only [hp] at hpn'
          exact hold pn' hpn'
        | some pid =>
          simp only [hp] at hpn'
          by_cases hwp : w = pid
          · rw [if_pos hwp] at hpn'
            cases hf : findNode t.nodes w with
            | none => rw [hf] at hpn'; simp at hpn'
            | some pn0 =>
              rw [hf] at hpn'
              have hpn2 : pn' = with_children (fun ch => ch.filter (fun c => c != i)) pn0 :=
                (Option.some_injective _ hpn').symm
              rw [hpn2, wc_children, List.mem_filter]
              refine ⟨hold pn0 hf, ?_⟩
              simpa using hxne
          · rw [if_neg hwp] at hpn'
            exact hold pn' hpn'
  have shape : ∀ n ∈ (relink_parent t node i q g).nodes,
      n = with_parent (some q) node ∨
      (n.id ≠ i ∧ n = with_children g qd) ∨
      (n.id ≠ i ∧ n.id ≠ q ∧ ∃ n₀ ∈ t.nodes, n.id = n₀.id ∧ n.parent = n₀.parent ∧
        (n.children = n₀.children ∨ n.children = n₀.children.filter (fun c => c != i))) := by
    intro n hn
    have hfind : get_node (relink_parent t node i q g) n.id = some n :=
      findNode_of_nodup hrnd hn rfl
    rw [hrget n.id] at hfind
    by_cases hni : n.id = i
    · rw [if_pos hni] at hfind
      exact Or.inl (Option.some_injective _ hfind).symm
    · rw [if_neg hni] at hfind
      by_cases hnq : n.id = q
      · rw [if_pos hnq, hqd] at hfind
        exact Or.inr (Or.inl ⟨hni, (Option.some_injective _ hfind).symm⟩)
      · rw [if_neg hnq, findNode_detach] at hfind
        refine Or.inr (Or.inr ⟨hni, hnq, ?_⟩)
        cases hp : node.parent with
        | none =>
          simp only [hp] at hfind
          rcases findNode_some hfind with ⟨hmem0, _⟩
          exact ⟨n, hmem0, rfl, rfl, Or.inl rfl⟩
        | some pid =>
          simp only [hp] at hfind
          by_cases hnp : n.id = pid
          · rw [if_pos hnp] at hfind
            cases hf : findNode t.nodes n.id with
            | none => rw [hf] at hfind; simp at hfind
            | some n₀ =>
              rw [hf] at hfind
              have h2 : n = with_children (fun ch => ch.filter (fun c => c != i)) n₀ :=
                (Option.some_injective _ hfind).symm
              rcases findNode_some hf with ⟨hm0, _⟩
              exact ⟨n₀, hm0, by rw [h2]; rfl, by rw [h2]; rfl, Or.inr (by rw [h2]; rfl)⟩
          · rw [if_neg hnp] at hfind
            rcases findNode_some hfind with ⟨hmem0, _⟩
            exact ⟨n, hmem0, rfl, rfl, Or.inl rfl⟩
  constructor
  · constructor
    · exact hrnd
    · intro n hn
      have h1 : n.id ∈ (relink_parent t node i q g).nodes.map Node.id :=
        List.mem_map_of_mem Node.id hn
      rw [hids] at h1
      rcases List.mem_map.mp h1 with ⟨n₀, hn₀, hid0⟩
      have := hw.bounded n₀ hn₀
      show n.id < t.next_id
      omega
    · intro n hn w hw'
      rcases shape n hn with h | ⟨_, h⟩ | ⟨_, _, n₀, hn₀, _, hpar, _⟩
      · rw [h, wp_parent] at hw'
        have hwq : w = q := (Option.some_injective _ hw'.symm)
        rw [hwq]
        exact (hliveiff q).mpr hq
      · rw [h, wc_parent, hqdpar] at hw'
        exact (hliveiff w).mpr (hw.parents_live qn hqmem w hw')
      · rw [hpar] at hw'
        exact (hliveiff w).mpr (hw.parents_live n₀ hn₀ w hw')
    · intro j hj
      rw [hrroot] at hj
      cases hp : node.parent with
      | some pid =>
        rw [hp] at hj
        exact (hliveiff j).mpr (hw.roots_live j hj)
      | none =>
        rw [hp] at hj
        exact (hliveiff j).mpr (hw.roots_live j (List.mem_of_mem_filter hj))
    · intro n hn c hc
      rcases shape n hn with h | ⟨_, h⟩ | ⟨_, _, n₀, hn₀, _, _, hch⟩
      · rw [h, wp_children] at hc
        exact (hliveiff c).mpr (hw.children_live node hmem c hc)
      · rw [h, wc_children] at hc
        by_cases hci : c = i
        · rw [hci]
          exact (hliveiff i).mpr hlivei
        · rw [← cnt_pos_iff_mem, hgx qd.children c hci, hqdcnt c hci,
            cnt_pos_iff_mem] at hc
          exact (hliveiff c).mpr (hw.children_live qn hqmem c hc)
      · rcases hch with hch | hch
        · rw [hch] at hc
          exact (hliveiff c).mpr (hw.children_live n₀ hn₀ c hc)
        · rw [hch] at hc
          exact (hliveiff c).mpr (hw.children_live n₀ hn₀ c (List.mem_of_mem_filter hc))
    · intro n hn hpn
      rcases shape n hn with h | ⟨hne, h⟩ | ⟨hne, _, n₀, hn₀, hid0, hpar, _⟩
      · rw [h, wp_parent] at hpn
        exact Option.noConfusion hpn
      · have hnid : n.id = q := by rw [h]; exact hqdid
        rw [h, wc_parent, hqdpar] at hpn
        have h0 := hw.placed_root qn hqmem hpn
        rw [hnid, hrootx q hqi, hchildx q hqi]
        exact ⟨by rw [← hqid]; exact h0.1, by rw [← hqid]; exact h0.2⟩
      · rw [hpar] at hpn
        have h0 := hw.placed_root n₀ hn₀ hpn
        rw [hrootx n.id hne, hchildx n.id hne, hid0]
        exact h0
    · intro n hn w hw'
      rcases shape n hn with h | ⟨hne, h⟩ | ⟨hne, _, n₀, hn₀, hid0, hpar, _⟩
      · have hnid : n.id = i := by rw [h, wp_id]; exact hid
        rw [h, wp_parent] at hw'
        have hwq : w = q := (Option.some_injective _ hw'.symm)
        rw [hnid, hrooti, hchildi]
        refine ⟨rfl, rfl, ?_⟩
        intro pn' hpn'
        rw [hwq, hrget q, if_neg hqi, if_pos rfl, hqd] at hpn'
        have hpn2 : pn' = with_children g qd := (Option.some_injective _ hpn').symm
        rw [hpn2, wc_children, ← cnt_pos_iff_mem, hgi qd.children]
        omega
      · have hnid : n.id = q := by rw [h]; exact hqdid
        rw [h, wc_parent, hqdpar] at hw'
        have h0 := hw.placed_child qn hqmem w hw'
        rw [hnid, hrootx q hqi, hchildx q hqi]
        refine ⟨by rw [← hqid]; exact h0.1,
          by rw [← hqid]; exact h0.2.1, ?_⟩
        intro pn' hpn'
        have hqmemw : ∀ pn0, get_node t w = some pn0 → q ∈ pn0.children := by
          intro pn0 hpn0
          have := h0.2.2 pn0 hpn0
          rw [hqid] at this
          exact this
        exact htrans q w hqi hqmemw pn' hpn'
      · rw [hpar] at hw'
        have h0 := hw.placed_child n₀ hn₀ w hw'
        rw [hrootx n.id hne, hchildx n.id hne, hid0]
        refine ⟨h0.1, h0.2.1, ?_⟩
        intro pn' hpn'
        exact htrans n₀.id w (by rw [← hid0]; exact hne)
          (fun pn0 hpn0 => h0.2.2 pn0 hpn0) pn' hpn'
  · intro n hn w hw'
    rcases shape n hn with h | ⟨hne, h⟩ | ⟨hne, _, n₀, hn₀, hid0, hpar, _⟩
    · have hnid : n.id = i := by rw [h, wp_id]; exact hid
      rw [h, wp_parent] at hw'
      have hwq : w = q := (Option.some_injective _ hw'.symm)
      rw [hnid, hwq]
      simp only [if_neg hqsub, if_pos (mem_subtree_self hlivei)]
      omega
    · have hnid : n.id = q := by rw [h]; exact hqdid
      rw [h, wc_parent, hqdpar] at hw'
      have hlt : m w < m q := by
        have := hm qn hqmem w hw'
        rw [hqid] at this
        exact this
      have hwlive : live t w = true := hw.parents_live qn hqmem w hw'
      rcases live_get hwlive with ⟨wn, hwget, _, _⟩
      have hwsub : w ∉ subtree t i := by
        intro hmem2
        apply hqsub
        refine hclose w q hmem2 wn hwget ?_
        have h0 := hw.placed_child qn hqmem w hw'
        have := h0.2.2 wn hwget
        rw [hqid] at this
        exact this
      rw [hnid]
      simp only [if_neg hqsub, if_neg hwsub]
      exact hlt
    · rw [hpar] at hw'
      have hlt : m w < m n.id := by
        have := hm n₀ hn₀ w hw'
        rw [← hid0] at this
        exact this
      have hwlive : live t w = true := hw.parents_live n₀ hn₀ w hw'
      rcases live_get hwlive with ⟨wn, hwget, _, _⟩
      have hget0 : get_node t n.id = some n₀ := by
        rw [hid0]
        exact get_node_of_mem hw hn₀
      by_cases hx : n.id ∈ subtree t i
      · have hpx := parented_of_mem_subtree hw hm hx hne
        rcases hpx with ⟨xn, w2, hxget, hxpar, hw2sub⟩
        have hxn : xn = n₀ := by
          rw [hget0] at hxget
          exact Option.some_injective _ hxget.symm
        have hw2 : w2 = w := by
          rw [hxn, hw'] at hxpar
          exact (Option.some_injective _ hxpar).symm
        rw [hw2] at hw2sub
        simp only [if_pos hx, if_pos hw2sub]
        omega
      · have hwsub : w ∉ subtree t i := by
          intro hmem2
          apply hx
          refine hclose w n.id hmem2 wn hwget ?_
          have h0 := hw.placed_child n₀ hn₀ w hw'
          have := h0.2.2 wn hwget
          rw [← hid0] at this
          exact this
        simp only [if_neg hx, if_neg hwsub]
        exact hlt

theorem wf_relink_root {t : Tree} {m : Nat → Nat} (hw : WFcore t) (hm : Measured t m)
    {i : Nat} {node : Node} (hget : get_node t i = some node)
    (h : List Nat → List Nat)
    (hhi : ∀ l, cnt (h l) i = cnt l i + 1)
    (hhx : ∀ l y, y ≠ i → cnt (h l) y = cnt l y) :
    WFcore (relink_root t node i h) ∧ Measured (relink_root t node i h) m := by
  have hid : node.id = i := (get_node_mem hget).2
  have hmem : node ∈ t.nodes := (get_node_mem hget).1
  have hlivei : live t i = true := live_of_get hget
  have hids := relink_root_ids t node i h
  have hrnd : ((relink_root t node i h).nodes.map Node.id).Nodup := by
    rw [hids]; exact hw.nodup
  have hliveiff : ∀ x, live (relink_root t node i h) x = true ↔ live t x = true := by
    intro x
    rw [live_iff_mem_map, live_iff_mem_map, hids]
  have hrget := relink_root_get hm hget h
  have hrroot : (relink_root t node i h).root_nodes =
      h (match node.parent with
        | some _ => t.root_nodes
        | none => t.root_nodes.filter (fun r => r != i)) := rfl
  have hchild : ∀ x, childOcc (relink_root t node i h) x
      = childOccL (detach_nodes t.nodes node.parent i) x := by
    intro x
    unfold childOcc relink_root
    rw [tree_nodes_mk, childOccL_modify_wp]
  have hdet := childOcc_detach hw hget
  have hocc : childOcc t i = (if node.parent.isSome then 1 else 0) := by
    cases hp : node.parent with
    | some pid =>
      simp only [Option.isSome_some, if_pos]
      exact hid ▸ (hw.placed_child node hmem pid hp).2.1
    | none =>
      simp only [Option.isSome_none, Bool.false_eq_true, if_false]
      exact hid ▸ (hw.placed_root node hmem hp).2
  have hchildi : childOcc (relink_root t node i h) i = 0 := by
    have h1 := hchild i
    have h2 := hdet i
    simp only [true_and] at h2
    cases hs : node.parent.isSome with
    | true =>
      rw [hs] at h2
      simp only [if_pos] at h2
      rw [hs] at hocc
      simp only [if_pos] at hocc
      omega
    | false =>
      rw [hs] at h2
      simp only [Bool.false_eq_true, if_false] at h2
      rw [hs] at hocc
      simp only [Bool.false_eq_true, if_false] at hocc
      omega
  have hchildx : ∀ x, x ≠ i → childOcc (relink_root t node i h) x = childOcc t x := by
    intro x hx
    have h1 := hchild x
    have h2 := hdet x
    rw [if_neg (fun hh => hx hh.1)] at h2
    omega
  have hrootx : ∀ x, x ≠ i → rootOcc (relink_root t node i h) x = rootOcc t x := by
    intro x hx
    unfold rootOcc
    rw [hrroot, hhx _ x hx]
    cases node.parent with
    | some _ => rfl
    | none =>
      dsimp only
      rw [cnt_filter_ne, if_neg hx]
  have hrooti : rootOcc (relink_root t node i h) i = 1 := by
    unfold rootOcc
    rw [hrroot, hhi]
    cases hp : node.parent with
    | some pid =>
      dsimp only
      have h0 : rootOcc t i = 0 := hid ▸ (hw.placed_child node hmem pid hp).1
      unfold rootOcc at h0
      omega
    | none =>
      dsimp only
      rw [cnt_filter_ne, if_pos rfl]
  have htrans : ∀ (x w : Nat), x ≠ i →
      (∀ pn0, get_node t w = some pn0 → x ∈ pn0.children) →
      ∀ pn', get_node (relink_root t node i h) w = some pn' → x ∈ pn'.children := by
    intro x w hxne hold pn' hpn'
    rw [hrget w] at hpn'
    by_cases hwi : w = i
    · subst hwi
      rw [if_pos rfl] at hpn'
      have hpn2 : pn' = with_parent none node := (Option.some_injective _ hpn').symm
      rw [hpn2, wp_children]
      exact hold node hget
    · rw [if_neg hwi, findNode_detach] at hpn'
      cases hp : node.parent with
      | none =>
        simp only [hp] at hpn'
        exact hold pn' hpn'
      | some pid =>
        simp only [hp] at hpn'
        by_cases hwp : w = pid
        · rw [if_pos hwp] at hpn'
          cases hf : findNode t.nodes w with
          | none => rw [hf] at hpn'; simp at hpn'
          | some pn0 =>
            rw [hf] at hpn'
            have hpn2 : pn' = with_children (fun ch => ch.filter (fun c => c != i)) pn0 :=
              (Option.some_injective _ hpn').symm
            rw [hpn2, wc_children, List.mem_filter]
            refine ⟨hold pn0 hf, ?_⟩
            simpa using hxne
        · rw [if_neg hwp] at hpn'
          exact hold pn' hpn'
  have shape : ∀ n ∈ (relink_root t node i h).nodes,
      n = with_parent none node ∨
      (n.id ≠ i ∧ ∃ n₀ ∈ t.nodes, n.id = n₀.id ∧ n.parent = n₀.parent ∧
        (n.children = n₀.children ∨ n.children = n₀.children.filter (fun c => c != i))) := by
    intro n hn
    have hfind : get_node (relink_root t node i h) n.id = some n :=
      findNode_of_nodup hrnd hn rfl
    rw [hrget n.id] at hfind
    by_cases hni : n.id = i
    · rw [if_pos hni] at hfind
      exact Or.inl (Option.some_injective _ hfind).symm
    · rw [if_neg hni, findNode_detach] at hfind
      refine Or.inr ⟨hni, ?_⟩
      cases hp : node.parent with
      | none =>
        simp only [hp] at hfind
        rcases findNode_some hfind with ⟨hmem0, _⟩
        exact ⟨n, hmem0, rfl, rfl, Or.inl rfl⟩
      | some pid =>
        simp only [hp] at hfind
        by_cases hnp : n.id = pid
        · rw [if_pos hnp] at hfind
          cases hf : findNode t.nodes n.id with
          | none => rw [hf] at hfind; simp at hfind
          | some n₀ =>
            rw [hf] at hfind
            have h2 : n = with_children (fun ch => ch.filter (fun c => c != i)) n₀ :=
              (Option.some_injective _ hfind).symm
            rcases findNode_some hf with ⟨hm0, _⟩
            exact ⟨n₀, hm0, by rw [h2]; rfl, by rw [h2]; rfl, Or.inr (by rw [h2]; rfl)⟩
        · rw [if_neg hnp] at hfind
          rcases findNode_some hfind with ⟨hmem0, _⟩
          exact ⟨n, hmem0, rfl, rfl, Or.inl rfl⟩
  constructor
  · constructor
    · exact hrnd
    · intro n hn
      have h1 : n.id ∈ (relink_root t node i h).nodes.map Node.id :=
        List.mem_map_of_mem Node.id hn
      rw [hids] at h1
      rcases List.mem_map.mp h1 with ⟨n₀, hn₀, hid0⟩
      have := hw.bounded n₀ hn₀
      show n.id < t.next_id
      omega
    · intro n hn w hw'
      rcases shape n hn with hc | ⟨_, n₀, hn₀, _, hpar, _⟩
      · rw [hc, wp_parent] at hw'
        exact Option.noConfusion hw'
      · rw [hpar] at hw'
        exact (hliveiff w).mpr (hw.parents_live n₀ hn₀ w hw')
    · intro j hj
      rw [hrroot] at hj
      by_cases hji : j = i
      · rw [hji]
        exact (hliveiff i).mpr hlivei
      · have hc : 0 < cnt (h (match node.parent with
            | some _ => t.root_nodes
            | none => t.root_nodes.filter (fun r => r != i))) j := cnt_pos_iff_mem.mpr hj
        rw [hhx _ j hji] at hc
        have hjmem := cnt_pos_iff_mem.mp hc
        cases hp : node.parent with
        | some pid =>
          simp only [hp] at hjmem
          exact (hliveiff j).mpr (hw.roots_live j hjmem)
        | none =>
          simp only [hp] at hjmem
          exact (hliveiff j).mpr (hw.roots_live j (List.mem_of_mem_filter hjmem))
    · intro n hn c hc
      rcases shape n hn with hcase | ⟨_, n₀, hn₀, _, _, hch⟩
      · rw [hcase, wp_children] at hc
        exact (hliveiff c).mpr (hw.children_live node hmem c hc)
      · rcases hch with hch | hch
        · rw [hch] at hc
          exact (hliveiff c).mpr (hw.children_live n₀ hn₀ c hc)
        · rw [hch] at hc
          exact (hliveiff c).mpr (hw.children_live n₀ hn₀ c (List.mem_of_mem_filter hc))
    · intro n hn hpn
      rcases shape n hn with hc | ⟨hne, n₀, hn₀, hid0, hpar, _⟩
      · have hnid : n.id = i := by rw [hc, wp_id]; exact hid
        rw [hnid, hrooti, hchildi]
        exact ⟨rfl, rfl⟩
      · rw [hpar] at hpn
        have h0 := hw.placed_root n₀ hn₀ hpn
        rw [hrootx n.id hne, hchildx n.id hne, hid0]
        exact h0
    · intro n hn w hw'
      rcases shape n hn with hc | ⟨hne, n₀, hn₀, hid0, hpar, _⟩
      · rw [hc, wp_parent] at hw'
        exact Option.noConfusion hw'
      · rw [hpar] at hw'
        have h0 := hw.placed_child n₀ hn₀ w hw'
        rw [hrootx n.id hne, hchildx n.id hne, hid0]
        refine ⟨h0.1, h0.2.1, ?_⟩
        intro pn' hpn'
        exact htrans n₀.id w (by rw [← hid0]; exact hne)
          (fun pn0 hpn0 => h0.2.2 pn0 hpn0) pn' hpn'
  · intro n hn w hw'
    rcases shape n hn with hc | ⟨_, n₀, hn₀, hid0, hpar, _⟩
    · rw [hc, wp_parent] at hw'
      exact Option.noConfusion hw'
    · rw [hpar] at hw'
      have := hm n₀ hn₀ w hw'
      rw [← hid0] at this
      exact this

theorem findIdx?_getD {i : Nat} : ∀ (l : List Nat) (s k : Nat),
    List.findIdx? (fun nid => nid == i) l s = some k →
    s ≤ k ∧ k - s < l.length ∧ l.getD (k - s) 0 = i := by
  intro l
  induction l with
  | nil => intro s k h; simp [List.findIdx?] at h
  | cons a l ih =>
    intro s k h
    rw [List.findIdx?_cons] at h
    by_cases ha : a = i
    · rw [if_pos (by simp [ha])] at h
      have hk : k = s := (Option.some_injective _ h).symm
      subst hk
      simp [ha]
    · rw [if_neg (by simp [ha])] at h
      rcases ih (s + 1) k h with ⟨h1, h2, h3⟩
      refine ⟨by omega, by simp; omega, ?_⟩
      obtain ⟨d, hd1, hd2⟩ : ∃ d, k - s = d + 1 ∧ d = k - (s + 1) :=
        ⟨k - (s + 1), by omega, rfl⟩
      rw [hd1, List.getD_cons_succ, hd2]
      exact h3

theorem findIdx?_spec {l : List Nat} {i pos : Nat}
    (h : List.findIdx? (fun nid => nid == i) l = some pos) :
    pos < l.length ∧ l.getD pos 0 = i := by
  rcases findIdx?_getD l 0 pos h with ⟨_, h2, h3⟩
  rw [Nat.sub_zero] at h2 h3
  exact ⟨h2, h3⟩

theorem findNode_none_of_ids {l : List Node} {x : Nat} (h : x ∉ l.map Node.id) :
    findNode l x = none :=
  findNode_eq_none.mpr (fun n hn he => h (he ▸ List.mem_map_of_mem Node.id hn))

/-! ### The guarded operations as instances of re-linking -/

theorem outdent_dead {t : Tree} {i : Nat} (h : get_node t i = none) :
    outdent_node t i = t := by
  unfold outdent_node
  rw [h]

theorem outdent_noparent {t : Tree} {i : Nat} {node : Node}
    (hget : get_node t i = some node) (hpar : node.parent = none) :
    outdent_node t i = t := by
  unfold outdent_node
  simp only [hget, hpar]

theorem outdent_eq_gp {t : Tree} {i : Nat} {node : Node}
    (hget : get_node t i = some node) {pid : Nat} (hpar : node.parent = some pid)
    {gp : Nat} (hgp : (get_node t pid).bind (fun p => p.parent) = some gp) :
    outdent_node t i = relink_parent t node i gp (fun ch => ch ++ [i]) := by
  unfold outdent_node relink_parent detach_nodes
  simp only [hget, hpar, hgp]

theorem outdent_eq_root {t : Tree} {i : Nat} {node : Node}
    (hget : get_node t i = some node) {pid : Nat} (hpar : node.parent = some pid)
    (hgp : (get_node t pid).bind (fun p => p.parent) = none) :
    outdent_node t i = relink_root t node i (fun l => l ++ [i]) := by
  unfold outdent_node relink_root detach_nodes
  simp only [hget, hpar, hgp]

theorem indent_dead {t : Tree} {i : Nat} (h : get_node t i = none) :
    indent_node t i = t := by
  unfold indent_node
  rw [h]

theorem indent_noparent {t : Tree} {i : Nat} {node : Node}
    (hget : get_node t i = some node) (hpar : node.parent = none) :
    indent_node t i = t := by
  unfold indent_node
  simp only [hget, hpar]

theorem indent_deadparent {t : Tree} {i : Nat} {node : Node}
    (hget : get_node t i = some node) {pid : Nat} (hpar : node.parent = some pid)
    (hpget : get_node t pid = none) :
    indent_node t i = t := by
  unfold indent_node
  simp only [hget, hpar, hpget]

theorem indent_noidx {t : Tree} {i : Nat} {node : Node}
    (hget : get_node t i = some node) {pid : Nat} (hpar : node.parent = some pid)
    {pn : Node} (hpget : get_node t pid = some pn)
    (hpos : pn.children.findIdx? (fun nid => nid == i) = none) :
    indent_node t i = t := by
  unfold indent_node
  simp only [hget, hpar, hpget, hpos]

theorem indent_first {t : Tree} {i : Nat} {node : Node}
    (hget : get_node t i = some node) {pid : Nat} (hpar : node.parent = some pid)
    {pn : Node} (hpget : get_node t pid = some pn)
    (hpos : pn.children.findIdx? (fun nid => nid == i) = some 0) :
    indent_node t i = t := by
  unfold indent_node
  simp only [hget, hpar, hpget, hpos]
  rw [if_neg (Nat.lt_irrefl 0)]

theorem indent_eq {t : Tree} {i : Nat} {node : Node}
    (hget : get_node t i = some node) {pid : Nat} (hpar : node.parent = some pid)
    {pn : Node} (hpget : get_node t pid = some pn)
    {pos : Nat} (hpos : pn.children.findIdx? (fun nid => nid == i) = some pos)
    (hgt : pos > 0) :
    indent_node t i = relink_parent t node i (pn.children.getD (pos - 1) 0)
      (fun ch => ch ++ [i]) := by
  unfold indent_node relink_parent detach_nodes
  simp only [hget, hpar, hpget, hpos, if_pos hgt]

theorem move_dead {t : Tree} {i : Nat} (h : get_node t i = none)
    (p : Option Nat) (pos : Nat) : move_node t i p pos = t := by
  unfold move_node
  rw [h]

theorem move_eq_parent {t : Tree} {i : Nat} {node : Node}
    (hget : get_node t i = some node) {q : Nat} (hqi : q ≠ i) (position : Nat) :
    move_node t i (some q) position =
      relink_parent t node i q
        (fun ch => insert_at ch (min position ch.length) i) := by
  unfold move_node relink_parent detach_nodes
  simp only [hget]
  cases hp : node.parent with
  | some old =>
    simp only
    rw [modify_node_comm (f := with_parent (some q))
      (g := with_children (fun ch => insert_at ch (min position ch.length) i))
      (fun h => hqi h.symm) (fun n => rfl) (fun n => rfl)]
  | none =>
    simp only
    rw [modify_node_comm (f := with_parent (some q))
      (g := with_children (fun ch => insert_at ch (min position ch.length) i))
      (fun h => hqi h.symm) (fun n => rfl) (fun n => rfl)]

theorem move_eq_root {t : Tree} {i : Nat} {node : Node}
    (hget : get_node t i = some node) (position : Nat) :
    move_node t i none position =
      relink_root t node i (fun l => insert_at l (min position l.length) i) := by
  unfold move_node relink_root detach_nodes
  simp only [hget]
  cases hp : node.parent with
  | some old => simp only
  | none => simp only

theorem move_eq_deadp {t : Tree} {i : Nat} {node : Node}
    (hget : get_node t i = some node) {np : Nat}
    (hnp : np ∉ t.nodes.map Node.id) (position : Nat) :
    move_node t i (some np) position =
      { t with
        nodes := (modify_node (detach_nodes t.nodes node.parent i) i
          (with_parent (some np))),
        root_nodes := (match node.parent with
          | some _ => t.root_nodes
          | none => t.root_nodes.filter (fun r => r != i)) } := by
  have hnone : ∀ l : List Node, l.map Node.id = t.nodes.map Node.id →
      findNode (modify_node l i (with_parent (some np))) np = none := by
    intro l hl
    apply findNode_none_of_ids
    rw [map_id_modify_wp, hl]
    exact hnp
  unfold move_node detach_nodes
  simp only [hget]
  cases hp : node.parent with
  | some old =>
    simp only
    rw [modify_node_of_none _ (hnone _ (by rw [map_id_modify_wc]))]
  | none =>
    simp only
    rw [modify_node_of_none _ (hnone _ rfl)]

theorem cnt_append_self (i : Nat) (l : List Nat) : cnt (l ++ [i]) i = cnt l i + 1 := by
  rw [cnt_append, cnt_cons, cnt_nil, if_pos rfl]

theorem cnt_append_other {i y : Nat} (hy : y ≠ i) (l : List Nat) :
    cnt (l ++ [i]) y = cnt l y := by
  rw [cnt_append, cnt_cons, cnt_nil, if_neg (fun he => hy he.symm)]
  omega

theorem cnt_insert_self (l : List Nat) (p i : Nat) :
    cnt (insert_at l p i) i = cnt l i + 1 := by
  rw [cnt_insert_at, if_pos rfl]

theorem cnt_insert_other {i y : Nat} (hy : y ≠ i) (l : List Nat) (p : Nat) :
    cnt (insert_at l p i) y = cnt l y := by
  rw [cnt_insert_at, if_neg (fun he => hy he.symm)]
  omega

theorem wf_outdent {t : Tree} (hw : WFcore t) {m : Nat → Nat} (hm : Measured t m)
    (i : Nat) :
    WFcore (outdent_node t i) ∧ ∃ m2, Measured (outdent_node t i) m2 := by
  cases hg : get_node t i with
  | none => rw [outdent_dead hg]; exact ⟨hw, m, hm⟩
  | some node =>
    cases hp : node.parent with
    | none => rw [outdent_noparent hg hp]; exact ⟨hw, m, hm⟩
    | some pid =>
      have hplive : live t pid = true := hw.parents_live node (get_node_mem hg).1 pid hp
      rcases live_get hplive with ⟨pn, hpget, hpmem, hpid⟩
      cases hgp : pn.parent with
      | none =>
        have hb : (get_node t pid).bind (fun p => p.parent) = none := by
          rw [hpget, Option.some_bind]
          exact hgp
        rw [outdent_eq_root hg hp hb]
        have h := wf_relink_root hw hm hg (fun l => l ++ [i])
          (fun l => cnt_append_self i l) (fun l y hy => cnt_append_other hy l)
        exact ⟨h.1, m, h.2⟩
      | some gp =>
        have hb : (get_node t pid).bind (fun p => p.parent) = some gp := by
          rw [hpget, Option.some_bind]
          exact hgp
        rw [outdent_eq_gp hg hp hb]
        have hgplive : live t gp = true := hw.parents_live pn hpmem gp hgp
        have hmi : m pid < m i := by
          have := hm node (get_node_mem hg).1 pid hp
          rw [(get_node_mem hg).2] at this
          exact this
        have hmgp : m gp < m pid := by
          have := hm pn hpmem gp hgp
          rw [hpid] at this
          exact this
        have hgps : gp ∉ subtree t i := by
          intro hmem2
          have := measure_le_of_mem_subtree hw hm hmem2
          omega
        have hgpi : gp ≠ i := by
          intro he
          rw [he] at hmgp
          omega
        have h := wf_relink_parent hw hm hg hgplive hgpi hgps (fun ch => ch ++ [i])
          (fun ch => cnt_append_self i ch) (fun ch y hy => cnt_append_other hy ch)
        exact ⟨h.1, _, h.2⟩

theorem wf_indent {t : Tree} (hw : WFcore t) {m : Nat → Nat} (hm : Measured t m)
    (i : Nat) :
    WFcore (indent_node t i) ∧ ∃ m2, Measured (indent_node t i) m2 := by
  cases hg : get_node t i with
  | none => rw [indent_dead hg]; exact ⟨hw, m, hm⟩
  | some node =>
    cases hp : node.parent with
    | none => rw [indent_noparent hg hp]; exact ⟨hw, m, hm⟩
    | some pid =>
      cases hpg : get_node t pid with
      | none => rw [indent_deadparent hg hp hpg]; exact ⟨hw, m, hm⟩
      | some pn =>
        cases hpos : pn.children.findIdx? (fun nid => nid == i) with
        | none => rw [indent_noidx hg hp hpg hpos]; exact ⟨hw, m, hm⟩
        | some pos =>
          by_cases h0 : pos = 0
          · subst h0
            rw [indent_first hg hp hpg hpos]
            exact ⟨hw, m, hm⟩
          · have hgt : pos > 0 := Nat.pos_of_ne_zero h0
            rw [indent_eq hg hp hpg hpos hgt]
            rcases findIdx?_spec hpos with ⟨hlen, hat⟩
            have hlen1 : pos - 1 < pn.children.length := by omega
            have hg1 : pn.children.getD (pos - 1) 0 = pn.children[pos - 1] :=
              List.getD_eq_getElem _ _ hlen1
            have hg2 : pn.children.getD pos 0 = pn.children[pos] :=
              List.getD_eq_getElem _ _ hlen
            have hsmem : pn.children.getD (pos - 1) 0 ∈ pn.children := by
              rw [hg1]
              exact List.getElem_mem hlen1
            have hslive : live t (pn.children.getD (pos - 1) 0) = true :=
              hw.children_live pn (get_node_mem hpg).1 _ hsmem
            have hchn : pn.children.Nodup := children_nodup hw (get_node_mem hpg).1
            have hsne : pn.children.getD (pos - 1) 0 ≠ i := by
              intro he
              rw [hg1] at he
              rw [hg2] at hat
              have heq : pn.children[pos - 1] = pn.children[pos] := he.trans hat.symm
              have := (List.Nodup.getElem_inj_iff hchn).mp heq
              omega
            have hssub : pn.children.getD (pos - 1) 0 ∉ subtree t i := by
              intro hmem2
              rcases parent_mem_subtree hw hm hmem2 with he | ⟨p2, jn, h1, h2, h3⟩
              · exact hsne he
              · rcases parent_of_child hw (get_node_mem hpg).1 hsmem with ⟨sn, hsget, hspar⟩
                rw [hsget] at h1
                have hjn : jn = sn := (Option.some_injective _ h1).symm
                rw [hjn, hspar] at h2
                have hp2 : p2 = pn.id := (Option.some_injective _ h2).symm
                rw [hp2, (get_node_mem hpg).2] at h3
                exact parent_not_mem_subtree hw hm hg hp h3
            have h := wf_relink_parent hw hm hg hslive hsne hssub (fun ch => ch ++ [i])
              (fun ch => cnt_append_self i ch) (fun ch y hy => cnt_append_other hy ch)
            exact ⟨h.1, _, h.2⟩

theorem wf_move {t : Tree} (hw : WFcore t) {m : Nat → Nat} (hm : Measured t m)
    (i : Nat) (p : Option Nat) (pos : Nat)
    (hv : ∀ q, p = some q → live t q = true ∧ q ∉ subtree t i) :
    WFcore (move_node t i p pos) ∧ ∃ m2, Measured (move_node t i p pos) m2 := by
  cases hg : get_node t i with
  | none => rw [move_dead hg]; exact ⟨hw, m, hm⟩
  | some node =>
    cases p with
    | none =>
      rw [move_eq_root hg pos]
      have h := wf_relink_root hw hm hg
        (fun l => insert_at l (min pos l.length) i)
        (fun l => cnt_insert_self l _ i) (fun l y hy => cnt_insert_other hy l _)
      exact ⟨h.1, m, h.2⟩
    | some q =>
      obtain ⟨hql, hqs⟩ := hv q rfl
      have hqi : q ≠ i := fun he => hqs (by rw [he]; exact mem_subtree_self (live_of_get hg))
      rw [move_eq_parent hg hqi pos]
      have h := wf_relink_parent hw hm hg hql hqi hqs
        (fun ch => insert_at ch (min pos ch.length) i)
        (fun ch => cnt_insert_self ch _ i) (fun ch y hy => cnt_insert_other hy ch _)
      exact ⟨h.1, _, h.2⟩

theorem wf_reorder {t : Tree} (hw : WFcore t) {m : Nat → Nat} (hm : Measured t m)
    (p : Option Nat) (l : List Nat)
    (hv : ∀ pid, p = some pid → ∀ pn, get_node t pid = some pn →
      ∀ x, cnt l x = cnt pn.children x)
    (hv0 : p = none → ∀ x, cnt l x = cnt t.root_nodes x) :
    WFcore (reorder_children t p l) ∧ ∃ m2, Measured (reorder_children t p l) m2 := by
  cases p with
  | none =>
    have hcnt := hv0 rfl
    have hroots : ∀ x, x ∈ l ↔ x ∈ t.root_nodes := by
      intro x
      rw [← cnt_pos_iff_mem, ← cnt_pos_iff_mem, hcnt]
    refine ⟨⟨hw.nodup, hw.bounded, hw.parents_live, ?_, hw.children_live, ?_, ?_⟩, m, hm⟩
    · intro j hj
      exact hw.roots_live j ((hroots j).mp hj)
    · intro n hn hpn
      have h0 := hw.placed_root n hn hpn
      refine ⟨?_, h0.2⟩
      show cnt l n.id = 1
      rw [hcnt]
      exact h0.1
    · intro n hn w hw'
      have h0 := hw.placed_child n hn w hw'
      refine ⟨?_, h0.2.1, h0.2.2⟩
      show cnt l n.id = 0
      rw [hcnt]
      exact h0.1
  | some pid =>
    cases hpg : get_node t pid with
    | none =>
      have heq : reorder_children t (some pid) l = t := by
        unfold reorder_children
        dsimp only
        rw [modify_node_of_none _ hpg]
      rw [heq]
      exact ⟨hw, m, hm⟩
    | some pn =>
      have hcnt := hv pid rfl pn hpg
      have hmemiff : ∀ x, x ∈ l ↔ x ∈ pn.children := by
        intro x
        rw [← cnt_pos_iff_mem, ← cnt_pos_iff_mem, hcnt]
      have hpid : pn.id = pid := (get_node_mem hpg).2
      have hnodes : (reorder_children t (some pid) l).nodes
          = modify_node t.nodes pid (with_children (fun _ => l)) := rfl
      have hroot2 : (reorder_children t (some pid) l).root_nodes = t.root_nodes := rfl
      have hids : (reorder_children t (some pid) l).nodes.map Node.id
          = t.nodes.map Node.id := by
        rw [hnodes, map_id_modify_wc]
      have hliveiff : ∀ x, live (reorder_children t (some pid) l) x = true ↔ live t x = true := by
        intro x
        rw [live_iff_mem_map, live_iff_mem_map, hids]
      have hnd : ((reorder_children t (some pid) l).nodes.map Node.id).Nodup := by
        rw [hids]; exact hw.nodup
      have hgetx : ∀ x, x ≠ pid → get_node (reorder_children t (some pid) l) x = get_node t x := by
        intro x hx
        show findNode _ x = _
        rw [hnodes]
        exact findNode_modify_wc _ hx
      have hgetp : get_node (reorder_children t (some pid) l) pid
          = some (with_children (fun _ => l) pn) := by
        show findNode _ pid = _
        rw [hnodes, findNode_modify_self_wc]
        have hp2 : findNode t.nodes pid = some pn := hpg
        rw [hp2]
        rfl
      have hchildocc : ∀ x, childOcc (reorder_children t (some pid) l) x = childOcc t x := by
        intro x
        unfold childOcc
        rw [hnodes]
        have h := childOccL_modify (f := with_children (fun _ => l)) hpg x
        rw [wc_children] at h
        rw [hcnt x] at h
        omega
      have hrootocc : ∀ x, rootOcc (reorder_children t (some pid) l) x = rootOcc t x :=
        fun _ => rfl
      have shape : ∀ n ∈ (reorder_children t (some pid) l).nodes,
          (n.id = pid ∧ n = with_children (fun _ => l) pn) ∨ (n.id ≠ pid ∧ n ∈ t.nodes) := by
        intro n hn
        by_cases hx : n.id = pid
        · left
          refine ⟨hx, ?_⟩
          have hfind : get_node (reorder_children t (some pid) l) n.id = some n :=
            findNode_of_nodup hnd hn rfl
          rw [hx, hgetp] at hfind
          exact (Option.some_injective _ hfind).symm
        · right
          rw [hnodes] at hn
          exact ⟨hx, mem_modify_wc_ne _ hn hx⟩
      constructor
      · constructor
        · exact hnd
        · intro n hn
          have h1 : n.id ∈ (reorder_children t (some pid) l).nodes.map Node.id :=
            List.mem_map_of_mem Node.id hn
          rw [hids] at h1
          rcases List.mem_map.mp h1 with ⟨n₀, hn₀, hid0⟩
          have := hw.bounded n₀ hn₀
          show n.id < t.next_id
          omega
        · intro n hn w hw'
          rcases shape n hn with ⟨_, h⟩ | ⟨_, hmem⟩
          · rw [h, wc_parent] at hw'
            exact (hliveiff w).mpr (hw.parents_live pn (get_node_mem hpg).1 w hw')
          · exact (hliveiff w).mpr (hw.parents_live n hmem w hw')
        · intro j hj
          rw [hroot2] at hj
          exact (hliveiff j).mpr (hw.roots_live j hj)
        · intro n hn c hc
          rcases shape n hn with ⟨_, h⟩ | ⟨_, hmem⟩
          · rw [h, wc_children] at hc
            exact (hliveiff c).mpr
              (hw.children_live pn (get_node_mem hpg).1 c ((hmemiff c).mp hc))
          · exact (hliveiff c).mpr (hw.children_live n hmem c hc)
        · intro n hn hpn
          rcases shape n hn with ⟨hx, h⟩ | ⟨_, hmem⟩
          · rw [h, wc_parent] at hpn
            have h0 := hw.placed_root pn (get_node_mem hpg).1 hpn
            have hnid : n.id = pn.id := by rw [h]; rfl
            rw [hrootocc, hchildocc, hnid]
            exact h0
          · have h0 := hw.placed_root n hmem hpn
            rw [hrootocc, hchildocc]
            exact h0
        · intro n hn w hw'
          rcases shape n hn with ⟨hx, h⟩ | ⟨_, hmem⟩
          · rw [h, wc_parent] at hw'
            have h0 := hw.placed_child pn (get_node_mem hpg).1 w hw'
            have hnid : n.id = pn.id := by rw [h]; rfl
            rw [hrootocc, hchildocc, hnid]
            refine ⟨h0.1, h0.2.1, ?_⟩
            intro pn' hpn'
            by_cases hwp : w = pid
            · rw [hwp, hgetp] at hpn'
              have : pn' = with_children (fun _ => l) pn := (Option.some_injective _ hpn').symm
              rw [this, wc_children, hmemiff]
              have hwp2 : get_node t w = some pn := by rw [hwp]; exact hpg
              exact h0.2.2 pn hwp2
            · rw [hgetx w hwp] at hpn'
              exact h0.2.2 pn' hpn'
          · have h0 := hw.placed_child n hmem w hw'
            rw [hrootocc, hchildocc]
            refine ⟨h0.1, h0.2.1, ?_⟩
            intro pn' hpn'
            by_cases hwp : w = pid
            · rw [hwp, hgetp] at hpn'
              have : pn' = with_children (fun _ => l) pn := (Option.some_injective _ hpn').symm
              rw [this, wc_children, hmemiff]
              exact h0.2.2 pn (by rw [hwp]; exact hpg)
            · rw [hgetx w hwp] at hpn'
              exact h0.2.2 pn' hpn'
      · refine ⟨m, ?_⟩
        intro n hn w hw'
        rcases shape n hn with ⟨hx, h⟩ | ⟨_, hmem⟩
        · rw [h, wc_parent] at hw'
          have := hm pn (get_node_mem hpg).1 w hw'
          have hnid : n.id = pn.id := by rw [h]; rfl
          rw [hnid]
          exact this
        · exact hm n hmem w hw'

theorem wf_modify_aux {t : Tree} (hw : WFcore t) {m : Nat → Nat} (hm : Measured t m)
    (i : Nat) (f : Node → Node) (hfid : ∀ n, (f n).id = n.id)
    (hfpar : ∀ n, (f n).parent = n.parent) (hfch : ∀ n, (f n).children = n.children) :
    WFcore { t with nodes := modify_node t.nodes i f } ∧
      Measured { t with nodes := modify_node t.nodes i f } m := by
  have hids : (modify_node t.nodes i f).map Node.id = t.nodes.map Node.id :=
    map_id_modify_node hfid
  have hliveiff : ∀ x, live { t with nodes := modify_node t.nodes i f } x = true
      ↔ live t x = true := by
    intro x
    rw [live_iff_mem_map, live_iff_mem_map, tree_nodes_mk, hids]
  have hchildocc : ∀ x, childOcc { t with nodes := modify_node t.nodes i f } x
      = childOcc t x := by
    intro x
    unfold childOcc
    rw [tree_nodes_mk]
    cases hfind : findNode t.nodes i with
    | none => rw [modify_node_of_none _ hfind]
    | some rec =>
      have h := childOccL_modify (f := f) hfind x
      rw [hfch] at h
      omega
  have shape : ∀ n ∈ (modify_node t.nodes i f), ∃ n₀ ∈ t.nodes,
      n.id = n₀.id ∧ n.parent = n₀.parent ∧ n.children = n₀.children := by
    intro n hn
    by_cases hx : n.id = i
    · rcases mem_modify_node_self hfid hw.nodup hn hx with ⟨rec, h1, h2⟩
      rcases findNode_some h1 with ⟨hrec, _⟩
      exact ⟨rec, hrec, by rw [h2, hfid], by rw [h2, hfpar], by rw [h2, hfch]⟩
    · exact ⟨n, mem_modify_node_ne hfid hn hx, rfl, rfl, rfl⟩
  have hget : ∀ x, get_node { t with nodes := modify_node t.nodes i f } x
      = (get_node t x).map (fun n => if n.id = i then f n else n) := by
    intro x
    show findNode _ x = _
    rw [tree_nodes_mk]
    by_cases hx : x = i
    · subst hx
      rw [findNode_modify_self hfid, get_node_def]
      cases hfind : findNode t.nodes x with
      | none => rfl
      | some rec =>
        rcases findNode_some hfind with ⟨_, hrid⟩
        show some (f rec) = some (if rec.id = x then f rec else rec)
        rw [if_pos hrid]
    · rw [findNode_modify_ne hfid hx, get_node_def]
      cases hfind : findNode t.nodes x with
      | none => rfl
      | some rec =>
        rcases findNode_some hfind with ⟨_, hrid⟩
        show some rec = some (if rec.id = i then f rec else rec)
        rw [if_neg (by rw [hrid]; exact hx)]
  constructor
  · constructor
    · rw [tree_nodes_mk, hids]
      exact hw.nodup
    · intro n hn
      rw [tree_nodes_mk] at hn
      rcases shape n hn with ⟨n₀, hn₀, hid0, _, _⟩
      have := hw.bounded n₀ hn₀
      show n.id < t.next_id
      omega
    · intro n hn w hw'
      rw [tree_nodes_mk] at hn
      rcases shape n hn with ⟨n₀, hn₀, _, hpar, _⟩
      rw [hpar] at hw'
      exact (hliveiff w).mpr (hw.parents_live n₀ hn₀ w hw')
    · intro j hj
      exact (hliveiff j).mpr (hw.roots_live j hj)
    · intro n hn c hc
      rw [tree_nodes_mk] at hn
      rcases shape n hn with ⟨n₀, hn₀, _, _, hch⟩
      rw [hch] at hc
      exact (hliveiff c).mpr (hw.children_live n₀ hn₀ c hc)
    · intro n hn hpn
      rw [tree_nodes_mk] at hn
      rcases shape n hn with ⟨n₀, hn₀, hid0, hpar, _⟩
      rw [hpar] at hpn
      have h0 := hw.placed_root n₀ hn₀ hpn
      show rootOcc t n.id = 1 ∧ _
      rw [hchildocc, hid0]
      exact h0
    · intro n hn w hw'
      rw [tree_nodes_mk] at hn
      rcases shape n hn with ⟨n₀, hn₀, hid0, hpar, _⟩
      rw [hpar] at hw'
      have h0 := hw.placed_child n₀ hn₀ w hw'
      show rootOcc t n.id = 0 ∧ _
      rw [hchildocc, hid0]
      refine ⟨h0.1, h0.2.1, ?_⟩
      intro pn' hpn'
      rw [hget w] at hpn'
      cases hfind : get_node t w with
      | none => rw [hfind] at hpn'; simp at hpn'
      | some pn0 =>
        rw [hfind] at hpn'
        have hpn2 : pn' = if pn0.id = i then f pn0 else pn0 :=
          (Option.some_injective _ hpn').symm
        have hmem0 := h0.2.2 pn0 hfind
        by_cases hp0 : pn0.id = i
        · rw [hpn2, if_pos hp0, hfch]
          exact hmem0
        · rw [hpn2, if_neg hp0]
          exact hmem0
  · intro n hn w hw'
    rw [tree_nodes_mk] at hn
    rcases shape n hn with ⟨n₀, hn₀, hid0, hpar, _⟩
    rw [hpar] at hw'
    rw [hid0]
    exact hm n₀ hn₀ w hw'

theorem wf_toggle {t : Tree} (hw : WFcore t) {m : Nat → Nat} (hm : Measured t m)
    (i : Nat) :
    WFcore (toggle_expanded t i) ∧ Measured (toggle_expanded t i) m :=
  wf_modify_aux hw hm i _ (fun _ => rfl) (fun _ => rfl) (fun _ => rfl)

theorem wf_update {t : Tree} (hw : WFcore t) {m : Nat → Nat} (hm : Measured t m)
    (i : Nat) (c : String) :
    WFcore (update_content t i c) ∧ Measured (update_content t i c) m :=
  wf_modify_aux hw hm i _ (fun _ => rfl) (fun _ => rfl) (fun _ => rfl)

theorem wf_add_sibling {t : Tree} {m : Nat → Nat} (hw : WFcore t) (hm : Measured t m)
    (s : Nat) (c : String) :
    WFcore (add_sibling t s c).1 ∧
      Measured (add_sibling t s c).1
        (add_measure t m ((get_node t s).bind (fun n => n.parent))) := by
  have hp : ∀ pid, (get_node t s).bind (fun n => n.parent) = some pid → live t pid = true := by
    intro pid h
    cases hg : get_node t s with
    | none => rw [hg] at h; cases h
    | some sn =>
      rw [hg, Option.some_bind] at h
      exact hw.parents_live sn (get_node_mem hg).1 pid h
  exact wf_add hw hm c _ hp

/-! ### `next_id` evolution: only `add_node` touches the id counter -/

theorem delete_go_next : ∀ (fuel : Nat) (t : Tree) (i : Nat),
    (delete_go fuel t i).next_id = t.next_id := by
  intro fuel
  induction fuel with
  | zero => intro t i; rfl
  | succ fuel ih =>
    intro t i
    have aux : ∀ (l : List Nat) (acc : Tree),
        (l.foldl (fun acc c => delete_go fuel acc c) acc).next_id = acc.next_id := by
      intro l
      induction l with
      | nil => intro acc; rfl
      | cons a l ihl => intro acc; rw [List.foldl_cons, ihl, ih]
    unfold delete_go
    cases hget : get_node t i with
    | none => rfl
    | some node =>
      dsimp only
      cases hp : node.parent with
      | some pid =>
        dsimp only
        rw [tree_next_mk, aux]
      | none =>
        dsimp only
        rw [tree_next_mk, aux]

theorem delete_node_next (t : Tree) (i : Nat) :
    (delete_node t i).next_id = t.next_id :=
  delete_go_next t.nodes.length t i

theorem add_sibling_next (t : Tree) (s : Nat) (c : String) :
    (add_sibling t s c).1.next_id = t.next_id + 1 :=
  add_node_next t c _

theorem toggle_next (t : Tree) (i : Nat) :
    (toggle_expanded t i).next_id = t.next_id := rfl

theorem update_next (t : Tree) (i : Nat) (c : String) :
    (update_content t i c).next_id = t.next_id := rfl

theorem indent_next (t : Tree) (i : Nat) :
    (indent_node t i).next_id = t.next_id := by
  unfold indent_node
  cases get_node t i with
  | none => rfl
  | some node =>
    dsimp only
    cases node.parent with
    | none => rfl
    | some pid =>
      dsimp only
      cases get_node t pid with
      | none => rfl
      | some pn =>
        dsimp only
        cases pn.children.findIdx? (fun nid => nid == i) with
        | none => rfl
        | some pos =>
          dsimp only
          by_cases hgt : pos > 0
          · rw [if_pos hgt]
          · rw [if_neg hgt]

theorem outdent_next (t : Tree) (i : Nat) :
    (outdent_node t i).next_id = t.next_id := by
  unfold outdent_node
  cases get_node t i with
  | none => rfl
  | some node =>
    dsimp only
    cases node.parent with
    | none => rfl
    | some pid =>
      dsimp only
      cases (get_node t pid).bind (fun p => p.parent) with
      | none => rfl
      | some gp => rfl

theorem reorder_next (t : Tree) (p : Option Nat) (l : List Nat) :
    (reorder_children t p l).next_id = t.next_id := by
  cases p <;> rfl

theorem move_next (t : Tree) (i : Nat) (p : Option Nat) (pos : Nat) :
    (move_node t i p pos).next_id = t.next_id := by
  unfold move_node
  cases get_node t i with
  | none => rfl
  | some node =>
    dsimp only
    cases node.parent with
    | none => cases p <;> rfl
    | some old => cases p <;> rfl

theorem permCnt_iff {a b : List Nat} : permCnt a b = true ↔ ∀ x, cnt a x = cnt b x := by
  unfold permCnt
  rw [List.all_eq_true]
  constructor
  · intro h x
    by_cases hx : x ∈ a ++ b
    · exact beq_iff_eq.mp (h x hx)
    · rw [List.mem_append] at hx
      push_neg at hx
      rw [cnt_eq_zero_iff.mpr hx.1, cnt_eq_zero_iff.mpr hx.2]
  · intro h x _
    exact beq_iff_eq.mpr (h x)

theorem wf_apply {t : Tree} (hw : WFcore t) {m : Nat → Nat} (hm : Measured t m)
    {op : Op} (hv : valid_op t op = true) :
    WFcore (apply_op t op) ∧ ∃ m2, Measured (apply_op t op) m2 := by
  cases op with
  | add c p =>
    have hp : ∀ pid, p = some pid → live t pid = true := by
      intro pid h
      subst h
      exact hv
    have h := wf_add hw hm c p hp
    exact ⟨h.1, _, h.2⟩
  | addSibling s c =>
    have h := wf_add_sibling hw hm s c
    exact ⟨h.1, _, h.2⟩
  | toggle i =>
    have h := wf_toggle hw hm i
    exact ⟨h.1, m, h.2⟩
  | update i c =>
    have h := wf_update hw hm i c
    exact ⟨h.1, m, h.2⟩
  | delete i =>
    have h := wf_delete hw hm i
    exact ⟨h.1, m, h.2⟩
  | indent i => exact wf_indent hw hm i
  | outdent i => exact wf_outdent hw hm i
  | reorder p l =>
    refine wf_reorder hw hm p l ?_ ?_
    · intro pid hpid pn hpn x
      subst hpid
      unfold valid_op at hv
      simp only [hpn] at hv
      exact permCnt_iff.mp hv x
    · intro hpn x
      subst hpn
      unfold valid_op at hv
      exact permCnt_iff.mp hv x
  | move i p pos =>
    refine wf_move hw hm i p pos ?_
    intro q hq
    subst hq
    unfold valid_op at hv
    rw [Bool.and_eq_true] at hv
    refine ⟨hv.1, ?_⟩
    intro hmem
    have h1 := hv.2
    rw [Bool.not_eq_true'] at h1
    have h2 : (subtree t i).contains q = true := List.elem_eq_true_of_mem hmem
    rw [h1] at h2
    cases h2

theorem wf_exec : ∀ (ops : List Op) (t : Tree) (m : Nat → Nat), WFcore t → Measured t m →
    valid_seq t ops = true → WFcore (exec t ops) ∧ ∃ m2, Measured (exec t ops) m2 := by
  intro ops
  induction ops with
  | nil => intro t m hw hm _; exact ⟨hw, m, hm⟩
  | cons op ops ih =>
    intro t m hw hm hv
    unfold valid_seq at hv
    rw [Bool.and_eq_true] at hv
    rcases wf_apply hw hm hv.1 with ⟨hw2, m2, hm2⟩
    exact ih (apply_op t op) m2 hw2 hm2 hv.2

theorem wf_new : WFcore Tree.new ∧ Measured Tree.new (fun _ => 0) := by
  constructor
  · constructor
    · exact List.nodup_nil
    · intro n hn; cases hn
    · intro n hn; cases hn
    · intro j hj; cases hj
    · intro n hn; cases hn
    · intro n hn; cases hn
    · intro n hn; cases hn
  · intro n hn; cases hn

theorem WFcore_of_b {t : Tree} (h : WFb t = true) : WFcore t := by
  unfold WFb at h
  rw [Bool.and_eq_true, Bool.and_eq_true, Bool.and_eq_true, Bool.and_eq_true,
    Bool.and_eq_true] at h
  obtain ⟨⟨⟨⟨⟨h1, h2⟩, h3⟩, h4⟩, h5⟩, h6⟩ := h
  rw [List.all_eq_true] at h2 h3 h4 h5 h6
  constructor
  · exact decide_eq_true_eq.mp h1
  · intro n hn
    exact decide_eq_true_eq.mp (h2 n hn)
  · intro n hn p hp
    have := h3 n hn
    rw [hp] at this
    exact this
  · intro i hi
    exact h4 i hi
  · intro n hn c hc
    have := h5 n hn
    rw [List.all_eq_true] at this
    exact this c hc
  · intro n hn hp
    have := h6 n hn
    rw [hp, Bool.and_eq_true] at this
    exact ⟨decide_eq_true_eq.mp this.1, decide_eq_true_eq.mp this.2⟩
  · intro n hn p hp
    have := h6 n hn
    rw [hp] at this
    rw [Bool.and_eq_true, Bool.and_eq_true] at this
    refine ⟨decide_eq_true_eq.mp this.1.1, decide_eq_true_eq.mp this.1.2, ?_⟩
    intro pn hpn
    have h7 := this.2
    rw [hpn] at h7
    exact List.mem_of_elem_eq_true h7

theorem Measured_of_b {t : Tree} {m : Nat → Nat} (h : Measuredb t m = true) :
    Measured t m := by
  unfold Measuredb at h
  rw [List.all_eq_true] at h
  intro n hn p hp
  have := h n hn
  rw [hp] at this
  exact decide_eq_true_eq.mp this

theorem add_sibling_ret (t : Tree) (s : Nat) (c : String) :
    (add_sibling t s c).2 = t.next_id :=
  add_node_ret t c _

theorem apply_next_ge (t : Tree) (op : Op) : t.next_id ≤ (apply_op t op).next_id := by
  cases op with
  | add c p =>
    show t.next_id ≤ (add_node t c p).1.next_id
    rw [add_node_next]
    omega
  | addSibling s c =>
    show t.next_id ≤ (add_sibling t s c).1.next_id
    rw [add_sibling_next]
    omega
  | toggle i => exact Nat.le_of_eq (toggle_next t i).symm
  | update i c => exact Nat.le_of_eq (update_next t i c).symm
  | delete i => exact Nat.le_of_eq (delete_node_next t i).symm
  | indent i => exact Nat.le_of_eq (indent_next t i).symm
  | outdent i => exact Nat.le_of_eq (outdent_next t i).symm
  | reorder p l => exact Nat.le_of_eq (reorder_next t p l).symm
  | move i p pos => exact Nat.le_of_eq (move_next t i p pos).symm

theorem run_returns : ∀ (ops : List Op) (t : Tree), ∀ r ∈ (run t ops).2, t.next_id ≤ r := by
  intro ops
  induction ops with
  | nil => intro t r hr; cases hr
  | cons op ops ih =>
    intro t r hr
    cases op with
    | add c p =>
      rw [show (run t (Op.add c p :: ops)).2
          = (add_node t c p).2 :: (run (add_node t c p).1 ops).2 from rfl,
        List.mem_cons] at hr
      rcases hr with hr | hr
      · rw [hr, add_node_ret]
      · have h1 := ih (add_node t c p).1 r hr
        rw [add_node_next] at h1
        omega
    | addSibling s c =>
      rw [show (run t (Op.addSibling s c :: ops)).2
          = (add_sibling t s c).2 :: (run (add_sibling t s c).1 ops).2 from rfl,
        List.mem_cons] at hr
      rcases hr with hr | hr
      · rw [hr, add_sibling_ret]
      · have h1 := ih (add_sibling t s c).1 r hr
        rw [add_sibling_next] at h1
        omega
    | toggle i =>
      have h1 := ih (apply_op t (.toggle i)) r hr
      exact Nat.le_trans (apply_next_ge t _) h1
    | update i c =>
      have h1 := ih (apply_op t (.update i c)) r hr
      exact Nat.le_trans (apply_next_ge t _) h1
    | delete i =>
      have h1 := ih (apply_op t (.delete i)) r hr
      exact Nat.le_trans (apply_next_ge t _) h1
    | indent i =>
      have h1 := ih (apply_op t (.indent i)) r hr
      exact Nat.le_trans (apply_next_ge t _) h1
    | outdent i =>
      have h1 := ih (apply_op t (.outdent i)) r hr
      exact Nat.le_trans (apply_next_ge t _) h1
    | reorder p l =>
      have h1 := ih (apply_op t (.reorder p l)) r hr
      exact Nat.le_trans (apply_next_ge t _) h1
    | move i p pos =>
      have h1 := ih (apply_op t (.move i p pos)) r hr
      exact Nat.le_trans (apply_next_ge t _) h1

theorem run_pairwise : ∀ (ops : List Op) (t : Tree),
    ((run t ops).2).Pairwise (· < ·) := by
  intro ops
  induction ops with
  | nil => intro t; exact List.Pairwise.nil
  | cons op ops ih =>
    intro t
    cases op with
    | add c p =>
      rw [show (run t (Op.add c p :: ops)).2
          = (add_node t c p).2 :: (run (add_node t c p).1 ops).2 from rfl]
      refine List.Pairwise.cons ?_ (ih (add_node t c p).1)
      intro r hr
      have h1 := run_returns ops (add_node t c p).1 r hr
      rw [add_node_next] at h1
      rw [add_node_ret]
      omega
    | addSibling s c =>
      rw [show (run t (Op.addSibling s c :: ops)).2
          = (add_sibling t s c).2 :: (run (add_sibling t s c).1 ops).2 from rfl]
      refine List.Pairwise.cons ?_ (ih (add_sibling t s c).1)
      intro r hr
      have h1 := run_returns ops (add_sibling t s c).1 r hr
      rw [add_sibling_next] at h1
      rw [add_sibling_ret]
      omega
    | toggle i => exact ih (apply_op t (.toggle i))
    | update i c => exact ih (apply_op t (.update i c))
    | delete i => exact ih (apply_op t (.delete i))
    | indent i => exact ih (apply_op t (.indent i))
    | outdent i => exact ih (apply_op t (.outdent i))
    | reorder p l => exact ih (apply_op t (.reorder p l))
    | move i p pos => exact ih (apply_op t (.move i p pos))

theorem valid_seq_take : ∀ (ops : List Op) (k : Nat) (t : Tree),
    valid_seq t ops = true → valid_seq t (ops.take k) = true := by
  intro ops
  induction ops with
  | nil => intro k t h; cases k <;> exact h
  | cons op ops ih =>
    intro k t h
    cases k with
    | zero => rfl
    | succ k =>
      unfold valid_seq at h ⊢
      rw [List.take_succ_cons]
      show (valid_op t op && valid_seq (apply_op t op) (ops.take k)) = true
      rw [Bool.and_eq_true] at h ⊢
      exact ⟨h.1, ih k _ h.2⟩

/-- C1: starting from the empty tree, after each step of any sequence of valid
operations (add with a live or absent parent, delete, indent, outdent, move to
a live non-descendant target or to the root level, reorder by a true
permutation, plus the trivially safe toggle/update/add-sibling), every id
stored in a children list, in `root_nodes` or in a `parent` field names a live
node, and each live node's id occurs exactly once in its parent's children
list (when it has a parent) or exactly once in `root_nodes` (when it has
none), and zero times in the other kind of list. -/
theorem claim_C1 (ops : List Op) (h : valid_seq Tree.new ops = true) :
    ∀ k, Inv123 (exec Tree.new (ops.take k)) := by
  intro k
  have hv := valid_seq_take ops k Tree.new h
  rcases wf_exec (ops.take k) Tree.new (fun _ => 0) wf_new.1 wf_new.2 hv with ⟨hw, _⟩
  exact ⟨hw.parents_live, hw.roots_live, hw.children_live, hw.placed_root,
    hw.placed_child⟩

theorem claim_C1_witness :
    Inv123 (exec Tree.new (([Op.add "a" none, Op.add "b" (some 0), Op.indent 1,
      Op.outdent 1, Op.move 1 (some 0) 5, Op.delete 0]).take 6)) :=
  claim_C1 _ (by decide) 6

/-- C2: deleting a live node with `N` strict descendants removes exactly
`N + 1` records; afterwards no surviving record keeps a deleted id as its
parent or in its children, and no deleted id stays in `root_nodes`; deleting
a dead id leaves the tree unchanged. -/
theorem claim_C2 :
    (∀ (t : Tree) (m : Nat → Nat) (i : Nat), WFcore t → Measured t m →
      live t i = true →
      (delete_node t i).nodes.length + (descendants t i + 1) = t.nodes.length ∧
      (∀ n ∈ (delete_node t i).nodes,
        (∀ p, n.parent = some p → p ∉ subtree t i) ∧
        (∀ c ∈ n.children, c ∉ subtree t i)) ∧
      (∀ x ∈ subtree t i, x ∉ (delete_node t i).root_nodes)) ∧
    (∀ (t : Tree) (i : Nat), live t i = false → delete_node t i = t) := by
  constructor
  · intro t m i hw hm hl
    rcases live_get hl with ⟨rec, hget, _, _⟩
    have hcount := delete_node_count hw hm hget
    have hsub1 : 0 < (subtree t i).length :=
      List.length_pos_of_mem (mem_subtree_self hl)
    rcases wf_delete hw hm i with ⟨hw2, hm2⟩
    refine ⟨by unfold descendants; omega, ?_, ?_⟩
    · intro n hn
      constructor
      · intro p hp
        have hlive2 := hw2.parents_live n hn p hp
        rw [delete_live hw hm hget] at hlive2
        exact hlive2.2
      · intro c hc
        have hlive2 := hw2.children_live n hn c hc
        rw [delete_live hw hm hget] at hlive2
        exact hlive2.2
    · intro x hx hxr
      have hlive2 := hw2.roots_live x hxr
      rw [delete_live hw hm hget] at hlive2
      exact hlive2.2 hx
  · intro t i h
    exact delete_node_dead h

theorem claim_C2_witness :
    ((delete_node sampleT4 1).nodes.length + (descendants sampleT4 1 + 1)
      = sampleT4.nodes.length) ∧
    delete_node sampleT4 9 = sampleT4 :=
  ⟨(claim_C2.1 sampleT4 (fun j => j) 1 (WFcore_of_b (by decide))
      (Measured_of_b (by decide)) (by decide)).1,
    claim_C2.2 sampleT4 9 (by decide)⟩

/-- C3: `indent_node` is a no-op for a node with no parent (in particular for
any root, whatever its position in `root_nodes`) and for a first child;
otherwise it removes the node from its old parent's children, appends it to
the end of the previous sibling's children, and repoints its parent field at
the previous sibling. -/
theorem claim_C3 :
    (∀ (t : Tree) (i : Nat) (node : Node), get_node t i = some node →
      node.parent = none → indent_node t i = t) ∧
    (∀ (t : Tree) (i : Nat) (node : Node) (pid : Nat) (pn : Node),
      get_node t i = some node → node.parent = some pid → get_node t pid = some pn →
      pn.children.findIdx? (fun nid => nid == i) = some 0 → indent_node t i = t) ∧
    (∀ (t : Tree) (m : Nat → Nat) (i : Nat) (node : Node) (pid : Nat) (pn : Node)
      (pos : Nat), WFcore t → Measured t m →
      get_node t i = some node → node.parent = some pid → get_node t pid = some pn →
      pn.children.findIdx? (fun nid => nid == i) = some pos → 0 < pos →
      (∃ ni, get_node (indent_node t i) i = some ni ∧
        ni.parent = some (pn.children.getD (pos - 1) 0) ∧
        ni.children = node.children) ∧
      (∃ sn sr, get_node t (pn.children.getD (pos - 1) 0) = some sn ∧
        get_node (indent_node t i) (pn.children.getD (pos - 1) 0) = some sr ∧
        sr.children = sn.children ++ [i]) ∧
      (∃ pr, get_node (indent_node t i) pid = some pr ∧
        pr.children = pn.children.filter (fun c => c != i))) := by
  refine ⟨?_, ?_, ?_⟩
  · intro t i node hget hpar
    exact indent_noparent hget hpar
  · intro t i node pid pn hget hpar hpget hpos
    exact indent_first hget hpar hpget hpos
  · intro t m i node pid pn pos hw hm hget hpar hpget hpos hgt
    rcases findIdx?_spec hpos with ⟨hlen, hat⟩
    have hlen1 : pos - 1 < pn.children.length := by omega
    have hg1 : pn.children.getD (pos - 1) 0 = pn.children[pos - 1] :=
      List.getD_eq_getElem _ _ hlen1
    have hg2 : pn.children.getD pos 0 = pn.children[pos] :=
      List.getD_eq_getElem _ _ hlen
    have hsmem : pn.children.getD (pos - 1) 0 ∈ pn.children := by
      rw [hg1]
      exact List.getElem_mem hlen1
    have hchn : pn.children.Nodup := children_nodup hw (get_node_mem hpget).1
    have hsne : pn.children.getD (pos - 1) 0 ≠ i := by
      intro he
      rw [hg1] at he
      rw [hg2] at hat
      have heq : pn.children[pos - 1] = pn.children[pos] := he.trans hat.symm
      have := (List.Nodup.getElem_inj_iff hchn).mp heq
      omega
    rcases parent_of_child hw (get_node_mem hpget).1 hsmem with ⟨sn, hsget, hspar⟩
    have hspid : pn.children.getD (pos - 1) 0 ≠ pid := by
      intro he
      rw [he, hpget] at hsget
      have hsn : sn = pn := (Option.some_injective _ hsget).symm
      rw [hsn] at hspar
      exact parent_ne_self hm (get_node_mem hpget).1 hspar rfl
    have hipid : i ≠ pid := by
      intro he
      have := parent_ne_self hm (get_node_mem hget).1 hpar
      rw [(get_node_mem hget).2] at this
      exact this he.symm
    rw [indent_eq hget hpar hpget hpos hgt]
    have hrg := relink_parent_get hm hget hsne (fun ch => ch ++ [i])
    refine ⟨?_, ?_, ?_⟩
    · refine ⟨with_parent (some (pn.children.getD (pos - 1) 0)) node, ?_, rfl, rfl⟩
      rw [hrg i, if_pos rfl]
    · have hfd : findNode (detach_nodes t.nodes node.parent i)
          (pn.children.getD (pos - 1) 0) = some sn := by
        rw [findNode_detach, hpar]
        dsimp only
        rw [if_neg hspid]
        exact hsget
      refine ⟨sn, with_children (fun ch => ch ++ [i]) sn, hsget, ?_, rfl⟩
      rw [hrg _, if_neg hsne, if_pos rfl, hfd]
      rfl
    · have hfd : findNode (detach_nodes t.nodes node.parent i) pid
          = some (with_children (fun ch => ch.filter (fun c => c != i)) pn) := by
        rw [findNode_detach, hpar]
        dsimp only
        rw [if_pos rfl]
        have hp2 : findNode t.nodes pid = some pn := hpget
        rw [hp2]
        rfl
      refine ⟨with_children (fun ch => ch.filter (fun c => c != i)) pn, ?_, rfl⟩
      rw [hrg pid, if_neg (fun he => hipid he.symm), if_neg (fun he => hspid he.symm), hfd]

/-- C4: `outdent_node` is a no-op for a node with no parent; when a
grandparent exists the node moves from its parent's children to the end of
the grandparent's children with its parent field repointed; when the parent
is a root the node leaves the parent's children, its parent field becomes
`None`, and its id is appended to `root_nodes`. -/
theorem claim_C4 :
    (∀ (t : Tree) (i : Nat) (node : Node), get_node t i = some node →
      node.parent = none → outdent_node t i = t) ∧
    (∀ (t : Tree) (m : Nat → Nat) (i : Nat) (node : Node) (pid : Nat) (pn : Node)
      (gp : Nat), WFcore t → Measured t m →
      get_node t i = some node → node.parent = some pid → get_node t pid = some pn →
      pn.parent = some gp →
      (∃ ni, get_node (outdent_node t i) i = some ni ∧ ni.parent = some gp ∧
        ni.children = node.children) ∧
      (∃ gn gr, get_node t gp = some gn ∧ get_node (outdent_node t i) gp = some gr ∧
        gr.children = gn.children ++ [i]) ∧
      (∃ pr, get_node (outdent_node t i) pid = some pr ∧
        pr.children = pn.children.filter (fun c => c != i)) ∧
      (outdent_node t i).root_nodes = t.root_nodes) ∧
    (∀ (t : Tree) (m : Nat → Nat) (i : Nat) (node : Node) (pid : Nat) (pn : Node),
      WFcore t → Measured t m →
      get_node t i = some node → node.parent = some pid → get_node t pid = some pn →
      pn.parent = none →
      (∃ ni, get_node (outdent_node t i) i = some ni ∧ ni.parent = none ∧
        ni.children = node.children) ∧
      (∃ pr, get_node (outdent_node t i) pid = some pr ∧
        pr.children = pn.children.filter (fun c => c != i)) ∧
      (outdent_node t i).root_nodes = t.root_nodes ++ [i]) := by
  refine ⟨?_, ?_, ?_⟩
  · intro t i node hget hpar
    exact outdent_noparent hget hpar
  · intro t m i node pid pn gp hw hm hget hpar hpget hgp
    have hb : (get_node t pid).bind (fun p => p.parent) = some gp := by
      rw [hpget, Option.some_bind]
      exact hgp
    have hgplive : live t gp = true := hw.parents_live pn (get_node_mem hpget).1 gp hgp
    rcases live_get hgplive with ⟨gn, hgget, _, _⟩
    have hmi : m pid < m i := by
      have := hm node (get_node_mem hget).1 pid hpar
      rw [(get_node_mem hget).2] at this
      exact this
    have hmgp : m gp < m pid := by
      have := hm pn (get_node_mem hpget).1 gp hgp
      rw [(get_node_mem hpget).2] at this
      exact this
    have hgpi : gp ≠ i := by intro he; rw [he] at hmgp; omega
    have hgppid : gp ≠ pid := by intro he; rw [he] at hmgp; omega
    have hipid : i ≠ pid := by intro he; rw [he] at hmi; omega
    rw [outdent_eq_gp hget hpar hb]
    have hrg := relink_parent_get hm hget hgpi (fun ch => ch ++ [i])
    refine ⟨⟨with_parent (some gp) node, ?_, rfl, rfl⟩, ?_, ?_, ?_⟩
    · rw [hrg i, if_pos rfl]
    · have hfd : findNode (detach_nodes t.nodes node.parent i) gp = some gn := by
        rw [findNode_detach, hpar]
        dsimp only
        rw [if_neg hgppid]
        exact hgget
      refine ⟨gn, with_children (fun ch => ch ++ [i]) gn, hgget, ?_, rfl⟩
      rw [hrg gp, if_neg hgpi, if_pos rfl, hfd]
      rfl
    · have hfd : findNode (detach_nodes t.nodes node.parent i) pid
          = some (with_children (fun ch => ch.filter (fun c => c != i)) pn) := by
        rw [findNode_detach, hpar]
        dsimp only
        rw [if_pos rfl]
        have hp2 : findNode t.nodes pid = some pn := hpget
        rw [hp2]
        rfl
      refine ⟨with_children (fun ch => ch.filter (fun c => c != i)) pn, ?_, rfl⟩
      rw [hrg pid, if_neg (fun he => hipid he.symm), if_neg (fun he => hgppid he.symm), hfd]
    · have hroot : (relink_parent t node i gp (fun ch => ch ++ [i])).root_nodes =
          (match node.parent with
            | some _ => t.root_nodes
            | none => t.root_nodes.filter (fun r => r != i)) := rfl
      rw [hroot, hpar]
  · intro t m i node pid pn hw hm hget hpar hpget hgp
    have hb : (get_node t pid).bind (fun p => p.parent) = none := by
      rw [hpget, Option.some_bind]
      exact hgp
    have hmi : m pid < m i := by
      have := hm node (get_node_mem hget).1 pid hpar
      rw [(get_node_mem hget).2] at this
      exact this
    have hipid : i ≠ pid := by intro he; rw [he] at hmi; omega
    rw [outdent_eq_root hget hpar hb]
    have hrg := relink_root_get hm hget (fun l => l ++ [i])
    refine ⟨⟨with_parent none node, ?_, rfl, rfl⟩, ?_, ?_⟩
    · rw [hrg i, if_pos rfl]
    · have hfd : findNode (detach_nodes t.nodes node.parent i) pid
          = some (with_children (fun ch => ch.filter (fun c => c != i)) pn) := by
        rw [findNode_detach, hpar]
        dsimp only
        rw [if_pos rfl]
        have hp2 : findNode t.nodes pid = some pn := hpget
        rw [hp2]
        rfl
      refine ⟨with_children (fun ch => ch.filter (fun c => c != i)) pn, ?_, rfl⟩
      rw [hrg pid, if_neg (fun he => hipid he.symm), hfd]
    · have hroot : (relink_root t node i (fun l => l ++ [i])).root_nodes =
          (match node.parent with
            | some _ => t.root_nodes
            | none => t.root_nodes.filter (fun r => r != i)) ++ [i] := rfl
      rw [hroot, hpar]

theorem claim_C3_witness :
    ∃ ni, get_node (indent_node sampleT4 2) 2 = some ni ∧
      ni.parent = some 1 ∧ ni.children = ([] : List Nat) :=
  (claim_C3.2.2 sampleT4 (fun j => j) 2
    ⟨2, "c", some 0, [], true⟩ 0 ⟨0, "a", none, [1, 2], true⟩ 1
    (WFcore_of_b (by decide)) (Measured_of_b (by decide)) (by decide) (by decide)
    (by decide) (by decide) (by decide)).1

theorem claim_C4_witness :
    ∃ ni, get_node (outdent_node sampleT4 3) 3 = some ni ∧
      ni.parent = some 0 ∧ ni.children = ([] : List Nat) :=
  (claim_C4.2.1 sampleT4 (fun j => j) 3
    ⟨3, "d", some 1, [], true⟩ 1 ⟨1, "b", some 0, [3], true⟩ 0
    (WFcore_of_b (by decide)) (Measured_of_b (by decide)) (by decide) (by decide)
    (by decide) (by decide)).1

theorem move_eq_parent_self {t : Tree} {i : Nat} {node : Node}
    (hget : get_node t i = some node) (position : Nat) :
    move_node t i (some i) position =
      relink_parent t node i i
        (fun ch => insert_at ch (min position ch.length) i) := by
  unfold move_node relink_parent detach_nodes
  simp only [hget]
  cases hp : node.parent with
  | some old =>
    simp only
    rw [modify_node_comp (f := with_parent (some i)) (fun n => rfl),
      modify_node_comp
        (f := with_children (fun ch => insert_at ch (min position ch.length) i))
        (fun n => rfl)]
    rfl
  | none =>
    simp only
    rw [modify_node_comp (f := with_parent (some i)) (fun n => rfl),
      modify_node_comp
        (f := with_children (fun ch => insert_at ch (min position ch.length) i))
        (fun n => rfl)]
    rfl

/-- C5: for a live node and a live target (or an absent target), `move_node`
detaches the node's id from its old parent's children (or from `root_nodes`),
repoints the node's parent field at the target, and inserts the id at index
`min(position, length)` of the target's post-detach children list (or of the
root list), clamping out-of-range positions instead of failing. -/
theorem claim_C5 (t : Tree) (m : Nat → Nat) (i : Nat) (node : Node)
    (p : Option Nat) (position : Nat)
    (hw : WFcore t) (hm : Measured t m)
    (hget : get_node t i = some node)
    (hp : ∀ q, p = some q → live t q = true) :
    (∃ nr, get_node (move_node t i p position) i = some nr ∧ nr.parent = p) ∧
    (∀ q, p = some q → ∃ qd qr,
      findNode (detach_nodes t.nodes node.parent i) q = some qd ∧
      get_node (move_node t i p position) q = some qr ∧
      qr.children = insert_at qd.children (min position qd.children.length) i) ∧
    (∀ q, p = some q → (move_node t i p position).root_nodes =
      (match node.parent with
        | some _ => t.root_nodes
        | none => t.root_nodes.filter (fun r => r != i))) ∧
    (∀ opid, node.parent = some opid → (∀ q, p = some q → opid ≠ q) →
      get_node (move_node t i p position) opid
        = (get_node t opid).map (with_children (fun ch => ch.filter (fun c => c != i)))) ∧
    (p = none →
      (move_node t i p position).root_nodes =
        insert_at (match node.parent with
            | some _ => t.root_nodes
            | none => t.root_nodes.filter (fun r => r != i))
          (min position (match node.parent with
            | some _ => t.root_nodes
            | none => t.root_nodes.filter (fun r => r != i)).length) i) := by
  have hid := (get_node_mem hget).2
  have hpne : ∀ opid, node.parent = some opid → opid ≠ i := by
    intro opid h
    have := parent_ne_self hm (get_node_mem hget).1 h
    rw [hid] at this
    exact this
  cases p with
  | none =>
    rw [move_eq_root hget position]
    have hrg := relink_root_get hm hget
      (fun l => insert_at l (min position l.length) i)
    refine ⟨⟨with_parent none node, ?_, rfl⟩, ?_, ?_, ?_, ?_⟩
    · rw [hrg i, if_pos rfl]
    · intro q hq; cases hq
    · intro q hq; cases hq
    · intro opid hopid _
      have hone : opid ≠ i := hpne opid hopid
      rw [hrg opid, if_neg hone, findNode_detach, hopid]
      dsimp only
      rw [if_pos rfl]
      rfl
    · intro _
      rfl
  | some q =>
    by_cases hqi : q = i
    · subst hqi
      rw [move_eq_parent_self hget position]
      have hD : findNode (detach_nodes t.nodes node.parent q) q = some node := by
        rw [findNode_detach]
        cases hp2 : node.parent with
        | none => exact hget
        | some opid =>
          dsimp only
          rw [if_neg (fun he => (hpne opid hp2) he.symm)]
          exact hget
      have hgeti : get_node (relink_parent t node q q
          (fun ch => insert_at ch (min position ch.length) q)) q
          = some (with_parent (some q)
              (with_children (fun ch => insert_at ch (min position ch.length) q) node)) := by
        show findNode _ q = _
        unfold relink_parent
        rw [tree_nodes_mk, findNode_modify_self_wp, findNode_modify_self_wc, hD]
        rfl
      refine ⟨⟨_, hgeti, rfl⟩, ?_, ?_, ?_, ?_⟩
      · intro q' hq'
        obtain rfl : q = q' := Option.some_injective _ hq'
        exact ⟨node, _, hD, hgeti, rfl⟩
      · intro q' _
        rfl
      · intro opid hopid hneq
        have h1 : opid ≠ q := hpne opid hopid
        show findNode _ opid = _
        unfold relink_parent
        rw [tree_nodes_mk, findNode_modify_wp _ h1, findNode_modify_wc _ h1,
          findNode_detach, hopid]
        dsimp only
        rw [if_pos rfl]
        rfl
      · intro h5; cases h5
    · rw [move_eq_parent hget hqi position]
      have hrg := relink_parent_get hm hget hqi
        (fun ch => insert_at ch (min position ch.length) i)
      have hqlive := hp q rfl
      obtain ⟨qd, hqd⟩ : ∃ qd,
          findNode (detach_nodes t.nodes node.parent i) q = some qd := by
        cases hf : findNode (detach_nodes t.nodes node.parent i) q with
        | some qd => exact ⟨qd, rfl⟩
        | none =>
          have hmm : q ∈ (detach_nodes t.nodes node.parent i).map Node.id := by
            rw [detach_map_id]
            exact live_iff_mem_map.mp hqlive
          rcases List.mem_map.mp hmm with ⟨n, hn, hid2⟩
          exact absurd hid2 (findNode_eq_none.mp hf n hn)
      refine ⟨⟨with_parent (some q) node, ?_, rfl⟩, ?_, ?_, ?_, ?_⟩
      · rw [hrg i, if_pos rfl]
      · intro q' hq'
        obtain rfl : q = q' := Option.some_injective _ hq'
        refine ⟨qd, with_children (fun ch => insert_at ch (min position ch.length) i) qd,
          hqd, ?_, rfl⟩
        rw [hrg q, if_neg hqi, if_pos rfl, hqd]
        rfl
      · intro q' _
        rfl
      · intro opid hopid hneq
        have h1 : opid ≠ i := hpne opid hopid
        have h2 : opid ≠ q := hneq q rfl
        rw [hrg opid, if_neg h1, if_neg h2, findNode_detach, hopid]
        dsimp only
        rw [if_pos rfl]
        rfl
      · intro h5; cases h5

theorem claim_C5_witness :
    ∃ nr, get_node (move_node sampleT4 3 (some 0) 7) 3 = some nr ∧
      nr.parent = some 0 :=
  (claim_C5 sampleT4 (fun j => j) 3 ⟨3, "d", some 1, [], true⟩ (some 0) 7
    (WFcore_of_b (by decide)) (Measured_of_b (by decide)) (by decide)
    (fun q hq => by cases hq; decide)).1

/-- C6: across any operation sequence on one tree instance, the ids returned
by the node-creating calls are strictly increasing in call order — each is
strictly greater than every earlier one and no id is ever reused, even after
deletions; moreover each `add_node` stores a record with `is_expanded = true`,
empty children, the given content and parent, appends the fresh id to a live
parent's children, and appends it to `root_nodes` when no parent is given. -/
theorem claim_C6 :
    (∀ ops : List Op, ((run Tree.new ops).2).Pairwise (· < ·)) ∧
    (∀ (t : Tree) (c : String) (p : Option Nat), WFcore t →
      (add_node t c p).2 = t.next_id ∧
      get_node (add_node t c p).1 (add_node t c p).2 =
        some { id := t.next_id, content := c, parent := p, children := [],
               is_expanded := true } ∧
      (∀ pid, p = some pid → live t pid = true →
        get_node (add_node t c p).1 pid =
          (get_node t pid).map
            (with_children (fun ch => ch ++ [(add_node t c p).2]))) ∧
      (p = none →
        (add_node t c p).1.root_nodes = t.root_nodes ++ [(add_node t c p).2])) := by
  constructor
  · exact fun ops => run_pairwise ops Tree.new
  · intro t c p hw
    refine ⟨add_node_ret t c p, ?_, ?_, ?_⟩
    · rw [add_node_ret]
      exact add_get_new hw c p
    · intro pid hpid hlive
      subst hpid
      rw [add_node_ret]
      exact add_get_parent hw c hlive
    · intro hpn
      subst hpn
      rw [add_node_ret, add_node_root]

theorem claim_C6_witness :
    ((run Tree.new [Op.add "a" none, Op.delete 0, Op.add "b" none]).2).Pairwise
        (· < ·) ∧
    get_node (add_node sampleT "c" (some 1)).1 (add_node sampleT "c" (some 1)).2 =
      some { id := 2, content := "c", parent := some 1, children := [],
             is_expanded := true } :=
  ⟨claim_C6.1 [Op.add "a" none, Op.delete 0, Op.add "b" none],
    (claim_C6.2 sampleT "c" (some 1) (WFcore_of_b (by decide))).2.1⟩

/-- C7: `add_node` with a parent id that names no live node still succeeds:
the fresh record is stored with its parent field set to the dead id, but the
fresh id lands in no children list and not in `root_nodes`. -/
theorem claim_C7 (t : Tree) (c : String) (pid : Nat)
    (hw : WFcore t) (hdead : live t pid = false) :
    (add_node t c (some pid)).2 = t.next_id ∧
    get_node (add_node t c (some pid)).1 (add_node t c (some pid)).2 =
      some { id := t.next_id, content := c, parent := some pid, children := [],
             is_expanded := true } ∧
    childOcc (add_node t c (some pid)).1 (add_node t c (some pid)).2 = 0 ∧
    rootOcc (add_node t c (some pid)).1 (add_node t c (some pid)).2 = 0 := by
  have hnone : findNode t.nodes pid = none := not_live_get hdead
  refine ⟨add_node_ret t c (some pid), ?_, ?_, ?_⟩
  · rw [add_node_ret]
    exact add_get_new hw c (some pid)
  · rw [add_node_ret]
    unfold childOcc
    rw [add_node_nodes]
    dsimp only
    rw [modify_node_of_none _ hnone, childOccL_append]
    have h1 : childOcc t t.next_id = 0 := fresh_childOcc hw (Nat.le_refl _)
    have h2 : childOccL [fresh_node t c (some pid)] t.next_id = 0 := by
      simp [childOccL, fresh_node, cnt_nil]
    unfold childOcc at h1
    omega
  · rw [add_node_ret]
    unfold rootOcc
    rw [add_node_root]
    exact fresh_rootOcc hw (Nat.le_refl _)

theorem claim_C7_witness :
    childOcc (add_node sampleT "c" (some 9)).1 (add_node sampleT "c" (some 9)).2 = 0 ∧
    rootOcc (add_node sampleT "c" (some 9)).1 (add_node sampleT "c" (some 9)).2 = 0 :=
  ⟨(claim_C7 sampleT "c" 9 (WFcore_of_b (by decide)) (by decide)).2.2.1,
    (claim_C7 sampleT "c" 9 (WFcore_of_b (by decide)) (by decide)).2.2.2⟩

/-- C8: `add_sibling` creates a node whose parent field copies the reference
node's parent (`None` when the reference is a root or names no live node);
the fresh id is appended as the last element of that parent's children list,
or of `root_nodes` — never inserted right after the reference. -/
theorem claim_C8 (t : Tree) (s : Nat) (c : String) (hw : WFcore t) :
    (add_sibling t s c).2 = t.next_id ∧
    get_node (add_sibling t s c).1 t.next_id =
      some { id := t.next_id, content := c,
             parent := (get_node t s).bind (fun n => n.parent),
             children := [], is_expanded := true } ∧
    (∀ pp, (get_node t s).bind (fun n => n.parent) = some pp →
      get_node (add_sibling t s c).1 pp =
        (get_node t pp).map (with_children (fun ch => ch ++ [t.next_id]))) ∧
    ((get_node t s).bind (fun n => n.parent) = none →
      (add_sibling t s c).1.root_nodes = t.root_nodes ++ [t.next_id]) := by
  refine ⟨add_sibling_ret t s c, ?_, ?_, ?_⟩
  · exact add_get_new hw c _
  · intro pp hpp
    have hlive : live t pp = true := by
      cases hg : get_node t s with
      | none => rw [hg] at hpp; cases hpp
      | some sn =>
        rw [hg, Option.some_bind] at hpp
        exact hw.parents_live sn (get_node_mem hg).1 pp hpp
    show get_node (add_node t c ((get_node t s).bind (fun n => n.parent))).1 pp = _
    rw [hpp]
    exact add_get_parent hw c hlive
  · intro hpp
    show (add_node t c ((get_node t s).bind (fun n => n.parent))).1.root_nodes = _
    rw [hpp, add_node_root]

theorem claim_C8_witness :
    get_node (add_sibling sampleT 1 "c").1 2 =
      some { id := 2, content := "c", parent := some 0, children := [],
             is_expanded := true } :=
  (claim_C8 sampleT 1 "c" (WFcore_of_b (by decide))).2.1

/-- C10: moving a live node under a target id that names no live node detaches
the node from its old location and repoints its parent field at the unknown
id, but inserts it nowhere: the node stays live and readable, yet occurs in
no children list and not in `root_nodes`. -/
theorem claim_C10 (t : Tree) (m : Nat → Nat) (i np : Nat) (node : Node)
    (position : Nat) (hw : WFcore t) (hm : Measured t m)
    (hget : get_node t i = some node) (hdead : live t np = false) :
    live (move_node t i (some np) position) i = true ∧
    (∃ nr, get_node (move_node t i (some np) position) i = some nr ∧
      nr.parent = some np) ∧
    childOcc (move_node t i (some np) position) i = 0 ∧
    rootOcc (move_node t i (some np) position) i = 0 := by
  have hid := (get_node_mem hget).2
  have hmem := (get_node_mem hget).1
  have hnp : np ∉ t.nodes.map Node.id := by
    intro hmm2
    rw [← live_iff_mem_map] at hmm2
    rw [hdead] at hmm2
    cases hmm2
  rw [move_eq_deadp hget hnp position]
  have hD : findNode (detach_nodes t.nodes node.parent i) i = some node := by
    rw [findNode_detach]
    cases hp2 : node.parent with
    | none => exact hget
    | some opid =>
      have hone : opid ≠ i := by
        have := parent_ne_self hm hmem hp2
        rw [hid] at this
        exact this
      dsimp only
      rw [if_neg (fun he => hone he.symm)]
      exact hget
  have hids : (modify_node (detach_nodes t.nodes node.parent i) i
      (with_parent (some np))).map Node.id = t.nodes.map Node.id := by
    rw [map_id_modify_wp, detach_map_id]
  refine ⟨?_, ⟨with_parent (some np) node, ?_, rfl⟩, ?_, ?_⟩
  · rw [live_iff_mem_map, tree_nodes_mk, hids, ← live_iff_mem_map]
    exact live_of_get hget
  · show findNode _ i = _
    rw [tree_nodes_mk, findNode_modify_self_wp, hD]
    rfl
  · unfold childOcc
    rw [tree_nodes_mk, childOccL_modify_wp]
    have h2 := childOcc_detach hw hget i
    simp only [true_and] at h2
    have hocc : childOcc t i = (if node.parent.isSome then 1 else 0) := by
      cases hp2 : node.parent with
      | some opid =>
        simp only [Option.isSome_some, if_pos]
        exact hid ▸ (hw.placed_child node hmem opid hp2).2.1
      | none =>
        simp only [Option.isSome_none, Bool.false_eq_true, if_false]
        exact hid ▸ (hw.placed_root node hmem hp2).2
    cases hs : node.parent.isSome with
    | true =>
      rw [hs] at h2
      simp only [if_pos] at h2
      rw [hs] at hocc
      simp only [if_pos] at hocc
      omega
    | false =>
      rw [hs] at h2
      simp only [Bool.false_eq_true, if_false] at h2
      rw [hs] at hocc
      simp only [Bool.false_eq_true, if_false] at hocc
      omega
  · unfold rootOcc
    rw [tree_root_mk]
    cases hp2 : node.parent with
    | some opid =>
      dsimp only
      exact hid ▸ (hw.placed_child node hmem opid hp2).1
    | none =>
      dsimp only
      rw [cnt_filter_ne, if_pos rfl]

theorem claim_C10_witness :
    live (move_node sampleT 1 (some 5) 0) 1 = true ∧
    childOcc (move_node sampleT 1 (some 5) 0) 1 = 0 :=
  ⟨(claim_C10 sampleT (fun j => j) 1 5 ⟨1, "b", some 0, [], true⟩ 0
      (WFcore_of_b (by decide)) (Measured_of_b (by decide)) (by decide)
      (by decide)).1,
    (claim_C10 sampleT (fun j => j) 1 5 ⟨1, "b", some 0, [], true⟩ 0
      (WFcore_of_b (by decide)) (Measured_of_b (by decide)) (by decide)
      (by decide)).2.2.1⟩

/-- C9: for a live node with a parent and a preceding sibling, indenting and
then outdenting restores the parent field to the original parent and puts the
node back into that parent's children list — at the end, not necessarily at
its old position. -/
theorem claim_C9 (t : Tree) (m : Nat → Nat) (i : Nat) (node : Node) (pid : Nat)
    (pn : Node) (pos : Nat)
    (hw : WFcore t) (hm : Measured t m)
    (hget : get_node t i = some node) (hpar : node.parent = some pid)
    (hpget : get_node t pid = some pn)
    (hpos : pn.children.findIdx? (fun nid => nid == i) = some pos)
    (hgt : 0 < pos) :
    ∃ nr, get_node (outdent_node (indent_node t i) i) i = some nr ∧
      nr.parent = some pid ∧
      ∀ pr, get_node (outdent_node (indent_node t i) i) pid = some pr →
        i ∈ pr.children := by
  have hid := (get_node_mem hget).2
  have hmem := (get_node_mem hget).1
  have hpmem := (get_node_mem hpget).1
  have hpid := (get_node_mem hpget).2
  rcases findIdx?_spec hpos with ⟨hlen, hat⟩
  have hlen1 : pos - 1 < pn.children.length := by omega
  have hg1 : pn.children.getD (pos - 1) 0 = pn.children[pos - 1] :=
    List.getD_eq_getElem _ _ hlen1
  have hg2 : pn.children.getD pos 0 = pn.children[pos] :=
    List.getD_eq_getElem _ _ hlen
  have hsmem : pn.children.getD (pos - 1) 0 ∈ pn.children := by
    rw [hg1]
    exact List.getElem_mem hlen1
  have hslive : live t (pn.children.getD (pos - 1) 0) = true :=
    hw.children_live pn hpmem _ hsmem
  have hchn : pn.children.Nodup := children_nodup hw hpmem
  have hsne : pn.children.getD (pos - 1) 0 ≠ i := by
    intro he
    rw [hg1] at he
    rw [hg2] at hat
    have heq : pn.children[pos - 1] = pn.children[pos] := he.trans hat.symm
    have := (List.Nodup.getElem_inj_iff hchn).mp heq
    omega
  rcases parent_of_child hw hpmem hsmem with ⟨sn, hsget, hspar⟩
  have hspid : pn.children.getD (pos - 1) 0 ≠ pid := by
    intro he
    rw [he, hpget] at hsget
    have hsn : sn = pn := (Option.some_injective _ hsget).symm
    rw [hsn] at hspar
    exact parent_ne_self hm hpmem hspar rfl
  have hipid : i ≠ pid := by
    intro he
    have := parent_ne_self hm hmem hpar
    rw [hid] at this
    exact this he.symm
  have hssub : pn.children.getD (pos - 1) 0 ∉ subtree t i := by
    intro hmem2
    rcases parent_mem_subtree hw hm hmem2 with he | ⟨p2, jn, h1, h2, h3⟩
    · exact hsne he
    · rw [hsget] at h1
      have hjn : jn = sn := (Option.some_injective _ h1).symm
      rw [hjn, hspar] at h2
      have hp2 : p2 = pn.id := (Option.some_injective _ h2).symm
      rw [hp2, hpid] at h3
      exact parent_not_mem_subtree hw hm hget hpar h3
  rw [indent_eq hget hpar hpget hpos hgt]
  obtain ⟨hw1, hm1⟩ := wf_relink_parent hw hm hget hslive hsne hssub
    (fun ch => ch ++ [i]) (fun ch => cnt_append_self i ch)
    (fun ch y hy => cnt_append_other hy ch)
  have hrg := relink_parent_get hm hget hsne (fun ch => ch ++ [i])
  have hget1i : get_node (relink_parent t node i (pn.children.getD (pos - 1) 0)
      (fun ch => ch ++ [i])) i
      = some (with_parent (some (pn.children.getD (pos - 1) 0)) node) := by
    rw [hrg i, if_pos rfl]
  have hfdS : findNode (detach_nodes t.nodes node.parent i)
      (pn.children.getD (pos - 1) 0) = some sn := by
    rw [findNode_detach, hpar]
    dsimp only
    rw [if_neg hspid]
    exact hsget
  have hget1s : get_node (relink_parent t node i (pn.children.getD (pos - 1) 0)
      (fun ch => ch ++ [i])) (pn.children.getD (pos - 1) 0)
      = some (with_children (fun ch => ch ++ [i]) sn) := by
    rw [hrg _, if_neg hsne, if_pos rfl, hfdS]
    rfl
  have hb1 : (get_node (relink_parent t node i (pn.children.getD (pos - 1) 0)
      (fun ch => ch ++ [i])) (pn.children.getD (pos - 1) 0)).bind
        (fun p => p.parent) = some pid := by
    rw [hget1s, Option.some_bind]
    show sn.parent = some pid
    rw [hspar, hpid]
  have hpar1 : (with_parent (some (pn.children.getD (pos - 1) 0)) node).parent
      = some (pn.children.getD (pos - 1) 0) := rfl
  rw [outdent_eq_gp hget1i hpar1 hb1]
  have hpidi : pid ≠ i := fun he => hipid he.symm
  have hrg2 := relink_parent_get hm1 hget1i hpidi (fun ch => ch ++ [i])
  refine ⟨with_parent (some pid) (with_parent (some (pn.children.getD (pos - 1) 0)) node),
    ?_, rfl, ?_⟩
  · rw [hrg2 i, if_pos rfl]
  · intro pr hpr
    have h3 : findNode (relink_parent t node i (pn.children.getD (pos - 1) 0)
        (fun ch => ch ++ [i])).nodes pid
        = some (with_children (fun ch => ch.filter (fun c => c != i)) pn) := by
      have h4 := hrg pid
      rw [if_neg hpidi, if_neg (fun he => hspid he.symm), findNode_detach, hpar] at h4
      dsimp only at h4
      rw [if_pos rfl] at h4
      have hp2 : findNode t.nodes pid = some pn := hpget
      rw [hp2] at h4
      exact h4
    have hfd1 : findNode (detach_nodes (relink_parent t node i
        (pn.children.getD (pos - 1) 0) (fun ch => ch ++ [i])).nodes
        (with_parent (some (pn.children.getD (pos - 1) 0)) node).parent i) pid
        = some (with_children (fun ch => ch.filter (fun c => c != i)) pn) := by
      rw [findNode_detach, hpar1]
      dsimp only
      rw [if_neg (fun he => hspid he.symm)]
      exact h3
    rw [hrg2 pid, if_neg hpidi, if_pos rfl, hfd1] at hpr
    have hpr2 : pr = with_children (fun ch => ch ++ [i])
        (with_children (fun ch => ch.filter (fun c => c != i)) pn) :=
      (Option.some_injective _ hpr).symm
    rw [hpr2, wc_children, List.mem_append, List.mem_singleton]
    exact Or.inr rfl

theorem claim_C9_witness :
    ∃ nr, get_node (outdent_node (indent_node sampleT4 2) 2) 2 = some nr ∧
      nr.parent = some 0 ∧
      ∀ pr, get_node (outdent_node (indent_node sampleT4 2) 2) 0 = some pr →
        2 ∈ pr.children :=
  claim_C9 sampleT4 (fun j => j) 2 ⟨2, "c", some 0, [], true⟩ 0
    ⟨0, "a", none, [1, 2], true⟩ 1 (WFcore_of_b (by decide))
    (Measured_of_b (by decide)) (by decide) (by decide) (by decide) (by decide)
    (by decide)

end Otzar

